import Mathlib

/-!
# Huffman file compressor (`src/Main.cpp`): embedding and verified properties

The embedding follows `src/Main.cpp` function by function.

* A `char` is a byte, `Fin 256`.
* An `int` is a 32-bit two's-complement integer: an `Int` kept in range by `wrapInt` after
  every arithmetic step (signed overflow wraps around, as the usual compilers make it), stored
  in memory least significant byte first; `size_t` has 64 bits.
* A `charFreqPair*` is the inductive `charFreqPair`: `null`, or an object with its four fields.
* A `std::string` of `'0'`/`'1'` characters (bitcodes, the bit buffer, the decoder key) is a
  `List Bool`, `false` for `'0'` and `true` for `'1'`.
* An `unordered_map` is an association list with at most one entry per key.
* The `std::priority_queue` is the list of its elements; which of several elements of least
  frequency `top()` returns is decided by a parameter `pick`, so a statement for all `pick`
  holds for every tie-breaking order.
* The source file is `Option (List Byte)`: `none` when it cannot be opened. The result of
  `compressFile` and `decompressFile` is the content of the file they write.
* A step whose behaviour the language leaves undefined (`top()` of an empty queue, following a
  null pointer, using a variable that a failed stream read left uninitialised) ends the call in
  `Fault.undefined`. This is not an error the program reports: the only failure it reports is
  `Fault.cannotOpen`.
-/

namespace Huffman

/-- One `char` of the program. -/
abbrev Byte := Fin 256

/-- A bitcode: the `'0'`/`'1'` string of the source, `false` for `'0'`. -/
abbrev Code := List Bool

/-- The character `'0'`, the marker of an internal node. -/
def charZero : Byte := 48

/-- The character `'1'`, the marker of a leaf. -/
def charOne : Byte := 49

/-- The character `'~'`, stored in every internal node. -/
def charTilde : Byte := 126

/-- Ways a call can end other than by returning its result. -/
inductive Fault
  /-- The source file could not be opened: a message is printed and `""` is returned. -/
  | cannotOpen
  /-- The program does something the language does not define: it takes `top()` of an empty
  queue, follows a null pointer, or uses a variable that a failed read left uninitialised. -/
  | undefined
  /-- The recursion budget of the model ran out. -/
  | outOfFuel
  deriving DecidableEq, Repr

/-- Value of an `int` after an arithmetic step: 32-bit two's-complement wrap-around. -/
def wrapInt (x : Int) : Int := (x + 2 ^ 31) % 2 ^ 32 - 2 ^ 31

/-- A `charFreqPair*`: the null pointer or a node with `ch`, `freq`, `left`, `right`. -/
inductive charFreqPair
  | null
  | obj (ch : Byte) (freq : Int) (left right : charFreqPair)
  deriving DecidableEq, Repr

namespace charFreqPair

/-- The test `!p`. -/
def isNull : charFreqPair → Bool
  | null => true
  | obj _ _ _ _ => false

/-- Result of `new charFreqPair(ch, freq)`: both children are `NULL`. -/
def leaf (ch : Byte) (freq : Int) : charFreqPair := obj ch freq null null

/-- Accessor `getChar`; only ever called on a node. -/
def getChar : charFreqPair → Byte
  | null => 0
  | obj ch _ _ _ => ch

/-- Accessor `getFreq`; only ever called on a node. -/
def getFreq : charFreqPair → Int
  | null => 0
  | obj _ f _ _ => f

end charFreqPair

open charFreqPair

/-- The call operator of `pairComparator`. -/
def pairComparator (a b : charFreqPair) : Bool := decide (a.getFreq > b.getFreq)

/-! ## Maps -/

/-- The assignment `m[k] = v` on an `unordered_map`. -/
def mapSet {κ ν : Type} [DecidableEq κ] : List (κ × ν) → κ → ν → List (κ × ν)
  | [], k, v => [(k, v)]
  | (k', v') :: m, k, v => if k' = k then (k', v) :: m else (k', v') :: mapSet m k v

/-- The lookup `m.find(k)`. -/
def mapGet {κ ν : Type} [DecidableEq κ] : List (κ × ν) → κ → Option ν
  | [], _ => none
  | (k', v') :: m, k => if k' = k then some v' else mapGet m k

/-! ## Traversals, `writeTree`, `readTree` -/

/-- The overload of `traverse` that fills `charKeyMap`. -/
def traverse_charKeyMap :
    charFreqPair → List (Byte × Code) → Code → Except Fault (List (Byte × Code))
  | null, _, _ => .error .undefined
  | obj ch _ l r, m, s =>
    if l.isNull && r.isNull then .ok (mapSet m ch s)
    else
      match traverse_charKeyMap l m (s ++ [false]) with
      | .ok m1 => traverse_charKeyMap r m1 (s ++ [true])
      | .error e => .error e

/-- The overload of `traverse` that fills `keyCharMap`. -/
def traverse_keyCharMap :
    charFreqPair → List (Code × Byte) → Code → Except Fault (List (Code × Byte))
  | null, _, _ => .error .undefined
  | obj ch _ l r, m, s =>
    if l.isNull && r.isNull then .ok (mapSet m s ch)
    else
      match traverse_keyCharMap l m (s ++ [false]) with
      | .ok m1 => traverse_keyCharMap r m1 (s ++ [true])
      | .error e => .error e

/-- The bytes `writeTree` appends to the output stream. -/
def writeTree : charFreqPair → Except Fault (List Byte)
  | null => .error .undefined
  | obj ch _ l r =>
    if l.isNull && r.isNull then .ok [charOne, ch]
    else
      match writeTree l with
      | .ok wl =>
        match writeTree r with
        | .ok wr => .ok (charZero :: (wl ++ wr))
        | .error e => .error e
      | .error e => .error e

/-- Body of `readTree` on the unread bytes of the stream, with a recursion budget.
A read at the end of the data fails and leaves `nodeType` or `ch` uninitialised; the next
statement uses that variable. -/
def readTreeAux : Nat → List Byte → Except Fault (charFreqPair × List Byte)
  | 0, _ => .error .outOfFuel
  | _ + 1, [] => .error .undefined
  | fuel + 1, nodeType :: rest =>
    if nodeType = charOne then
      match rest with
      | [] => .error .undefined
      | ch :: rest1 => .ok (leaf ch 0, rest1)
    else
      match readTreeAux fuel rest with
      | .ok (l, rest1) =>
        match readTreeAux fuel rest1 with
        | .ok (r, rest2) => .ok (obj charTilde 0 l r, rest2)
        | .error e => .error e
      | .error e => .error e

/-- The function `readTree`: every call reads a byte before it recurses, so a budget of one
more than the number of unread bytes is never used up. -/
def readTree (s : List Byte) : Except Fault (charFreqPair × List Byte) :=
  readTreeAux (s.length + 1) s

/-! ## Frequency scan -/

/-- The statement `freq[ch]++`: a missing key is first inserted with count `0`. -/
def freqIncr : List (Byte × Int) → Byte → List (Byte × Int)
  | [], ch => [(ch, wrapInt (0 + 1))]
  | (k, v) :: m, ch => if k = ch then (k, wrapInt (v + 1)) :: m else (k, v) :: freqIncr m ch

/-- The scan loop of `compressFile`: the table `freq` once every byte has been read. -/
def scanFreq (content : List Byte) : List (Byte × Int) :=
  content.foldl freqIncr []

/-! ## Priority queue -/

/-- Elements `top()` may return: those that `pairComparator` puts after no other element. -/
def tops (pq : List charFreqPair) : List charFreqPair :=
  pq.filter fun a => pq.all fun b => !pairComparator a b

/-- The call `pq.top()`; undefined on an empty queue. -/
def pqTop (pick : List charFreqPair → Nat) (pq : List charFreqPair) :
    Except Fault charFreqPair :=
  match (tops pq)[pick pq % (tops pq).length]? with
  | some a => .ok a
  | none => .error .undefined

/-- The call `pq.pop()` after `top()` returned `a`. -/
def pqPop (pq : List charFreqPair) (a : charFreqPair) : List charFreqPair :=
  pq.erase a

/-- The call `pq.push(node)`. -/
def pqPush (pq : List charFreqPair) (node : charFreqPair) : List charFreqPair :=
  pq ++ [node]

/-- The loop `for (auto &p : freq) pq.push(new charFreqPair(p.first, p.second))`. -/
def pushAll (freq : List (Byte × Int)) : List charFreqPair :=
  freq.foldl (fun pq p => pqPush pq (leaf p.1 p.2)) []

/-- The loop `while (pq.size() > 1)`; every round makes the queue one shorter, so a budget of
the queue's size is never used up. -/
def mergeLoop (pick : List charFreqPair → Nat) :
    Nat → List charFreqPair → Except Fault (List charFreqPair)
  | 0, pq => if pq.length > 1 then .error .outOfFuel else .ok pq
  | fuel + 1, pq =>
    if pq.length > 1 then
      match pqTop pick pq with
      | .ok a =>
        match pqTop pick (pqPop pq a) with
        | .ok b =>
          mergeLoop pick fuel
            (pqPush (pqPop (pqPop pq a) b) (obj charTilde (wrapInt (a.getFreq + b.getFreq)) a b))
        | .error e => .error e
      | .error e => .error e
    else .ok pq

/-- Lines 125-138 of `compressFile`: fill the queue, merge, take `root = pq.top()`. -/
def buildTree (pick : List charFreqPair → Nat) (freq : List (Byte × Int)) :
    Except Fault charFreqPair :=
  match mergeLoop pick (pushAll freq).length (pushAll freq) with
  | .ok pq => pqTop pick pq
  | .error e => .error e

/-! ## Bit packing -/

/-- Value of `bitset<8>(str).to_ulong()` cast to `char`: the first character is the most
significant bit. -/
def byteOfBits (bits : List Bool) : Byte :=
  Fin.ofNat (bits.foldl (fun acc b => 2 * acc + (if b then 1 else 0)) 0)

/-- The string `bitset<8>(ch).to_string()`. -/
def bitsOfByte (ch : Byte) : List Bool :=
  [ch.val.testBit 7, ch.val.testBit 6, ch.val.testBit 5, ch.val.testBit 4,
   ch.val.testBit 3, ch.val.testBit 2, ch.val.testBit 1, ch.val.testBit 0]

/-- The loop `for (char c : content) buffer += charKeyMap[c]`; `operator[]` yields the empty
string for a missing key. -/
def encodeBits (charKeyMap : List (Byte × Code)) (content : List Byte) : List Bool :=
  content.foldl (fun buffer c => buffer ++ (mapGet charKeyMap c).getD []) []

/-- The loop `while (buffer.size() % 8 != 0) buffer += '0'`. -/
def padBits (buffer : List Bool) : List Bool :=
  buffer ++ List.replicate ((8 - buffer.length % 8) % 8) false

/-- The loop `for (i = 0; i < buffer.size(); i += 8)` writing one byte per `substr(i, 8)`. -/
def packBits : List Bool → List Byte
  | [] => []
  | b0 :: b1 :: b2 :: b3 :: b4 :: b5 :: b6 :: b7 :: rest =>
    byteOfBits [b0, b1, b2, b3, b4, b5, b6, b7] :: packBits rest
  | short => [byteOfBits short]

/-- The four bytes of an `int` in memory, least significant first. -/
def intBytes (x : Int) : List Byte :=
  let u := (x % 2 ^ 32).toNat
  [Fin.ofNat u, Fin.ofNat (u / 2 ^ 8), Fin.ofNat (u / 2 ^ 16), Fin.ofNat (u / 2 ^ 24)]

/-- The `int` stored in four bytes of memory, least significant first. -/
def intOfBytes (b0 b1 b2 b3 : Byte) : Int :=
  wrapInt (b0.val + 2 ^ 8 * b1.val + 2 ^ 16 * b2.val + 2 ^ 24 * b3.val : Nat)

/-- Lines 139-158 of `compressFile`: derive the codes from `root` and write the container. -/
def writeContainer (root : charFreqPair) (content : List Byte) : Except Fault (List Byte) :=
  match traverse_charKeyMap root [] [] with
  | .ok charKeyMap =>
    match writeTree root with
    | .ok tree =>
      let numChars : Int := wrapInt content.length
      .ok (tree ++ intBytes numChars ++ packBits (padBits (encodeBits charKeyMap content)))
    | .error e => .error e
  | .error e => .error e

/-- The function `compressFile` on the source file's bytes; the result is the content of the
file it writes. -/
def compressFile (pick : List charFreqPair → Nat) (source : Option (List Byte)) :
    Except Fault (List Byte) :=
  match source with
  | none => .error .cannotOpen
  | some content =>
    match buildTree pick (scanFreq content) with
    | .ok root => writeContainer root content
    | .error e => .error e

/-! ## Decompression -/

/-- The inner loop `for (char b : bin)` of `decompressFile`, on the pair `(key, output)`. -/
def unpackBits (keyCharMap : List (Code × Byte)) (totalChars : Nat) :
    List Bool → Code × List Byte → Code × List Byte
  | [], st => st
  | b :: bin, (key, output) =>
    match mapGet keyCharMap (key ++ [b]) with
    | some c =>
      if (output ++ [c]).length = totalChars then ([], output ++ [c])
      else unpackBits keyCharMap totalChars bin ([], output ++ [c])
    | none => unpackBits keyCharMap totalChars bin (key ++ [b], output)

/-- The loop `while (reader.get(ch) && output.size() < totalChars)`. -/
def unpackLoop (keyCharMap : List (Code × Byte)) (totalChars : Nat) :
    List Byte → Code × List Byte → List Byte
  | [], st => st.2
  | ch :: rest, st =>
    if st.2.length < totalChars then
      unpackLoop keyCharMap totalChars rest (unpackBits keyCharMap totalChars (bitsOfByte ch) st)
    else st.2

/-- The value `static_cast<size_t>(totalChars)`. -/
def sizeOfInt (x : Int) : Nat := (x % 2 ^ 64).toNat

/-- Lines 183-199 of `decompressFile`: read the count, then unpack. When fewer than four bytes
are left the read fails, nothing is left for `reader.get`, and the loop body never runs. -/
def unpack (keyCharMap : List (Code × Byte)) : List Byte → List Byte
  | b0 :: b1 :: b2 :: b3 :: payload =>
    unpackLoop keyCharMap (sizeOfInt (intOfBytes b0 b1 b2 b3)) payload ([], [])
  | _ => []

/-- The function `decompressFile` on the compressed file's bytes; the result is the content of
the file it writes. -/
def decompressFile (compressed : Option (List Byte)) : Except Fault (List Byte) :=
  match compressed with
  | none => .error .cannotOpen
  | some bytes =>
    match readTree bytes with
    | .ok (root, rest) =>
      match traverse_keyCharMap root [] [] with
      | .ok keyCharMap => .ok (unpack keyCharMap rest)
      | .error e => .error e
    | .error e => .error e

/-- First-minimum tie-breaking, used for concrete evaluation. -/
def pickFirst : List charFreqPair → Nat := fun _ => 0

/-! ## Tree shape -/

/-- Every node reachable from the pointer has either no child or two children, and the pointer
itself is not null. -/
def full : charFreqPair → Bool
  | null => false
  | obj _ _ l r => (l.isNull && r.isNull) || (full l && full r)

/-- Symbols of the leaves, left to right. -/
def leafSyms : charFreqPair → List Byte
  | null => []
  | obj ch _ l r => if l.isNull && r.isNull then [ch] else leafSyms l ++ leafSyms r

/-- Leaves with the path that leads to each from a node reached by the path `s`: `false` for a
step to `left`, `true` for a step to `right`. -/
def leafPaths : charFreqPair → Code → List (Byte × Code)
  | null, _ => []
  | obj ch _ l r, s =>
    if l.isNull && r.isNull then [(ch, s)]
    else leafPaths l (s ++ [false]) ++ leafPaths r (s ++ [true])

/-- Number of nodes on the longest downward path. -/
def height : charFreqPair → Nat
  | null => 0
  | obj _ _ l r => max (height l) (height r) + 1

/-- Preorder serialisation of a tree: `'1'` and the symbol for a leaf, `'0'` and the two
subtrees for an internal node. -/
def treeBytes : charFreqPair → List Byte
  | null => []
  | obj ch _ l r =>
    if l.isNull && r.isNull then [charOne, ch] else charZero :: (treeBytes l ++ treeBytes r)

/-- The tree with every frequency reset to `0` and `'~'` in every internal node. -/
def strip : charFreqPair → charFreqPair
  | null => null
  | obj ch _ l r =>
    if l.isNull && r.isNull then obj ch 0 null null else obj charTilde 0 (strip l) (strip r)

/-- Two trees have the same shape and carry the same symbol in corresponding leaves. -/
def sameShape : charFreqPair → charFreqPair → Bool
  | null, null => true
  | obj c _ l r, obj c' _ l' r' =>
    sameShape l l' && sameShape r r' && (!(l.isNull && r.isNull) || c == c')
  | _, _ => false

/-- Leaf symbols of all trees in the queue. -/
def queueSyms (pq : List charFreqPair) : List Byte := (pq.map leafSyms).flatten

/-- The 4-byte little-endian encoding of a number: byte `i` is digit `i` in base 256. -/
def le32 (n : Nat) : List Byte :=
  (List.range 4).map fun i => Fin.ofNat (n / 256 ^ i % 256)

/-- The input holds at least two distinct byte values. -/
def twoDistinct (B : List Byte) : Prop := ∃ x ∈ B, ∃ y ∈ B, x ≠ y

/-- Serialisation of a tree in which the marker written for an internal node is that node's own
`ch` field instead of `'0'`; leaves are written as `writeTree` writes them. -/
def markedBytes : charFreqPair → List Byte
  | null => []
  | obj ch _ l r =>
    if l.isNull && r.isNull then [charOne, ch] else ch :: (markedBytes l ++ markedBytes r)

/-- No internal node carries `'1'` in its `ch` field. -/
def markersOk : charFreqPair → Bool
  | null => true
  | obj ch _ l r =>
    (l.isNull && r.isNull) || (decide (ch ≠ charOne) && markersOk l && markersOk r)

/-! ## Paths -/

/-- The string literal `"compressed_"`. -/
def tagCompressed : List Char := ['c', 'o', 'm', 'p', 'r', 'e', 's', 's', 'e', 'd', '_']

/-- The string literal `"decompressed_"`. -/
def tagDecompressed : List Char :=
  ['d', 'e', 'c', 'o', 'm', 'p', 'r', 'e', 's', 's', 'e', 'd', '_']

/-- The loop of `lposSlash` from index `i` on, with the current value of the `int pos`. -/
def lposSlashLoop : List Char → Nat → Int → Int
  | [], _, pos => pos
  | c :: rest, i, pos => lposSlashLoop rest (i + 1) (if c = '/' then wrapInt i else pos)

/-- The function `lposSlash`. -/
def lposSlash (path : List Char) : Int := lposSlashLoop path 0 (-1)

/-- The call `s.substr(pos, n)`, with `n = none` for the one-argument form; `none` when
`pos > s.size()` and `std::out_of_range` is thrown. -/
def substr (s : List Char) (pos : Nat) (n : Option Nat) : Option (List Char) :=
  if pos > s.length then none
  else
    match n with
    | some k => some ((s.drop pos).take k)
    | none => some (s.drop pos)

/-- Lines 166-173 of `decompressFile`: the value of `retrievedFile` when the caller passed
`""`; the `int` expressions `pos + 1` and `pos + 11 + 1` are converted to `size_t`. -/
def defaultRetrievedFile (compressedFile : List Char) : Option (List Char) :=
  let pos := lposSlash compressedFile
  match substr compressedFile 0 (some (sizeOfInt (wrapInt (pos + 1)))) with
  | none => none
  | some dir =>
    match substr compressedFile (sizeOfInt (wrapInt (pos + 1))) (some 11) with
    | none => none
    | some head =>
      if head = tagCompressed then
        match substr compressedFile (sizeOfInt (wrapInt (wrapInt (pos + 11) + 1))) none with
        | none => none
        | some tail => some (dir ++ tagDecompressed ++ tail)
      else
        match substr compressedFile (sizeOfInt (wrapInt (pos + 1))) none with
        | none => none
        | some tail => some (dir ++ tagDecompressed ++ tail)

/-- The string `decompressFile` returns when called with the path `compressedFile` and no
destination. The default destination is computed first, and the call returns nothing (`none`)
when that throws. Then `""` is returned when the file cannot be opened. Otherwise `readTree`,
`traverse` and the unpack loop run, and only when they complete is the destination returned, by
the last statement of the function; when they do not complete the call returns nothing. -/
def decompressFileReturn (compressedFile : List Char) (compressed : Option (List Byte)) :
    Option (List Char) :=
  match defaultRetrievedFile compressedFile with
  | none => none
  | some retrievedFile =>
    match compressed with
    | none => some []
    | some bytes =>
      match decompressFile (some bytes) with
      | .ok _ => some retrievedFile
      | .error _ => none

/-! ## Weighted path length -/

/-- The multisets of leaf depths of the binary trees in which every node has zero or two
children: a single leaf at depth 0, or two such trees hung one level down. -/
inductive TreeDepths : Multiset Nat → Prop
  | single : TreeDepths {0}
  | node (A B : Multiset Nat) : TreeDepths A → TreeDepths B →
      TreeDepths (A.map Nat.succ + B.map Nat.succ)

/-- Sum of weight times depth over pairs of a weight and a depth. -/
def pairsCost (C : Multiset (Int × Nat)) : Int := (C.map fun p => p.1 * (p.2 : Int)).sum

/-- Leaves of a tree, each with its symbol and its own `freq` field, left to right. -/
def leafEntries : charFreqPair → List (Byte × Int)
  | null => []
  | obj ch f l r => if l.isNull && r.isNull then [(ch, f)] else leafEntries l ++ leafEntries r

/-- Leaf entries of all trees in the queue. -/
def queueEntries (pq : List charFreqPair) : List (Byte × Int) := (pq.map leafEntries).flatten

/-- In every internal node the `freq` field is the sum of the `freq` fields of the two
children. -/
def sumsOk : charFreqPair → Bool
  | null => true
  | obj _ f l r =>
    (l.isNull && r.isNull) || (decide (f = l.getFreq + r.getFreq) && sumsOk l && sumsOk r)

/-- Leaves of a tree with their depth, the root of the tree being at depth `d`. -/
def leafDepths : charFreqPair → Nat → List (Byte × Nat)
  | null, _ => []
  | obj ch _ l r, d =>
    if l.isNull && r.isNull then [(ch, d)] else leafDepths l (d + 1) ++ leafDepths r (d + 1)

/-- Sum over the leaves of `g symbol` times depth, the root of the tree being at depth `d`. -/
def weightedAt (g : Byte → Int) : charFreqPair → Nat → Int
  | null, _ => 0
  | obj ch _ l r, d =>
    if l.isNull && r.isNull then g ch * (d : Int)
    else weightedAt g l (d + 1) + weightedAt g r (d + 1)

/-- Sum over the symbols of a tree of the symbol's count in the table `freq` times the length
of the symbol's bitcode. -/
def weightedLength (freq : List (Byte × Int)) (t : charFreqPair) : Int :=
  ((leafPaths t []).map fun p => (mapGet freq p.1).getD 0 * (p.2.length : Int)).sum

/-- Sum over the leaves of a tree of the leaf's own `freq` field times its depth. -/
def ownCost : charFreqPair → Int
  | null => 0
  | obj _ _ l r =>
    if l.isNull && r.isNull then 0
    else ownCost l + ownCost r + ((leafEntries l).map Prod.snd).sum
      + ((leafEntries r).map Prod.snd).sum

/-- The queue holds full trees with correct sums and frequencies that are not negative, and
the frequencies of its trees add up to less than `2^31`. -/
def QueueOk (pq : List charFreqPair) : Prop :=
  (∀ t ∈ pq, full t = true ∧ sumsOk t = true ∧ 0 ≤ t.getFreq) ∧
    (pq.map getFreq).sum < 2 ^ 31

/-- The tree with the symbol of every leaf replaced by its image under `σ`. -/
def relabel (σ : Byte → Byte) : charFreqPair → charFreqPair
  | null => null
  | obj ch f l r =>
    if l.isNull && r.isNull then obj (σ ch) f null null else obj ch f (relabel σ l) (relabel σ r)

/-- The exchange of the two symbols `a` and `b`. -/
def swapSym (a b c : Byte) : Byte := if c = a then b else if c = b then a else c

/-! # Theorems -/

/-! ## Trees, `writeTree` and `readTree` -/

theorem isNull_iff (t : charFreqPair) : t.isNull = true ↔ t = null := by
  cases t <;> simp [isNull]

theorem full_not_isNull {t : charFreqPair} (h : full t = true) : t.isNull = false := by
  cases t <;> simp_all [full, isNull]

/-- An internal node of a full tree has two full children. -/
theorem full_children {ch : Byte} {f : Int} {l r : charFreqPair}
    (h : full (obj ch f l r) = true) (hl : (l.isNull && r.isNull) = false) :
    full l = true ∧ full r = true := by
  simpa [full, hl] using h

theorem writeTree_eq_treeBytes (t : charFreqPair) (h : full t = true) :
    writeTree t = .ok (treeBytes t) := by
  induction t with
  | null => simp [full] at h
  | obj ch f l r ihl ihr =>
    by_cases hl : (l.isNull && r.isNull) = true
    · simp [writeTree, treeBytes, hl]
    · have hl' : (l.isNull && r.isNull) = false := by simpa using hl
      obtain ⟨h1, h2⟩ := full_children h hl'
      simp [writeTree, treeBytes, hl', ihl h1, ihr h2]

theorem charZero_ne_charOne : charZero ≠ charOne := by decide

/-- Reading back a serialised full tree: any budget above the tree's height suffices, and the
bytes that follow the tree are left unread. -/
theorem readTreeAux_treeBytes (t : charFreqPair) (h : full t = true) :
    ∀ (fuel : Nat) (R : List Byte), height t ≤ fuel →
      readTreeAux fuel (treeBytes t ++ R) = .ok (strip t, R) := by
  induction t with
  | null => simp [full] at h
  | obj ch f l r ihl ihr =>
    intro fuel R hf
    cases fuel with
    | zero => simp [height] at hf
    | succ fuel =>
      by_cases hl : (l.isNull && r.isNull) = true
      · simp [treeBytes, strip, hl, readTreeAux, leaf]
      · have hl' : (l.isNull && r.isNull) = false := by simpa using hl
        obtain ⟨h1, h2⟩ := full_children h hl'
        have hfl : height l ≤ fuel := by simp [height] at hf; omega
        have hfr : height r ≤ fuel := by simp [height] at hf; omega
        have e1 := ihl h1 fuel (treeBytes r ++ R) hfl
        have e2 := ihr h2 fuel R hfr
        simp only [treeBytes, strip, hl', Bool.false_eq_true, if_false, List.cons_append,
          List.append_assoc, readTreeAux, charZero_ne_charOne, e1, e2]

theorem height_le_length_treeBytes (t : charFreqPair) (h : full t = true) :
    height t ≤ (treeBytes t).length := by
  induction t with
  | null => simp [full] at h
  | obj ch f l r ihl ihr =>
    by_cases hl : (l.isNull && r.isNull) = true
    · have hl2 := hl
      simp only [Bool.and_eq_true, isNull_iff] at hl2
      obtain ⟨rfl, rfl⟩ := hl2
      simp [treeBytes, height, isNull]
    · have hl' : (l.isNull && r.isNull) = false := by simpa using hl
      obtain ⟨h1, h2⟩ := full_children h hl'
      have := ihl h1
      have := ihr h2
      simp only [treeBytes, height, hl', Bool.false_eq_true, if_false, List.length_cons,
        List.length_append]
      omega

theorem readTree_treeBytes (t : charFreqPair) (h : full t = true) (R : List Byte) :
    readTree (treeBytes t ++ R) = .ok (strip t, R) := by
  unfold readTree
  apply readTreeAux_treeBytes t h
  have := height_le_length_treeBytes t h
  simp only [List.length_append]
  omega

theorem sameShape_strip (t : charFreqPair) : sameShape t (strip t) = true := by
  induction t with
  | null => simp [strip, sameShape]
  | obj ch f l r ihl ihr =>
    by_cases hl : (l.isNull && r.isNull) = true
    · have hl2 := hl
      simp only [Bool.and_eq_true, isNull_iff] at hl2
      obtain ⟨rfl, rfl⟩ := hl2
      simp [strip, sameShape, isNull]
    · have hl' : (l.isNull && r.isNull) = false := by simpa using hl
      simp [strip, sameShape, hl', ihl, ihr]

/-- C3. Tree round trip and self-delimitation: for every tree `T` in which each node is a leaf
or has two children, and every trailing byte sequence `R`, `writeTree` succeeds and `readTree`
on its output followed by `R` returns a tree of the same shape with the same leaf symbols and
leaves exactly `R` unread. -/
theorem readTree_writeTree (T : charFreqPair) (R : List Byte) (hT : full T = true) :
    ∃ w T', writeTree T = .ok w ∧ readTree (w ++ R) = .ok (T', R) ∧ sameShape T T' = true :=
  ⟨treeBytes T, strip T, writeTree_eq_treeBytes T hT, readTree_treeBytes T hT R,
    sameShape_strip T⟩

/-- A three-leaf tree followed by two more bytes is read back, the two bytes left over. -/
theorem readTree_writeTree_witness :
    full (obj 0 6 (leaf 97 3) (obj 0 3 (leaf 99 1) (leaf 98 2))) = true ∧
    ∃ w T', writeTree (obj 0 6 (leaf 97 3) (obj 0 3 (leaf 99 1) (leaf 98 2))) = .ok w ∧
      readTree (w ++ [7, 0]) = .ok (T', [7, 0]) ∧
      sameShape (obj 0 6 (leaf 97 3) (obj 0 3 (leaf 99 1) (leaf 98 2))) T' = true :=
  ⟨by decide, readTree_writeTree _ [7, 0] (by decide)⟩

/-! ## The priority queue and the merge loop -/

theorem exists_least_freq (pq : List charFreqPair) (h : pq ≠ []) :
    ∃ a ∈ pq, ∀ b ∈ pq, a.getFreq ≤ b.getFreq := by
  induction pq with
  | nil => exact absurd rfl h
  | cons x xs ih =>
    by_cases hx : xs = []
    · subst hx
      exact ⟨x, by simp, by simp⟩
    · obtain ⟨a, ha, hmin⟩ := ih hx
      by_cases hle : x.getFreq ≤ a.getFreq
      · refine ⟨x, by simp, ?_⟩
        intro b hb
        rcases List.mem_cons.1 hb with rfl | hb
        · exact le_refl _
        · exact le_trans hle (hmin b hb)
      · refine ⟨a, List.mem_cons_of_mem _ ha, ?_⟩
        intro b hb
        rcases List.mem_cons.1 hb with rfl | hb
        · omega
        · exact hmin b hb

theorem mem_tops {pq : List charFreqPair} {a : charFreqPair} :
    a ∈ tops pq ↔ a ∈ pq ∧ ∀ b ∈ pq, a.getFreq ≤ b.getFreq := by
  simp [tops, pairComparator]

theorem tops_ne_nil (pq : List charFreqPair) (h : pq ≠ []) : tops pq ≠ [] := by
  obtain ⟨a, ha, hmin⟩ := exists_least_freq pq h
  exact List.ne_nil_of_mem (mem_tops.2 ⟨ha, hmin⟩)

/-- On a non-empty queue `top()` returns one of the elements of least frequency. -/
theorem pqTop_ok (pick : List charFreqPair → Nat) (pq : List charFreqPair) (h : pq ≠ []) :
    ∃ a, pqTop pick pq = .ok a ∧ a ∈ tops pq := by
  have hpos : 0 < (tops pq).length := List.length_pos.2 (tops_ne_nil pq h)
  have hlt : pick pq % (tops pq).length < (tops pq).length := Nat.mod_lt _ hpos
  refine ⟨(tops pq)[pick pq % (tops pq).length], ?_, List.getElem_mem _⟩
  simp [pqTop, List.getElem?_eq_getElem hlt]

theorem pqTop_nil (pick : List charFreqPair → Nat) : pqTop pick [] = .error .undefined := by
  simp [pqTop, tops]

theorem pqTop_mem {pick : List charFreqPair → Nat} {pq : List charFreqPair} {a : charFreqPair}
    (h : pqTop pick pq = .ok a) : a ∈ tops pq := by
  unfold pqTop at h
  split at h
  · next b hb =>
    cases h
    exact List.getElem?_mem hb
  · cases h

theorem pqTop_singleton (pick : List charFreqPair → Nat) (a : charFreqPair) :
    pqTop pick [a] = .ok a := by
  obtain ⟨b, hb, hmem⟩ := pqTop_ok pick [a] (by simp)
  have : b = a := by simpa using (mem_tops.1 hmem).1
  rw [hb, this]

theorem queueSyms_perm {p q : List charFreqPair} (h : p.Perm q) :
    (queueSyms p).Perm (queueSyms q) :=
  List.Perm.flatten (h.map _)

theorem full_obj {a b : charFreqPair} (ch : Byte) (f : Int) (ha : full a = true)
    (hb : full b = true) : full (obj ch f a b) = true := by
  simp [full, ha, hb]

theorem leafSyms_obj {a b : charFreqPair} (ch : Byte) (f : Int) (ha : full a = true) :
    leafSyms (obj ch f a b) = leafSyms a ++ leafSyms b := by
  simp [leafSyms, full_not_isNull ha]

/-- The merge loop ends with exactly one tree in the queue; the tree is full and its leaves
are the leaves that were in the queue at the start. -/
theorem mergeLoop_ok (pick : List charFreqPair → Nat) :
    ∀ (fuel : Nat) (pq : List charFreqPair), pq ≠ [] → pq.length ≤ fuel + 1 →
      (∀ t ∈ pq, full t = true) →
      ∃ root, mergeLoop pick fuel pq = .ok [root] ∧ full root = true ∧
        (leafSyms root).Perm (queueSyms pq) := by
  intro fuel
  induction fuel with
  | zero =>
    intro pq hne hlen hfull
    match pq, hne, hlen with
    | [a], _, _ =>
      exact ⟨a, by simp [mergeLoop], hfull a (by simp), by simp [queueSyms]⟩
    | _ :: _ :: _, _, hlen => simp at hlen
  | succ fuel ih =>
    intro pq hne hlen hfull
    by_cases h1 : pq.length > 1
    · obtain ⟨a, hta, hma⟩ := pqTop_ok pick pq hne
      have ha : a ∈ pq := (mem_tops.1 hma).1
      have hlen1 : (pqPop pq a).length = pq.length - 1 := by
        simp [pqPop, List.length_erase_of_mem ha]
      have hne1 : pqPop pq a ≠ [] := by
        intro h0
        rw [h0] at hlen1
        simp at hlen1
        omega
      obtain ⟨b, htb, hmb⟩ := pqTop_ok pick (pqPop pq a) hne1
      have hb : b ∈ pqPop pq a := (mem_tops.1 hmb).1
      have hlen2 : (pqPop (pqPop pq a) b).length = pq.length - 2 := by
        simp [pqPop, List.length_erase_of_mem ha] at hb ⊢
        rw [List.length_erase_of_mem hb, List.length_erase_of_mem ha]
        omega
      have hfa : full a = true := hfull a ha
      have hfb : full b = true := hfull b (List.mem_of_mem_erase hb)
      set node := obj charTilde (wrapInt (a.getFreq + b.getFreq)) a b with hnode
      have hperm : pq.Perm (a :: b :: pqPop (pqPop pq a) b) :=
        (List.perm_cons_erase ha).trans ((List.perm_cons_erase hb).cons a)
      obtain ⟨root, hr, hfr, hpr⟩ := ih (pqPush (pqPop (pqPop pq a) b) node)
        (by simp [pqPush])
        (by simp [pqPush, hlen2]; omega)
        (by
          intro t ht
          rcases List.mem_append.1 ht with ht | ht
          · exact hfull t (List.mem_of_mem_erase (List.mem_of_mem_erase ht))
          · have : t = node := by simpa using ht
            rw [this]
            exact full_obj _ _ hfa hfb)
      refine ⟨root, ?_, hfr, hpr.trans ?_⟩
      · simp only [mergeLoop, h1, if_true, hta, htb]
        exact hr
      · have e1 : queueSyms (pqPush (pqPop (pqPop pq a) b) node) =
            queueSyms (pqPop (pqPop pq a) b) ++ (leafSyms a ++ leafSyms b) := by
          simp [queueSyms, pqPush, hnode, leafSyms_obj _ _ hfa]
        have e2 : (queueSyms pq).Perm
            (leafSyms a ++ (leafSyms b ++ queueSyms (pqPop (pqPop pq a) b))) := by
          have := queueSyms_perm hperm
          simpa [queueSyms] using this
        rw [e1]
        refine List.Perm.trans ?_ e2.symm
        rw [← List.append_assoc (leafSyms a)]
        exact List.perm_append_comm
    · have : pq.length = 1 := by
        have := List.length_pos.2 hne
        omega
      match pq, this with
      | [a], _ =>
        exact ⟨a, by simp [mergeLoop], hfull a (by simp), by simp [queueSyms]⟩

theorem pushAll_eq_map (freq : List (Byte × Int)) :
    pushAll freq = freq.map fun p => leaf p.1 p.2 := by
  have key : ∀ (acc : List charFreqPair),
      freq.foldl (fun pq p => pqPush pq (leaf p.1 p.2)) acc
        = acc ++ freq.map fun p => leaf p.1 p.2 := by
    induction freq with
    | nil => simp
    | cons x xs ih =>
      intro acc
      rw [List.foldl_cons, ih]
      simp [pqPush]
  simpa [pushAll] using key []

theorem queueSyms_pushAll (freq : List (Byte × Int)) :
    queueSyms (pushAll freq) = freq.map Prod.fst := by
  rw [pushAll_eq_map]
  induction freq with
  | nil => simp [queueSyms]
  | cons x xs ih =>
    simp only [queueSyms, List.map_cons, List.flatten_cons] at ih ⊢
    rw [ih]
    simp [leaf, leafSyms, isNull]

/-- For a non-empty frequency table the tree build returns a full tree whose leaves are the
table's keys, whatever `top()` does among equal frequencies. -/
theorem buildTree_ok (pick : List charFreqPair → Nat) (freq : List (Byte × Int))
    (h : freq ≠ []) :
    ∃ root, buildTree pick freq = .ok root ∧ full root = true ∧
      (leafSyms root).Perm (freq.map Prod.fst) := by
  have hne : pushAll freq ≠ [] := by
    rw [pushAll_eq_map]
    simpa using h
  obtain ⟨root, hr, hf, hp⟩ := mergeLoop_ok pick (pushAll freq).length (pushAll freq) hne
    (by omega)
    (by
      intro t ht
      rw [pushAll_eq_map] at ht
      obtain ⟨p, _, rfl⟩ := List.mem_map.1 ht
      simp [leaf, full, isNull])
  refine ⟨root, ?_, hf, ?_⟩
  · simp [buildTree, hr, pqTop_singleton]
  · rw [← queueSyms_pushAll]
    exact hp

/-! ## Maps -/

theorem mapGet_mapSet {κ ν : Type} [DecidableEq κ] (m : List (κ × ν)) (k k' : κ) (v : ν) :
    mapGet (mapSet m k v) k' = if k = k' then some v else mapGet m k' := by
  induction m with
  | nil => simp [mapSet, mapGet]
  | cons x xs ih =>
    obtain ⟨a, b⟩ := x
    by_cases h : a = k
    · subst h
      by_cases h2 : a = k' <;> simp [mapSet, mapGet, h2]
    · by_cases h' : a = k'
      · subst h'
        have : ¬ k = a := fun e => h e.symm
        simp [mapSet, mapGet, h, this]
      · simp [mapSet, mapGet, h, h', ih]

theorem keys_mapSet {κ ν : Type} [DecidableEq κ] (m : List (κ × ν)) (k : κ) (v : ν) :
    (mapSet m k v).map Prod.fst =
      if k ∈ m.map Prod.fst then m.map Prod.fst else m.map Prod.fst ++ [k] := by
  induction m with
  | nil => simp [mapSet]
  | cons x xs ih =>
    obtain ⟨a, b⟩ := x
    by_cases h : a = k
    · subst h
      simp [mapSet]
    · have h' : ¬ k = a := fun e => h e.symm
      by_cases hk : k ∈ xs.map Prod.fst
      · simp only [mapSet, h, if_false, List.map_cons, ih, hk, if_true, List.mem_cons, or_true]
      · simp only [mapSet, h, if_false, List.map_cons, ih, hk, List.mem_cons, h', or_self,
          List.cons_append]

theorem mapGet_eq_none {κ ν : Type} [DecidableEq κ] (m : List (κ × ν)) (k : κ) :
    mapGet m k = none ↔ k ∉ m.map Prod.fst := by
  induction m with
  | nil => simp [mapGet]
  | cons x xs ih =>
    obtain ⟨a, b⟩ := x
    by_cases h : a = k
    · subst h
      simp [mapGet]
    · have h' : ¬ k = a := fun e => h e.symm
      simp [mapGet, h, h', ih]

/-- Filling a map from a list of entries with distinct keys, none of them in the map yet:
the keys are appended in order. -/
theorem keys_foldl_mapSet {κ ν : Type} [DecidableEq κ] (L : List (κ × ν)) :
    ∀ m : List (κ × ν), (L.map Prod.fst).Nodup →
      (∀ k ∈ L.map Prod.fst, k ∉ m.map Prod.fst) →
      (L.foldl (fun m p => mapSet m p.1 p.2) m).map Prod.fst
        = m.map Prod.fst ++ L.map Prod.fst := by
  induction L with
  | nil => intro m _ _; simp
  | cons x xs ih =>
    intro m hnd hdis
    obtain ⟨hx, hnd'⟩ := List.nodup_cons.1 hnd
    have hxm : x.1 ∉ m.map Prod.fst := hdis x.1 (by simp)
    have hk : (mapSet m x.1 x.2).map Prod.fst = m.map Prod.fst ++ [x.1] := by
      rw [keys_mapSet, if_neg hxm]
    rw [List.foldl_cons, ih (mapSet m x.1 x.2) hnd', hk]
    · simp
    · intro k hkx
      rw [hk]
      intro hmem
      rcases List.mem_append.1 hmem with h1 | h1
      · exact hdis k (by simp [List.mem_map] at hkx ⊢; exact Or.inr hkx) h1
      · have : k = x.1 := by simpa using h1
        subst this
        exact hx hkx

/-- Looking up in a map filled from a list of entries with distinct keys. -/
theorem mapGet_foldl_mapSet {κ ν : Type} [DecidableEq κ] (L : List (κ × ν)) :
    ∀ m : List (κ × ν), (L.map Prod.fst).Nodup → ∀ k : κ,
      mapGet (L.foldl (fun m p => mapSet m p.1 p.2) m) k
        = if k ∈ L.map Prod.fst then mapGet L k else mapGet m k := by
  induction L with
  | nil => intro m _ k; simp
  | cons x xs ih =>
    intro m hnd k
    obtain ⟨a, b⟩ := x
    obtain ⟨hx, hnd'⟩ := List.nodup_cons.1 hnd
    rw [List.foldl_cons, ih _ hnd' k]
    by_cases hk : k ∈ xs.map Prod.fst
    · have hne : ¬ a = k := by
        rintro rfl
        exact hx hk
      have hmem : k ∈ ((a, b) :: xs).map Prod.fst := by
        simp only [List.map_cons, List.mem_cons]
        exact Or.inr hk
      rw [if_pos hk, if_pos hmem]
      simp [mapGet, hne]
    · rw [if_neg hk, mapGet_mapSet]
      by_cases hak : a = k
      · subst hak
        simp [mapGet]
      · have hnm : k ∉ ((a, b) :: xs).map Prod.fst := by
          simp only [List.map_cons, List.mem_cons, not_or]
          exact ⟨fun e => hak e.symm, hk⟩
        rw [if_neg hnm]
        simp [hak]

theorem mapGet_of_mem {κ ν : Type} [DecidableEq κ] (L : List (κ × ν)) (h : (L.map Prod.fst).Nodup)
    (k : κ) (v : ν) : mapGet L k = some v ↔ (k, v) ∈ L := by
  induction L with
  | nil => simp [mapGet]
  | cons x xs ih =>
    obtain ⟨a, b⟩ := x
    obtain ⟨hx, hnd'⟩ := List.nodup_cons.1 h
    by_cases hak : a = k
    · subst hak
      have : ∀ v, (a, v) ∉ xs := fun v hv => hx (List.mem_map.2 ⟨(a, v), hv, rfl⟩)
      simp only [mapGet, if_true, Option.some.injEq, List.mem_cons, Prod.mk.injEq, true_and]
      constructor
      · intro e; exact Or.inl e.symm
      · rintro (e | e)
        · exact e.symm
        · exact absurd e (this v)
    · have hka : ¬ k = a := fun e => hak e.symm
      simp [mapGet, hak, hka, ih hnd']

/-! ## Code tables -/

theorem leafPaths_keys (t : charFreqPair) (s : Code) :
    (leafPaths t s).map Prod.fst = leafSyms t := by
  induction t generalizing s with
  | null => simp [leafPaths, leafSyms]
  | obj ch f l r ihl ihr =>
    by_cases hl : (l.isNull && r.isNull) = true
    · simp [leafPaths, leafSyms, hl]
    · have hl' : (l.isNull && r.isNull) = false := by simpa using hl
      simp [leafPaths, leafSyms, hl', ihl, ihr]

theorem traverse_charKeyMap_eq (t : charFreqPair) (h : full t = true) :
    ∀ (m : List (Byte × Code)) (s : Code),
      traverse_charKeyMap t m s = .ok ((leafPaths t s).foldl (fun m p => mapSet m p.1 p.2) m) := by
  induction t with
  | null => simp [full] at h
  | obj ch f l r ihl ihr =>
    intro m s
    by_cases hl : (l.isNull && r.isNull) = true
    · simp [traverse_charKeyMap, leafPaths, hl]
    · have hl' : (l.isNull && r.isNull) = false := by simpa using hl
      obtain ⟨h1, h2⟩ := full_children h hl'
      simp [traverse_charKeyMap, leafPaths, hl', ihl h1, ihr h2, List.foldl_append]

theorem traverse_keyCharMap_eq (t : charFreqPair) (h : full t = true) :
    ∀ (m : List (Code × Byte)) (s : Code),
      traverse_keyCharMap t m s
        = .ok (((leafPaths t s).map Prod.swap).foldl (fun m p => mapSet m p.1 p.2) m) := by
  induction t with
  | null => simp [full] at h
  | obj ch f l r ihl ihr =>
    intro m s
    by_cases hl : (l.isNull && r.isNull) = true
    · simp [traverse_keyCharMap, leafPaths, hl]
    · have hl' : (l.isNull && r.isNull) = false := by simpa using hl
      obtain ⟨h1, h2⟩ := full_children h hl'
      simp [traverse_keyCharMap, leafPaths, hl', ihl h1, ihr h2, List.foldl_append]

/-- Every path recorded below a node extends the path of that node. -/
theorem leafPaths_extends (t : charFreqPair) :
    ∀ (s : Code) (p : Byte × Code), p ∈ leafPaths t s → s <+: p.2 := by
  induction t with
  | null => intro s p hp; simp [leafPaths] at hp
  | obj ch f l r ihl ihr =>
    intro s p hp
    by_cases hl : (l.isNull && r.isNull) = true
    · simp only [leafPaths, hl, if_true, List.mem_singleton] at hp
      subst hp
      exact List.prefix_refl _
    · have hl' : (l.isNull && r.isNull) = false := by simpa using hl
      simp only [leafPaths, hl', Bool.false_eq_true, if_false, List.mem_append] at hp
      rcases hp with hp | hp
      · exact (List.prefix_append s [false]).trans (ihl _ p hp)
      · exact (List.prefix_append s [true]).trans (ihr _ p hp)

/-- A word that continues `s` with `0` is no initial segment of a word that continues `s`
with `1`, nor the other way round. -/
theorem not_initial_of_fork (s p q : Code) (hp : s ++ [false] <+: p) (hq : s ++ [true] <+: q) :
    ¬ p <+: q ∧ ¬ q <+: p := by
  have key : ∀ w : Code, s ++ [false] <+: w → s ++ [true] <+: w → False := by
    intro w h0 h1
    have hle : (s ++ [false]).length ≤ (s ++ [true]).length := by simp
    have h2 := List.prefix_of_prefix_length_le h0 h1 hle
    have h3 := h2.eq_of_length (by simp)
    simp at h3
  exact ⟨fun h => key q (hp.trans h) hq, fun h => key p hp (hq.trans h)⟩

/-- No path to a leaf is an initial segment of the path to another leaf. -/
theorem leafPaths_pairwise (t : charFreqPair) :
    ∀ s : Code, (leafPaths t s).Pairwise fun x y => ¬ x.2 <+: y.2 ∧ ¬ y.2 <+: x.2 := by
  induction t with
  | null => intro s; simp [leafPaths]
  | obj ch f l r ihl ihr =>
    intro s
    by_cases hl : (l.isNull && r.isNull) = true
    · simp [leafPaths, hl]
    · have hl' : (l.isNull && r.isNull) = false := by simpa using hl
      simp only [leafPaths, hl', Bool.false_eq_true, if_false]
      rw [List.pairwise_append]
      refine ⟨ihl _, ihr _, ?_⟩
      intro a ha b hb
      exact not_initial_of_fork s a.2 b.2 (leafPaths_extends l _ a ha) (leafPaths_extends r _ b hb)

theorem leafPaths_codes_nodup (t : charFreqPair) (s : Code) :
    ((leafPaths t s).map Prod.snd).Nodup := by
  rw [List.Nodup, List.pairwise_map]
  refine (leafPaths_pairwise t s).imp ?_
  intro a b hab e
  exact hab.1 (e ▸ List.prefix_refl _)

theorem isNull_strip (t : charFreqPair) : (strip t).isNull = t.isNull := by
  cases t with
  | null => rfl
  | obj ch f l r =>
    by_cases hl : (l.isNull && r.isNull) = true
    · rw [strip, if_pos hl]; rfl
    · rw [strip, if_neg hl]; rfl

theorem leafPaths_strip (t : charFreqPair) : ∀ s : Code, leafPaths (strip t) s = leafPaths t s := by
  induction t with
  | null => intro s; rfl
  | obj ch f l r ihl ihr =>
    intro s
    by_cases hl : (l.isNull && r.isNull) = true
    · rw [strip, if_pos hl]
      simp [leafPaths, hl, isNull_iff]
    · have hs : ¬ ((strip l).isNull && (strip r).isNull) = true := by
        rw [isNull_strip, isNull_strip]; exact hl
      rw [strip, if_neg hl, leafPaths, leafPaths, if_neg hl, if_neg hs, ihl, ihr]

theorem full_strip (t : charFreqPair) : full (strip t) = full t := by
  induction t with
  | null => rfl
  | obj ch f l r ihl ihr =>
    by_cases hl : (l.isNull && r.isNull) = true
    · rw [strip, if_pos hl]
      simp [full, hl, isNull_iff]
    · rw [strip, if_neg hl, full, full, isNull_strip, isNull_strip, ihl, ihr]

/-! ## The frequency scan -/

theorem wrapInt_add (a b : Int) : wrapInt (wrapInt a + b) = wrapInt (a + b) := by
  unfold wrapInt
  omega

theorem wrapInt_eq_self (x : Int) (h0 : -2 ^ 31 ≤ x) (h1 : x < 2 ^ 31) : wrapInt x = x := by
  unfold wrapInt
  omega

theorem wrapInt_range (x : Int) : -2 ^ 31 ≤ wrapInt x ∧ wrapInt x < 2 ^ 31 := by
  unfold wrapInt
  omega

theorem keys_freqIncr (m : List (Byte × Int)) (c : Byte) :
    (freqIncr m c).map Prod.fst =
      if c ∈ m.map Prod.fst then m.map Prod.fst else m.map Prod.fst ++ [c] := by
  induction m with
  | nil => simp [freqIncr]
  | cons x xs ih =>
    obtain ⟨a, b⟩ := x
    by_cases h : a = c
    · subst h
      simp [freqIncr]
    · have h' : ¬ c = a := fun e => h e.symm
      by_cases hk : c ∈ xs.map Prod.fst
      · simp only [freqIncr, h, if_false, List.map_cons, ih, hk, if_true, List.mem_cons, or_true]
      · simp only [freqIncr, h, if_false, List.map_cons, ih, hk, List.mem_cons, h', or_self,
          List.cons_append]

theorem mapGet_freqIncr (m : List (Byte × Int)) (c k : Byte) :
    mapGet (freqIncr m c) k =
      if c = k then some (wrapInt ((mapGet m c).getD 0 + 1)) else mapGet m k := by
  induction m with
  | nil => simp [freqIncr, mapGet]
  | cons x xs ih =>
    obtain ⟨a, b⟩ := x
    by_cases h : a = c
    · subst h
      by_cases h2 : a = k <;> simp [freqIncr, mapGet, h2]
    · by_cases h' : a = k
      · subst h'
        have : ¬ c = a := fun e => h e.symm
        simp [freqIncr, mapGet, h, this]
      · simp [freqIncr, mapGet, h, h', ih]

theorem keys_foldl_freqIncr (B : List Byte) :
    ∀ m : List (Byte × Int), (m.map Prod.fst).Nodup →
      ((B.foldl freqIncr m).map Prod.fst).Nodup ∧
      ∀ c, c ∈ (B.foldl freqIncr m).map Prod.fst ↔ c ∈ m.map Prod.fst ∨ c ∈ B := by
  induction B with
  | nil => intro m h; simp [h]
  | cons x xs ih =>
    intro m h
    have hnd : ((freqIncr m x).map Prod.fst).Nodup := by
      rw [keys_freqIncr]
      split
      · exact h
      · next hx =>
        exact List.Nodup.append h (List.nodup_singleton x) (by simpa using hx)
    obtain ⟨h1, h2⟩ := ih (freqIncr m x) hnd
    refine ⟨by simpa using h1, ?_⟩
    intro c
    rw [List.foldl_cons, h2 c, keys_freqIncr]
    split
    · next hx =>
      constructor
      · rintro (hc | hc)
        · exact Or.inl hc
        · exact Or.inr (List.mem_cons_of_mem _ hc)
      · rintro (hc | hc)
        · exact Or.inl hc
        · rcases List.mem_cons.1 hc with rfl | hc
          · exact Or.inl hx
          · exact Or.inr hc
    · simp only [List.mem_append, List.mem_singleton, List.mem_cons]
      tauto

/-- The keys of the frequency table are pairwise distinct. -/
theorem scanFreq_keys_nodup (B : List Byte) : ((scanFreq B).map Prod.fst).Nodup :=
  (keys_foldl_freqIncr B [] (by simp)).1

/-- The keys of the frequency table are the byte values that occur in the input. -/
theorem mem_scanFreq_keys (B : List Byte) (c : Byte) :
    c ∈ (scanFreq B).map Prod.fst ↔ c ∈ B := by
  have := (keys_foldl_freqIncr B [] (by simp)).2 c
  simpa [scanFreq] using this

theorem scanFreq_ne_nil (B : List Byte) (h : B ≠ []) : scanFreq B ≠ [] := by
  obtain ⟨c, hc⟩ := List.exists_mem_of_ne_nil B h
  have := (mem_scanFreq_keys B c).2 hc
  intro e
  rw [e] at this
  simp at this

theorem mapGet_foldl_freqIncr (B : List Byte) :
    ∀ (m : List (Byte × Int)) (k : Byte),
      mapGet (B.foldl freqIncr m) k =
        if k ∈ B then some (wrapInt ((mapGet m k).getD 0 + B.count k)) else mapGet m k := by
  induction B with
  | nil => intro m k; simp
  | cons x xs ih =>
    intro m k
    rw [List.foldl_cons, ih, mapGet_freqIncr]
    by_cases hxk : x = k
    · subst hxk
      simp only [if_true, Option.getD_some, List.mem_cons, true_or, List.count_cons_self]
      by_cases hx : x ∈ xs
      · rw [if_pos hx, wrapInt_add]
        congr 2
        push_cast
        ring
      · rw [if_neg hx, List.count_eq_zero_of_not_mem hx]
        simp
    · have hkx : ¬ k = x := fun e => hxk e.symm
      simp only [hxk, if_false, List.mem_cons, hkx, false_or]
      rw [List.count_cons_of_ne hkx]

/-- The count stored for a byte that occurs is its number of occurrences, wrapped to an `int`;
a byte that does not occur has no entry. -/
theorem mapGet_scanFreq (B : List Byte) (k : Byte) :
    mapGet (scanFreq B) k = if k ∈ B then some (wrapInt (B.count k)) else none := by
  have := mapGet_foldl_freqIncr B [] k
  simpa [scanFreq, mapGet] using this

/-! ## The two code tables of a tree -/

theorem mapSet_of_not_mem {κ ν : Type} [DecidableEq κ] (m : List (κ × ν)) (k : κ) (v : ν)
    (h : k ∉ m.map Prod.fst) : mapSet m k v = m ++ [(k, v)] := by
  induction m with
  | nil => rfl
  | cons x xs ih =>
    obtain ⟨a, b⟩ := x
    have hne : ¬ a = k := by
      rintro rfl
      exact h (by simp)
    have hxs : k ∉ xs.map Prod.fst := fun hk => h (by simp [List.mem_map] at hk ⊢; exact Or.inr hk)
    simp [mapSet, hne, ih hxs]

/-- Entries with pairwise distinct keys, none present yet, are appended one by one. -/
theorem foldl_mapSet_eq_append {κ ν : Type} [DecidableEq κ] (L : List (κ × ν)) :
    ∀ m : List (κ × ν), (L.map Prod.fst).Nodup →
      (∀ k ∈ L.map Prod.fst, k ∉ m.map Prod.fst) →
      L.foldl (fun m p => mapSet m p.1 p.2) m = m ++ L := by
  induction L with
  | nil => intro m _ _; simp
  | cons x xs ih =>
    intro m hnd hdis
    obtain ⟨hx, hnd'⟩ := List.nodup_cons.1 hnd
    have hxm : x.1 ∉ m.map Prod.fst := hdis x.1 (by simp)
    rw [List.foldl_cons, mapSet_of_not_mem m x.1 x.2 hxm, ih _ hnd']
    · simp
    · intro k hkx hmem
      simp only [List.map_append, List.map_cons, List.map_nil, List.mem_append,
        List.mem_singleton] at hmem
      rcases hmem with h1 | h1
      · exact hdis k (by simp only [List.map_cons, List.mem_cons]; exact Or.inr hkx) h1
      · subst h1
        exact hx hkx

/-- The table `charKeyMap` of a full tree with pairwise distinct leaf symbols holds exactly the
leaves with their paths. -/
theorem charKeyMap_eq (root : charFreqPair) (hf : full root = true)
    (hnd : (leafSyms root).Nodup) :
    traverse_charKeyMap root [] [] = .ok (leafPaths root []) := by
  rw [traverse_charKeyMap_eq root hf, foldl_mapSet_eq_append]
  · simp
  · rw [leafPaths_keys]; exact hnd
  · simp

/-- The table `keyCharMap` of a full tree holds exactly the paths with their leaves. -/
theorem keyCharMap_eq (root : charFreqPair) (hf : full root = true) :
    traverse_keyCharMap root [] [] = .ok ((leafPaths root []).map Prod.swap) := by
  rw [traverse_keyCharMap_eq root hf, foldl_mapSet_eq_append]
  · simp
  · have := leafPaths_codes_nodup root []
    simpa [List.map_map, Function.comp_def] using this
  · simp

theorem mapGet_swap_iff (L : List (Byte × Code)) (h1 : (L.map Prod.fst).Nodup)
    (h2 : (L.map Prod.snd).Nodup) (c : Byte) (k : Code) :
    mapGet L c = some k ↔ mapGet (L.map Prod.swap) k = some c := by
  rw [mapGet_of_mem L h1, mapGet_of_mem (L.map Prod.swap)
    (by simpa [List.map_map, Function.comp_def] using h2)]
  simp [List.mem_map]

/-- What the tree build gives for a non-empty input: a full tree whose leaf symbols are
pairwise distinct and are exactly the byte values of the input. -/
theorem buildTree_scanFreq (pick : List charFreqPair → Nat) (B : List Byte) (h : B ≠ []) :
    ∃ root, buildTree pick (scanFreq B) = .ok root ∧ full root = true ∧
      (leafSyms root).Nodup ∧ ∀ c, c ∈ leafSyms root ↔ c ∈ B := by
  obtain ⟨root, hr, hf, hp⟩ := buildTree_ok pick (scanFreq B) (scanFreq_ne_nil B h)
  refine ⟨root, hr, hf, hp.nodup_iff.2 (scanFreq_keys_nodup B), ?_⟩
  intro c
  rw [hp.mem_iff, mem_scanFreq_keys]

/-- C4. Prefix-free code table: for every input with at least two distinct byte values and
every tie-breaking order, the tree build and `traverse` succeed, every input byte has a
bitcode, no symbol's bitcode is an initial segment of another symbol's bitcode, and no bitcode
is empty. -/
theorem charKeyMap_prefix_free (pick : List charFreqPair → Nat) (B : List Byte)
    (h : twoDistinct B) :
    ∃ root charKeyMap, buildTree pick (scanFreq B) = .ok root ∧
      traverse_charKeyMap root [] [] = .ok charKeyMap ∧
      (∀ c ∈ B, ∃ k, mapGet charKeyMap c = some k) ∧
      (∀ c1 c2 k1 k2, mapGet charKeyMap c1 = some k1 → mapGet charKeyMap c2 = some k2 →
        c1 ≠ c2 → ¬ k1 <+: k2) ∧
      (∀ c k, mapGet charKeyMap c = some k → k ≠ []) := by
  obtain ⟨x, hx, y, hy, hxy⟩ := h
  obtain ⟨root, hr, hf, hnd, hmem⟩ := buildTree_scanFreq pick B (List.ne_nil_of_mem hx)
  have hkeys : ((leafPaths root []).map Prod.fst).Nodup := by rw [leafPaths_keys]; exact hnd
  have hex : ∀ c ∈ B, ∃ k, mapGet (leafPaths root []) c = some k := by
    intro c hc
    have hc' : c ∈ (leafPaths root []).map Prod.fst := by
      rw [leafPaths_keys]; exact (hmem c).2 hc
    obtain ⟨p, hp, rfl⟩ := List.mem_map.1 hc'
    exact ⟨p.2, (mapGet_of_mem _ hkeys p.1 p.2).2 hp⟩
  have hpf : ∀ c1 c2 k1 k2, mapGet (leafPaths root []) c1 = some k1 →
      mapGet (leafPaths root []) c2 = some k2 → c1 ≠ c2 → ¬ k1 <+: k2 := by
    intro c1 c2 k1 k2 h1 h2 hne
    have m1 := (mapGet_of_mem _ hkeys c1 k1).1 h1
    have m2 := (mapGet_of_mem _ hkeys c2 k2).1 h2
    have hsym : Symmetric fun (a b : Byte × Code) => ¬ a.2 <+: b.2 ∧ ¬ b.2 <+: a.2 :=
      fun a b hab => ⟨hab.2, hab.1⟩
    have := (leafPaths_pairwise root []).forall hsym m1 m2
      (by intro e; exact hne (congrArg Prod.fst e))
    exact this.1
  refine ⟨root, leafPaths root [], hr, charKeyMap_eq root hf hnd, hex, hpf, ?_⟩
  intro c k hk hnil
  subst hnil
  by_cases hcx : c = x
  · obtain ⟨k', hk'⟩ := hex y hy
    exact hpf c y [] k' hk hk' (by rw [hcx]; exact hxy) List.nil_prefix
  · obtain ⟨k', hk'⟩ := hex x hx
    exact hpf c x [] k' hk hk' hcx List.nil_prefix

/-- The input `ab` has two distinct bytes, so its code table is prefix-free. -/
theorem charKeyMap_prefix_free_witness :
    twoDistinct [97, 98] ∧
    ∃ root charKeyMap, buildTree pickFirst (scanFreq [97, 98]) = .ok root ∧
      traverse_charKeyMap root [] [] = .ok charKeyMap ∧
      (∀ c ∈ ([97, 98] : List Byte), ∃ k, mapGet charKeyMap c = some k) ∧
      (∀ c1 c2 k1 k2, mapGet charKeyMap c1 = some k1 → mapGet charKeyMap c2 = some k2 →
        c1 ≠ c2 → ¬ k1 <+: k2) ∧
      (∀ c k, mapGet charKeyMap c = some k → k ≠ []) :=
  ⟨⟨97, by simp, 98, by simp, by decide⟩,
    charKeyMap_prefix_free pickFirst [97, 98] ⟨97, by simp, 98, by simp, by decide⟩⟩

/-- C9. Code table bijection: for every non-empty input and every tie-breaking order, the keys
of `charKeyMap` are pairwise distinct and are exactly the byte values of the input (so there
are as many entries as distinct input bytes), `keyCharMap` built from the same tree maps a
bitcode to a symbol exactly when `charKeyMap` maps the symbol to the bitcode, its keys are
pairwise distinct too, and the two maps have the same number of entries. -/
theorem charKeyMap_keyCharMap_inverse (pick : List charFreqPair → Nat) (B : List Byte)
    (h : B ≠ []) :
    ∃ root charKeyMap keyCharMap, buildTree pick (scanFreq B) = .ok root ∧
      traverse_charKeyMap root [] [] = .ok charKeyMap ∧
      traverse_keyCharMap root [] [] = .ok keyCharMap ∧
      (charKeyMap.map Prod.fst).Nodup ∧
      (∀ c, c ∈ charKeyMap.map Prod.fst ↔ c ∈ B) ∧
      charKeyMap.length = B.dedup.length ∧
      (∀ c k, mapGet charKeyMap c = some k ↔ mapGet keyCharMap k = some c) ∧
      (keyCharMap.map Prod.fst).Nodup ∧
      charKeyMap.length = keyCharMap.length := by
  obtain ⟨root, hr, hf, hnd, hmem⟩ := buildTree_scanFreq pick B h
  have hkeys : ((leafPaths root []).map Prod.fst).Nodup := by rw [leafPaths_keys]; exact hnd
  have hcodes := leafPaths_codes_nodup root []
  refine ⟨root, leafPaths root [], (leafPaths root []).map Prod.swap, hr,
    charKeyMap_eq root hf hnd, keyCharMap_eq root hf, hkeys, ?_, ?_, ?_, ?_, by simp⟩
  · intro c
    rw [leafPaths_keys]
    exact hmem c
  · have hperm : ((leafPaths root []).map Prod.fst).Perm B.dedup := by
      rw [List.perm_ext_iff_of_nodup hkeys (List.nodup_dedup B)]
      intro c
      rw [leafPaths_keys, List.mem_dedup]
      exact hmem c
    simpa using hperm.length_eq
  · intro c k
    exact mapGet_swap_iff _ hkeys hcodes c k
  · simpa [List.map_map, Function.comp_def] using hcodes

/-- The one-byte input has the code table with the single entry for that byte. -/
theorem charKeyMap_keyCharMap_inverse_witness :
    ([65] : List Byte) ≠ [] ∧
    ∃ root charKeyMap keyCharMap, buildTree pickFirst (scanFreq [65]) = .ok root ∧
      traverse_charKeyMap root [] [] = .ok charKeyMap ∧
      traverse_keyCharMap root [] [] = .ok keyCharMap ∧
      (charKeyMap.map Prod.fst).Nodup ∧
      (∀ c, c ∈ charKeyMap.map Prod.fst ↔ c ∈ ([65] : List Byte)) ∧
      charKeyMap.length = ([65] : List Byte).dedup.length ∧
      (∀ c k, mapGet charKeyMap c = some k ↔ mapGet keyCharMap k = some c) ∧
      (keyCharMap.map Prod.fst).Nodup ∧
      charKeyMap.length = keyCharMap.length :=
  ⟨by simp, charKeyMap_keyCharMap_inverse pickFirst [65] (by simp)⟩

/-! ## C10: the frequency table -/

theorem scanFreq_values (B : List Byte) :
    (scanFreq B).map Prod.snd = ((scanFreq B).map Prod.fst).map fun k => wrapInt (B.count k) := by
  rw [List.map_map]
  apply List.map_congr_left
  intro p hp
  have h1 : mapGet (scanFreq B) p.1 = some p.2 :=
    (mapGet_of_mem _ (scanFreq_keys_nodup B) p.1 p.2).2 hp
  have hk : p.1 ∈ B := (mem_scanFreq_keys B p.1).1 (List.mem_map.2 ⟨p, hp, rfl⟩)
  rw [mapGet_scanFreq, if_pos hk, Option.some.injEq] at h1
  rw [Function.comp_apply, ← h1]

theorem scanFreq_keys_perm (B : List Byte) : ((scanFreq B).map Prod.fst).Perm B.dedup := by
  rw [List.perm_ext_iff_of_nodup (scanFreq_keys_nodup B) (List.nodup_dedup B)]
  intro c
  rw [mem_scanFreq_keys, List.mem_dedup]

/-- C10 (amended). Frequency table: for every input `B` in which no byte value occurs `2^31`
times or more, the table built by the scan loop has pairwise distinct keys, the keys are
exactly the byte values occurring in `B`, each key is mapped to its number of occurrences in
`B`, every stored count is at least 1, and the counts sum to the length of `B`; for empty `B`
the table is empty. -/
theorem scanFreq_spec (B : List Byte) (hB : ∀ c, B.count c < 2 ^ 31) :
    ((scanFreq B).map Prod.fst).Nodup ∧
    (∀ c, c ∈ (scanFreq B).map Prod.fst ↔ c ∈ B) ∧
    (∀ c ∈ B, mapGet (scanFreq B) c = some (B.count c : Int)) ∧
    (∀ c, c ∉ B → mapGet (scanFreq B) c = none) ∧
    (∀ p ∈ scanFreq B, 1 ≤ p.2) ∧
    ((scanFreq B).map Prod.snd).sum = (B.length : Int) ∧
    (B = [] → scanFreq B = []) := by
  have hw : ∀ c, wrapInt (B.count c) = (B.count c : Int) := by
    intro c
    have := hB c
    apply wrapInt_eq_self <;> omega
  refine ⟨scanFreq_keys_nodup B, mem_scanFreq_keys B, ?_, ?_, ?_, ?_, fun e => by rw [e]; rfl⟩
  · intro c hc
    rw [mapGet_scanFreq, if_pos hc, hw]
  · intro c hc
    rw [mapGet_scanFreq, if_neg hc]
  · intro p hp
    have h1 : mapGet (scanFreq B) p.1 = some p.2 :=
      (mapGet_of_mem _ (scanFreq_keys_nodup B) p.1 p.2).2 hp
    have hk : p.1 ∈ B := (mem_scanFreq_keys B p.1).1 (List.mem_map.2 ⟨p, hp, rfl⟩)
    rw [mapGet_scanFreq, if_pos hk, hw] at h1
    have hpos : 0 < B.count p.1 := List.count_pos_iff.2 hk
    have := Option.some.inj h1
    omega
  · rw [scanFreq_values]
    have e1 : (((scanFreq B).map Prod.fst).map fun k => wrapInt (B.count k))
        = ((scanFreq B).map Prod.fst).map fun k => ((B.count k : Nat) : Int) :=
      List.map_congr_left fun k _ => hw k
    have e2 : ∀ l : List Byte, (l.map fun k => ((B.count k : Nat) : Int)).sum
        = (((l.map fun k => B.count k).sum : Nat) : Int) := by
      intro l
      induction l with
      | nil => simp
      | cons x xs ih => simp [ih]
    rw [e1, e2, ((scanFreq_keys_perm B).map _).sum_eq, List.sum_map_count_dedup_eq_length]

theorem scanFreq_replicate (n : Nat) (c : Byte) (hn : 0 < n) :
    mapGet (scanFreq (List.replicate n c)) c = some (wrapInt n) ∧
    (List.replicate n c).count c = n := by
  have hmem : c ∈ List.replicate n c := by
    rw [List.mem_replicate]
    exact ⟨by omega, rfl⟩
  rw [mapGet_scanFreq, if_pos hmem, List.count_replicate_self]
  exact ⟨rfl, rfl⟩

/-- The table for `aaabbc`. -/
theorem scanFreq_spec_witness :
    (∀ c, ([97, 97, 97, 98, 98, 99] : List Byte).count c < 2 ^ 31) ∧
    mapGet (scanFreq [97, 97, 97, 98, 98, 99]) 97 = some 3 := by
  have hB : ∀ c, ([97, 97, 97, 98, 98, 99] : List Byte).count c < 2 ^ 31 := by
    intro c
    exact lt_of_le_of_lt (List.count_le_length _ _) (by norm_num)
  exact ⟨hB, by simpa using (scanFreq_spec [97, 97, 97, 98, 98, 99] hB).2.2.1 97 (by simp)⟩

/-- C10 fails as stated: for the input of `2^31` zero bytes the stored count is `-2^31`,
not the number of occurrences `2^31`; an `int` cannot hold that number. -/
theorem scanFreq_count_overflow :
    mapGet (scanFreq (List.replicate (2 ^ 31) 0)) 0 = some (wrapInt ((2 ^ 31 : Nat) : Int)) ∧
    wrapInt ((2 ^ 31 : Nat) : Int) = -2 ^ 31 ∧
    (List.replicate (2 ^ 31) (0 : Byte)).count 0 = 2 ^ 31 :=
  ⟨(scanFreq_replicate (2 ^ 31) 0 (Nat.pos_pow_of_pos 31 (by omega))).1,
    by norm_num [wrapInt],
    (scanFreq_replicate (2 ^ 31) 0 (Nat.pos_pow_of_pos 31 (by omega))).2⟩

/-! ## Degenerate inputs -/

theorem buildTree_nil (pick : List charFreqPair → Nat) :
    buildTree pick [] = .error .undefined := by
  show (match mergeLoop pick 0 [] with
    | .ok pq => pqTop pick pq
    | .error e => .error e) = .error .undefined
  simp [mergeLoop, pqTop_nil]

theorem compressFile_nil (pick : List charFreqPair → Nat) :
    compressFile pick (some []) = .error .undefined := by
  show (match buildTree pick [] with
    | .ok root => writeContainer root []
    | .error e => .error e) = .error .undefined
  rw [buildTree_nil]

/-- C6. Empty input: on a file of zero bytes the frequency table and the priority queue stay
empty, the merge loop is skipped, and `compressFile` takes `pq.top()` of the empty queue, for
every tie-breaking order; it neither reports an error nor writes a container. -/
theorem compressFile_empty_input (pick : List charFreqPair → Nat) :
    scanFreq [] = [] ∧ pushAll (scanFreq []) = [] ∧
    mergeLoop pick (pushAll (scanFreq [])).length (pushAll (scanFreq [])) = .ok [] ∧
    pqTop pick [] = .error .undefined ∧
    compressFile pick (some []) = .error .undefined :=
  ⟨rfl, rfl, rfl, pqTop_nil pick, compressFile_nil pick⟩

theorem foldl_freqIncr_replicate (c : Byte) (n : Nat) :
    ∀ v : Int, (List.replicate n c).foldl freqIncr [(c, wrapInt v)] = [(c, wrapInt (v + n))] := by
  induction n with
  | zero => intro v; simp
  | succ n ih =>
    intro v
    rw [List.replicate_succ, List.foldl_cons]
    have : freqIncr [(c, wrapInt v)] c = [(c, wrapInt (v + 1))] := by
      simp [freqIncr, wrapInt_add]
    rw [this, ih]
    congr 3
    push_cast
    ring

theorem scanFreq_replicate_succ (c : Byte) (n : Nat) :
    scanFreq (List.replicate (n + 1) c) = [(c, wrapInt (n + 1))] := by
  unfold scanFreq
  rw [List.replicate_succ, List.foldl_cons]
  have : freqIncr [] c = [(c, wrapInt 1)] := rfl
  rw [this, foldl_freqIncr_replicate]
  congr 3
  ring

theorem buildTree_single (pick : List charFreqPair → Nat) (c : Byte) (v : Int) :
    buildTree pick [(c, v)] = .ok (leaf c v) := by
  have h1 : pushAll [(c, v)] = [leaf c v] := rfl
  unfold buildTree
  rw [h1]
  simp [mergeLoop, pqTop_singleton]

theorem encodeBits_eq_flatMap (charKeyMap : List (Byte × Code)) (content : List Byte) :
    encodeBits charKeyMap content = content.flatMap fun c => (mapGet charKeyMap c).getD [] := by
  have key : ∀ acc : List Bool,
      content.foldl (fun buffer c => buffer ++ (mapGet charKeyMap c).getD []) acc
        = acc ++ content.flatMap fun c => (mapGet charKeyMap c).getD [] := by
    induction content with
    | nil => intro acc; simp
    | cons x xs ih =>
      intro acc
      rw [List.foldl_cons, ih]
      simp [List.flatMap_cons]
  simpa [encodeBits] using key []

theorem encodeBits_single (c : Byte) (n : Nat) :
    encodeBits [(c, [])] (List.replicate n c) = [] := by
  rw [encodeBits_eq_flatMap]
  induction n with
  | zero => rfl
  | succ n ih =>
    rw [List.replicate_succ, List.flatMap_cons, ih]
    simp [mapGet]

/-- What `compressFile` writes for `n + 1` copies of one byte: the two bytes of a one-leaf
tree and the four bytes of the count; the packed bitstream is empty. -/
theorem compressFile_single (pick : List charFreqPair → Nat) (c : Byte) (n : Nat) :
    compressFile pick (some (List.replicate (n + 1) c))
      = .ok ([charOne, c] ++ intBytes (wrapInt ((n + 1 : Nat) : Int))) := by
  have hlen : (List.replicate (n + 1) c).length = n + 1 := List.length_replicate _ _
  show (match buildTree pick (scanFreq (List.replicate (n + 1) c)) with
    | .ok root => writeContainer root (List.replicate (n + 1) c)
    | .error e => .error e) = _
  rw [scanFreq_replicate_succ, buildTree_single]
  have h1 : traverse_charKeyMap (leaf c (wrapInt (n + 1))) [] [] = .ok [(c, [])] := rfl
  have h2 : writeTree (leaf c (wrapInt (n + 1))) = .ok [charOne, c] := rfl
  show writeContainer _ _ = _
  unfold writeContainer
  rw [h1, h2]
  simp only [encodeBits_single, hlen]
  rfl

/-- Decoding a container that consists of a one-leaf tree and a count only. -/
theorem decompressFile_single (c b0 b1 b2 b3 : Byte) :
    readTree [charOne, c, b0, b1, b2, b3] = .ok (leaf c 0, [b0, b1, b2, b3]) ∧
    decompressFile (some [charOne, c, b0, b1, b2, b3]) = .ok [] := by
  have h : readTree [charOne, c, b0, b1, b2, b3] = .ok (leaf c 0, [b0, b1, b2, b3]) := by
    simp [readTree, readTreeAux]
  refine ⟨h, ?_⟩
  unfold decompressFile
  simp only [h]
  rfl

/-- C2. Single-symbol input: for every byte value `c`, every `n >= 1` (written `n + 1`) and
every tie-breaking order, `compressFile` writes a container whose tree is the single leaf `c`,
and `decompressFile` on that container writes zero bytes, not the `n + 1` input bytes. -/
theorem single_symbol_decompresses_to_nothing (pick : List charFreqPair → Nat) (c : Byte)
    (n : Nat) :
    ∃ container rest,
      compressFile pick (some (List.replicate (n + 1) c)) = .ok container ∧
      readTree container = .ok (leaf c 0, rest) ∧
      decompressFile (some container) = .ok [] ∧
      List.replicate (n + 1) c ≠ [] := by
  have hb : ∃ b0 b1 b2 b3, intBytes (wrapInt ((n + 1 : Nat) : Int)) = [b0, b1, b2, b3] :=
    ⟨_, _, _, _, rfl⟩
  obtain ⟨b0, b1, b2, b3, hb⟩ := hb
  refine ⟨[charOne, c, b0, b1, b2, b3], [b0, b1, b2, b3], ?_,
    (decompressFile_single c b0 b1 b2 b3).1, (decompressFile_single c b0 b1 b2 b3).2, by simp⟩
  rw [compressFile_single, hb]
  rfl

/-! ## The container -/

/-- What `compressFile` writes for a non-empty input, in terms of the tree it built. -/
theorem compressFile_eq (pick : List charFreqPair → Nat) (B : List Byte) (h : B ≠ []) :
    ∃ root, buildTree pick (scanFreq B) = .ok root ∧ full root = true ∧
      (leafSyms root).Nodup ∧ (∀ c, c ∈ leafSyms root ↔ c ∈ B) ∧
      compressFile pick (some B) = .ok (treeBytes root ++ intBytes (wrapInt B.length) ++
        packBits (padBits (encodeBits (leafPaths root []) B))) := by
  obtain ⟨root, hr, hf, hnd, hmem⟩ := buildTree_scanFreq pick B h
  refine ⟨root, hr, hf, hnd, hmem, ?_⟩
  simp only [compressFile, hr, writeContainer, charKeyMap_eq root hf hnd,
    writeTree_eq_treeBytes root hf]

theorem fin_ofNat_val (a : Nat) : ((Fin.ofNat a : Byte) : Nat) = a % 256 := rfl

theorem intBytes_natCast (n : Nat) (h : n < 2 ^ 31) : intBytes (wrapInt n) = le32 n := by
  have hw : wrapInt n = (n : Int) := by
    apply wrapInt_eq_self <;> omega
  have hu : ((n : Int) % 2 ^ 32).toNat = n := by omega
  rw [hw]
  simp only [intBytes, hu, le32, List.range, List.range.loop, List.map_cons, List.map_nil]
  simp only [List.cons.injEq, and_true]
  refine ⟨?_, ?_, ?_, ?_⟩ <;> apply Fin.ext <;> simp only [fin_ofNat_val] <;> omega

/-- The four bytes of `le32 n` are the base-256 digits of `n`, least significant first. -/
theorem le32_value (n : Nat) (h : n < 2 ^ 32) :
    ∃ b0 b1 b2 b3 : Byte, le32 n = [b0, b1, b2, b3] ∧
      b0.val + 256 * b1.val + 256 ^ 2 * b2.val + 256 ^ 3 * b3.val = n := by
  refine ⟨Fin.ofNat (n / 256 ^ 0 % 256), Fin.ofNat (n / 256 ^ 1 % 256),
    Fin.ofNat (n / 256 ^ 2 % 256), Fin.ofNat (n / 256 ^ 3 % 256), rfl, ?_⟩
  simp only [fin_ofNat_val]
  omega

/-- C7. Container layout: for every non-empty input `B` of fewer than `2^31` bytes and every
tie-breaking order, the bytes written by `compressFile` are exactly the output of `writeTree`
on the root, then the 4-byte little-endian encoding of the length of `B`, then the packed
bitstream of the padded concatenation of the codes of the bytes of `B`. -/
theorem compressFile_layout (pick : List charFreqPair → Nat) (B : List Byte) (hne : B ≠ [])
    (hlen : B.length < 2 ^ 31) :
    ∃ root tree charKeyMap b0 b1 b2 b3,
      buildTree pick (scanFreq B) = .ok root ∧
      writeTree root = .ok tree ∧
      traverse_charKeyMap root [] [] = .ok charKeyMap ∧
      le32 B.length = [b0, b1, b2, b3] ∧
      b0.val + 256 * b1.val + 256 ^ 2 * b2.val + 256 ^ 3 * b3.val = B.length ∧
      compressFile pick (some B) =
        .ok (tree ++ [b0, b1, b2, b3] ++ packBits (padBits (encodeBits charKeyMap B))) := by
  obtain ⟨root, hr, hf, hnd, _, hc⟩ := compressFile_eq pick B hne
  obtain ⟨b0, b1, b2, b3, hb, hv⟩ := le32_value B.length (by omega)
  refine ⟨root, treeBytes root, leafPaths root [], b0, b1, b2, b3, hr,
    writeTree_eq_treeBytes root hf, charKeyMap_eq root hf hnd, hb, hv, ?_⟩
  rw [hc, intBytes_natCast _ hlen, hb]

/-- The container written for the input `ab`. -/
theorem compressFile_layout_witness :
    ([97, 98] : List Byte) ≠ [] ∧ ([97, 98] : List Byte).length < 2 ^ 31 ∧
    ∃ root tree charKeyMap b0 b1 b2 b3,
      buildTree pickFirst (scanFreq [97, 98]) = .ok root ∧
      writeTree root = .ok tree ∧
      traverse_charKeyMap root [] [] = .ok charKeyMap ∧
      le32 ([97, 98] : List Byte).length = [b0, b1, b2, b3] ∧
      b0.val + 256 * b1.val + 256 ^ 2 * b2.val + 256 ^ 3 * b3.val
        = ([97, 98] : List Byte).length ∧
      compressFile pickFirst (some [97, 98]) =
        .ok (tree ++ [b0, b1, b2, b3] ++ packBits (padBits (encodeBits charKeyMap [97, 98]))) :=
  ⟨by simp, by simp, compressFile_layout pickFirst [97, 98] (by simp) (by simp)⟩

/-! ## Bits and bytes -/

theorem bitsOfByte_byteOfBits (b0 b1 b2 b3 b4 b5 b6 b7 : Bool) :
    bitsOfByte (byteOfBits [b0, b1, b2, b3, b4, b5, b6, b7]) = [b0, b1, b2, b3, b4, b5, b6, b7] := by
  cases b0 <;> cases b1 <;> cases b2 <;> cases b3 <;> cases b4 <;> cases b5 <;> cases b6 <;>
    cases b7 <;> rfl

/-- Cutting a bit string whose length is a multiple of 8 into bytes and spelling the bytes out
again gives the bit string back. -/
theorem flatMap_bitsOfByte_packBits :
    ∀ (n : Nat) (bits : List Bool), bits.length = 8 * n →
      (packBits bits).flatMap bitsOfByte = bits := by
  intro n
  induction n with
  | zero =>
    intro bits h
    have : bits = [] := List.length_eq_zero.1 (by simpa using h)
    subst this
    rfl
  | succ n ih =>
    intro bits h
    match bits, h with
    | b0 :: b1 :: b2 :: b3 :: b4 :: b5 :: b6 :: b7 :: rest, h =>
      have hr : rest.length = 8 * n := by
        simp only [List.length_cons] at h
        omega
      rw [packBits, List.flatMap_cons, bitsOfByte_byteOfBits, ih rest hr]
      rfl
    | [], h => exfalso; simp only [List.length_cons, List.length_nil] at h; omega
    | [_], h => exfalso; simp only [List.length_cons, List.length_nil] at h; omega
    | [_, _], h => exfalso; simp only [List.length_cons, List.length_nil] at h; omega
    | [_, _, _], h => exfalso; simp only [List.length_cons, List.length_nil] at h; omega
    | [_, _, _, _], h => exfalso; simp only [List.length_cons, List.length_nil] at h; omega
    | [_, _, _, _, _], h => exfalso; simp only [List.length_cons, List.length_nil] at h; omega
    | [_, _, _, _, _, _], h => exfalso; simp only [List.length_cons, List.length_nil] at h; omega
    | [_, _, _, _, _, _, _], h => exfalso; simp only [List.length_cons, List.length_nil] at h; omega

theorem length_padBits (buffer : List Bool) :
    ∃ n, (padBits buffer).length = 8 * n := by
  refine ⟨(padBits buffer).length / 8, ?_⟩
  simp only [padBits, List.length_append, List.length_replicate]
  omega

theorem flatMap_bitsOfByte_packBits_padBits (buffer : List Bool) :
    (packBits (padBits buffer)).flatMap bitsOfByte = padBits buffer := by
  obtain ⟨n, hn⟩ := length_padBits buffer
  exact flatMap_bitsOfByte_packBits n _ hn

/-! ## The unpack loop, bit by bit -/

theorem unpackBits_cons_none {keyCharMap : List (Code × Byte)} {key : Code} {b : Bool}
    (h : mapGet keyCharMap (key ++ [b]) = none) (totalChars : Nat) (bin : List Bool)
    (output : List Byte) :
    unpackBits keyCharMap totalChars (b :: bin) (key, output)
      = unpackBits keyCharMap totalChars bin (key ++ [b], output) := by
  simp [unpackBits, h]

theorem unpackBits_cons_some {keyCharMap : List (Code × Byte)} {key : Code} {b : Bool} {c : Byte}
    (h : mapGet keyCharMap (key ++ [b]) = some c) (totalChars : Nat) (bin : List Bool)
    (output : List Byte) :
    unpackBits keyCharMap totalChars (b :: bin) (key, output)
      = if (output ++ [c]).length = totalChars then ([], output ++ [c])
        else unpackBits keyCharMap totalChars bin ([], output ++ [c]) := by
  simp [unpackBits, h]

theorem unpackBits_length_le (keyCharMap : List (Code × Byte)) (totalChars : Nat) :
    ∀ (bin : List Bool) (st : Code × List Byte), st.2.length < totalChars →
      (unpackBits keyCharMap totalChars bin st).2.length ≤ totalChars := by
  intro bin
  induction bin with
  | nil => intro st h; simpa [unpackBits] using le_of_lt h
  | cons b bin ih =>
    intro st h
    obtain ⟨key, output⟩ := st
    cases hg : mapGet keyCharMap (key ++ [b]) with
    | none =>
      rw [unpackBits_cons_none hg]
      exact ih (key ++ [b], output) h
    | some c =>
      rw [unpackBits_cons_some hg]
      by_cases he : (output ++ [c]).length = totalChars
      · rw [if_pos he]
        exact le_of_eq he
      · rw [if_neg he]
        apply ih
        simp only [List.length_append, List.length_singleton] at he ⊢
        simp only at h
        omega

/-- Running the inner loop over `xs ++ ys` is running it over `xs` and, unless the recorded
count has been reached, over `ys`. -/
theorem unpackBits_append (keyCharMap : List (Code × Byte)) (totalChars : Nat) (ys : List Bool) :
    ∀ (xs : List Bool) (st : Code × List Byte), st.2.length < totalChars →
      unpackBits keyCharMap totalChars (xs ++ ys) st =
        if (unpackBits keyCharMap totalChars xs st).2.length < totalChars then
          unpackBits keyCharMap totalChars ys (unpackBits keyCharMap totalChars xs st)
        else unpackBits keyCharMap totalChars xs st := by
  intro xs
  induction xs with
  | nil => intro st h; simp [unpackBits, h]
  | cons b xs ih =>
    intro st h
    obtain ⟨key, output⟩ := st
    rw [List.cons_append]
    cases hg : mapGet keyCharMap (key ++ [b]) with
    | none =>
      rw [unpackBits_cons_none hg, unpackBits_cons_none hg]
      exact ih (key ++ [b], output) h
    | some c =>
      rw [unpackBits_cons_some hg, unpackBits_cons_some hg]
      by_cases he : (output ++ [c]).length = totalChars
      · simp only [if_pos he]
        rw [if_neg (by rw [he]; exact lt_irrefl _)]
      · simp only [if_neg he]
        apply ih
        simp only [List.length_append, List.length_singleton] at he ⊢
        simp only at h
        omega

/-- The byte loop of `decompressFile` computes what the bit loop computes on the bits of all
payload bytes in a row. -/
theorem unpackLoop_eq_unpackBits (keyCharMap : List (Code × Byte)) (totalChars : Nat) :
    ∀ (payload : List Byte) (st : Code × List Byte), st.2.length < totalChars →
      unpackLoop keyCharMap totalChars payload st =
        (unpackBits keyCharMap totalChars (payload.flatMap bitsOfByte) st).2 := by
  intro payload
  induction payload with
  | nil => intro st _; rfl
  | cons ch rest ih =>
    intro st h
    rw [unpackLoop, if_pos h, List.flatMap_cons, unpackBits_append _ _ _ _ _ h]
    by_cases hlt : (unpackBits keyCharMap totalChars (bitsOfByte ch) st).2.length < totalChars
    · rw [if_pos hlt, ih _ hlt]
    · rw [if_neg hlt]
      cases rest with
      | nil => rfl
      | cons ch' rest' => rw [unpackLoop, if_neg hlt]

/-! ## Decoding with a prefix-free table -/

/-- The decoder walks along one code word: while the key is a proper initial segment of the
word nothing is emitted, and the symbol is emitted when the word is complete. -/
theorem unpackBits_walk (L : List (Byte × Code))
    (hpw : L.Pairwise fun x y => ¬ x.2 <+: y.2 ∧ ¬ y.2 <+: x.2)
    (totalChars : Nat) (c : Byte) (code : Code) (hc : (c, code) ∈ L) (rest : List Bool)
    (output : List Byte) :
    ∀ (xs : List Bool) (key : Code), key ++ xs = code → xs ≠ [] →
      unpackBits (L.map Prod.swap) totalChars (xs ++ rest) (key, output) =
        if (output ++ [c]).length = totalChars then ([], output ++ [c])
        else unpackBits (L.map Prod.swap) totalChars rest ([], output ++ [c]) := by
  have hcodes : ((L.map Prod.swap).map Prod.fst).Nodup := by
    have : (L.map Prod.snd).Nodup := by
      rw [List.Nodup, List.pairwise_map]
      refine hpw.imp ?_
      intro a b hab e
      exact hab.1 (e ▸ List.prefix_refl _)
    simpa [List.map_map, Function.comp_def] using this
  have hsym : Symmetric fun (a b : Byte × Code) => ¬ a.2 <+: b.2 ∧ ¬ b.2 <+: a.2 :=
    fun a b hab => ⟨hab.2, hab.1⟩
  intro xs
  induction xs with
  | nil => intro key _ h; exact absurd rfl h
  | cons b xs ih =>
    intro key hkey _
    rw [List.cons_append]
    by_cases hxs : xs = []
    · subst hxs
      have hget : mapGet (L.map Prod.swap) (key ++ [b]) = some c := by
        rw [mapGet_of_mem _ hcodes, hkey]
        exact List.mem_map.2 ⟨(c, code), hc, rfl⟩
      rw [unpackBits_cons_some hget]
      rfl
    · have hget : mapGet (L.map Prod.swap) (key ++ [b]) = none := by
        rw [mapGet_eq_none]
        intro hmem
        simp only [List.map_map, List.mem_map, Function.comp_apply, Prod.fst_swap] at hmem
        obtain ⟨p, hp, hp2⟩ := hmem
        have hpre : p.2 <+: code := by
          rw [hp2, ← hkey]
          exact ⟨xs, by simp⟩
        have hne : p ≠ (c, code) := by
          intro e
          rw [e] at hp2
          have h2 : code = key ++ [b] := hp2
          rw [h2] at hkey
          have h3 := List.append_cancel_left hkey
          exact hxs (by simpa using h3)
        exact (hpw.forall hsym hp hc hne).1 hpre
      rw [unpackBits_cons_none hget]
      exact ih (key ++ [b]) (by simpa using hkey) hxs

/-- The decoder reads the code words of `B` one after the other and stops when the recorded
count is reached, whatever bits follow. -/
theorem unpackBits_flatMap (L : List (Byte × Code)) (hk : (L.map Prod.fst).Nodup)
    (hpw : L.Pairwise fun x y => ¬ x.2 <+: y.2 ∧ ¬ y.2 <+: x.2)
    (hne : ∀ p ∈ L, p.2 ≠ []) (tail : List Bool) :
    ∀ (B : List Byte) (output : List Byte), (∀ c ∈ B, c ∈ L.map Prod.fst) → B ≠ [] →
      unpackBits (L.map Prod.swap) (output.length + B.length)
        ((B.flatMap fun c => (mapGet L c).getD []) ++ tail) ([], output) = ([], output ++ B) := by
  intro B
  induction B with
  | nil => intro _ _ h; exact absurd rfl h
  | cons c B ih =>
    intro output hmem _
    obtain ⟨p, hp, hp1⟩ := List.mem_map.1 (hmem c (by simp))
    obtain ⟨c', code⟩ := p
    simp only at hp1
    subst hp1
    have hget : mapGet L c' = some code := (mapGet_of_mem L hk c' code).2 hp
    rw [List.flatMap_cons, hget, Option.getD_some, List.append_assoc,
      unpackBits_walk L hpw _ c' code hp _ output code [] (by simp) (hne _ hp)]
    by_cases hB : B = []
    · subst hB
      simp
    · have hlen : 0 < B.length := List.length_pos.2 hB
      rw [if_neg (by simp only [List.length_append, List.length_cons, List.length_nil]; omega)]
      have := ih (output ++ [c']) (fun x hx => hmem x (List.mem_cons_of_mem _ hx)) hB
      have e : (output ++ [c']).length + B.length = output.length + (c' :: B).length := by
        simp only [List.length_append, List.length_cons, List.length_nil]
        omega
      rw [e] at this
      rw [this]
      simp

/-! ## Round trip -/

/-- What `decompressFile` writes for a file that starts with a serialised full tree followed
by at least four bytes: the output of the unpack loop run with the table of that tree. -/
theorem decompressFile_container (root : charFreqPair) (hf : full root = true)
    (b0 b1 b2 b3 : Byte) (payload : List Byte) :
    decompressFile (some (treeBytes root ++ [b0, b1, b2, b3] ++ payload)) =
      .ok (unpackLoop ((leafPaths root []).map Prod.swap) (sizeOfInt (intOfBytes b0 b1 b2 b3))
        payload ([], [])) := by
  have hread : readTree (treeBytes root ++ [b0, b1, b2, b3] ++ payload)
      = .ok (strip root, b0 :: b1 :: b2 :: b3 :: payload) := by
    rw [List.append_assoc]
    exact readTree_treeBytes root hf _
  have hkc : traverse_keyCharMap (strip root) [] [] = .ok ((leafPaths root []).map Prod.swap) := by
    rw [keyCharMap_eq (strip root) (by rw [full_strip]; exact hf), leafPaths_strip]
  unfold decompressFile
  simp only [hread, hkc]
  rfl

theorem intOfBytes_of_value (b0 b1 b2 b3 : Byte) (n : Nat) (hn : n < 2 ^ 31)
    (hv : b0.val + 256 * b1.val + 256 ^ 2 * b2.val + 256 ^ 3 * b3.val = n) :
    sizeOfInt (intOfBytes b0 b1 b2 b3) = n := by
  have e : b0.val + 2 ^ 8 * b1.val + 2 ^ 16 * b2.val + 2 ^ 24 * b3.val = n := by omega
  unfold intOfBytes
  rw [e, wrapInt_eq_self _ (by omega) (by omega)]
  unfold sizeOfInt
  omega

/-- In a table with two entries no code is empty. -/
theorem codes_ne_nil (L : List (Byte × Code))
    (hpw : L.Pairwise fun x y => ¬ x.2 <+: y.2 ∧ ¬ y.2 <+: x.2)
    (h2 : ∃ p ∈ L, ∃ q ∈ L, p ≠ q) : ∀ p ∈ L, p.2 ≠ [] := by
  have hsym : Symmetric fun (a b : Byte × Code) => ¬ a.2 <+: b.2 ∧ ¬ b.2 <+: a.2 :=
    fun a b hab => ⟨hab.2, hab.1⟩
  obtain ⟨x, hx, y, hy, hxy⟩ := h2
  intro p hp hnil
  by_cases hpx : p = x
  · have := (hpw.forall hsym hp hy (by rw [hpx]; exact hxy)).1
    rw [hnil] at this
    exact this List.nil_prefix
  · have := (hpw.forall hsym hp hx hpx).1
    rw [hnil] at this
    exact this List.nil_prefix

/-- Round trip: an input with at least two distinct byte values and fewer than `2^31` bytes is
compressed to a container from which `decompressFile` recovers the input exactly. -/
theorem decompress_compress (pick : List charFreqPair → Nat) (B : List Byte)
    (h2 : twoDistinct B) (hlen : B.length < 2 ^ 31) :
    ∃ container, compressFile pick (some B) = .ok container ∧
      decompressFile (some container) = .ok B := by
  obtain ⟨x, hx, y, hy, hxy⟩ := h2
  have hne : B ≠ [] := List.ne_nil_of_mem hx
  obtain ⟨root, _, hf, hnd, hmem, hc⟩ := compressFile_eq pick B hne
  obtain ⟨b0, b1, b2, b3, hb, hv⟩ := le32_value B.length (by omega)
  have hkeys : ((leafPaths root []).map Prod.fst).Nodup := by rw [leafPaths_keys]; exact hnd
  have hin : ∀ c ∈ B, c ∈ (leafPaths root []).map Prod.fst := by
    intro c hcB
    rw [leafPaths_keys]
    exact (hmem c).2 hcB
  have hnil : ∀ p ∈ leafPaths root [], p.2 ≠ [] := by
    apply codes_ne_nil _ (leafPaths_pairwise root [])
    obtain ⟨p, hp, hp1⟩ := List.mem_map.1 (hin x hx)
    obtain ⟨q, hq, hq1⟩ := List.mem_map.1 (hin y hy)
    refine ⟨p, hp, q, hq, ?_⟩
    intro e
    apply hxy
    rw [← hp1, ← hq1, e]
  have hpos : 0 < B.length := List.length_pos.2 hne
  refine ⟨_, hc, ?_⟩
  rw [intBytes_natCast _ hlen, hb, decompressFile_container root hf,
    intOfBytes_of_value b0 b1 b2 b3 B.length hlen hv,
    unpackLoop_eq_unpackBits _ _ _ _ (by simpa using hpos),
    flatMap_bitsOfByte_packBits_padBits, padBits, encodeBits_eq_flatMap]
  have := unpackBits_flatMap (leafPaths root []) hkeys (leafPaths_pairwise root []) hnil
    (List.replicate ((8 - (B.flatMap fun c => (mapGet (leafPaths root []) c).getD []).length % 8)
      % 8) false) B [] hin hne
  simp only [List.length_nil, Nat.zero_add, List.nil_append] at this
  rw [this]

/-- With a recorded count of zero the unpack loop emits nothing. -/
theorem unpackLoop_zero (keyCharMap : List (Code × Byte)) (payload : List Byte) :
    unpackLoop keyCharMap 0 payload ([], []) = [] := by
  cases payload <;> simp [unpackLoop]

/-- An input whose length is a multiple of `2^32` gets the count field `0`, and
`decompressFile` writes nothing for its container. -/
theorem decompress_compress_count_wraps (pick : List charFreqPair → Nat) (B : List Byte)
    (hne : B ≠ []) (hw : wrapInt B.length = 0) :
    (compressFile pick (some B)).bind (fun c => decompressFile (some c)) = .ok [] := by
  obtain ⟨root, _, hf, _, _, hc⟩ := compressFile_eq pick B hne
  have h0 : intBytes 0 = [0, 0, 0, 0] := by decide
  have h1 : sizeOfInt (intOfBytes 0 0 0 0) = 0 := by decide
  rw [hc, hw, h0]
  simp only [Except.bind]
  rw [decompressFile_container root hf, h1, unpackLoop_zero]

/-- C1 (amended). Round trip: for every byte sequence `B` (every byte value 0-255 allowed)
that holds at least two distinct byte values and has fewer than `2^31` bytes, and for every
tie-breaking order, `compressFile` writes a container and `decompressFile` on that container
yields exactly `B`. -/
theorem roundTrip (pick : List charFreqPair → Nat) (B : List Byte)
    (h2 : twoDistinct B) (hlen : B.length < 2 ^ 31) :
    ∃ container, compressFile pick (some B) = .ok container ∧
      decompressFile (some container) = .ok B :=
  decompress_compress pick B h2 hlen

/-- Round trip of the input with the bytes 0, 255, 0. -/
theorem roundTrip_witness :
    twoDistinct [0, 255, 0] ∧ ([0, 255, 0] : List Byte).length < 2 ^ 31 ∧
    ∃ container, compressFile pickFirst (some [0, 255, 0]) = .ok container ∧
      decompressFile (some container) = .ok [0, 255, 0] :=
  ⟨⟨0, by simp, 255, by simp, by decide⟩, by simp,
    roundTrip pickFirst [0, 255, 0] ⟨0, by simp, 255, by simp, by decide⟩ (by simp)⟩

/-- C1 fails as stated. For the one-byte input `A` the container is `1 A 01 00 00 00` with no
payload and `decompressFile` writes zero bytes; for an input of `2^32` bytes with two distinct
values the count field wraps to 0 and `decompressFile` writes zero bytes as well. -/
theorem roundTrip_fails :
    compressFile pickFirst (some [65]) = .ok [49, 65, 1, 0, 0, 0] ∧
    decompressFile (some [49, 65, 1, 0, 0, 0]) = .ok [] ∧
    (compressFile pickFirst (some (1 :: List.replicate (2 ^ 32 - 1) 0))).bind
      (fun c => decompressFile (some c)) = .ok [] := by
  refine ⟨?_, ?_, ?_⟩
  · exact compressFile_single pickFirst 65 0
  · exact (decompressFile_single 65 1 0 0 0).2
  · apply decompress_compress_count_wraps
    · exact List.cons_ne_nil _ _
    · rw [List.length_cons, List.length_replicate]
      decide

/-! ## Truncated containers -/

/-- The recursion budget of `readTree` is never used up, and a successful call consumes at
least one byte. -/
theorem readTreeAux_adequate :
    ∀ (fuel : Nat) (s : List Byte), s.length < fuel →
      readTreeAux fuel s ≠ .error .outOfFuel ∧
      ∀ t rest, readTreeAux fuel s = .ok (t, rest) → rest.length < s.length := by
  intro fuel
  induction fuel with
  | zero => intro s h; omega
  | succ fuel ih =>
    intro s h
    cases s with
    | nil => simp [readTreeAux]
    | cons nodeType rest =>
      simp only [List.length_cons] at h
      by_cases hm : nodeType = charOne
      · cases rest with
        | nil => simp [readTreeAux, hm]
        | cons ch rest1 =>
          simp only [readTreeAux, hm, if_true]
          refine ⟨by simp, ?_⟩
          intro t r e
          simp only [Except.ok.injEq, Prod.mk.injEq] at e
          rw [← e.2]
          simp only [List.length_cons]
          omega
      · obtain ⟨h1, h2⟩ := ih rest (by omega)
        simp only [readTreeAux, hm, if_false]
        cases hr : readTreeAux fuel rest with
        | error e =>
          simp only
          refine ⟨?_, by simp⟩
          intro e'
          apply h1
          rw [hr, Except.error.injEq] at *
          exact e'
        | ok v =>
          obtain ⟨l, rest1⟩ := v
          have hlt := h2 l rest1 hr
          obtain ⟨h3, h4⟩ := ih rest1 (by omega)
          simp only
          cases hr2 : readTreeAux fuel rest1 with
          | error e =>
            simp only
            refine ⟨?_, by simp⟩
            intro e'
            apply h3
            rw [hr2, Except.error.injEq] at *
            exact e'
          | ok v2 =>
            obtain ⟨r, rest2⟩ := v2
            simp only
            refine ⟨by simp, ?_⟩
            intro t r' e
            simp only [Except.ok.injEq, Prod.mk.injEq] at e
            have := h4 r rest2 hr2
            rw [← e.2]
            simp only [List.length_cons]
            omega

theorem readTree_ne_outOfFuel (s : List Byte) : readTree s ≠ .error .outOfFuel :=
  (readTreeAux_adequate (s.length + 1) s (by omega)).1

/-- Reading a serialised full tree that was cut short: the read at the cut finds no data and
the variable it was to fill is used uninitialised. -/
theorem readTreeAux_truncated (t : charFreqPair) (h : full t = true) :
    ∀ (fuel k : Nat), k < (treeBytes t).length → k < fuel →
      readTreeAux fuel ((treeBytes t).take k) = .error .undefined := by
  induction t with
  | null => simp [full] at h
  | obj ch f l r ihl ihr =>
    intro fuel k hk hfuel
    cases fuel with
    | zero => omega
    | succ fuel =>
      by_cases hl : (l.isNull && r.isNull) = true
      · simp only [treeBytes, hl, if_true] at hk ⊢
        match k, hk with
        | 0, _ => simp [readTreeAux]
        | 1, _ => simp [readTreeAux]
      · have hl' : (l.isNull && r.isNull) = false := by simpa using hl
        obtain ⟨h1, h2⟩ := full_children h hl'
        simp only [treeBytes, hl', Bool.false_eq_true, if_false, List.length_cons,
          List.length_append] at hk ⊢
        cases k with
        | zero => simp [readTreeAux]
        | succ k =>
          rw [List.take_succ_cons]
          simp only [readTreeAux, charZero_ne_charOne, if_false]
          by_cases hkl : k < (treeBytes l).length
          · rw [List.take_append_of_le_length (le_of_lt hkl),
              ihl h1 fuel k hkl (by omega)]
          · have hkl' : (treeBytes l).length ≤ k := by omega
            have hsplit : List.take k (treeBytes l ++ treeBytes r)
                = treeBytes l ++ List.take (k - (treeBytes l).length) (treeBytes r) := by
              rw [List.take_append_eq_append_take, List.take_of_length_le hkl']
            have hh : height l ≤ fuel := by
              have := height_le_length_treeBytes l h1
              omega
            rw [hsplit, readTreeAux_treeBytes l h1 fuel _ hh]
            simp only
            rw [ihr h2 fuel _ (by omega) (by omega)]

/-- A file that ends strictly inside a serialised full tree: `decompressFile` has undefined
behaviour, it neither reports an error nor comes to write output. -/
theorem decompressFile_truncated (t : charFreqPair) (h : full t = true) (R : List Byte)
    (k : Nat) (hk : k < (treeBytes t).length) :
    decompressFile (some ((treeBytes t ++ R).take k)) = .error .undefined := by
  have e : (treeBytes t ++ R).take k = (treeBytes t).take k :=
    List.take_append_of_le_length (le_of_lt hk)
  have hr : readTree ((treeBytes t).take k) = .error .undefined := by
    unfold readTree
    apply readTreeAux_truncated t h _ k hk
    rw [List.length_take]
    omega
  unfold decompressFile
  simp only [e, hr]

/-- C5 (amended). Truncation inside the tree: for every container written by `compressFile`
and every cut point strictly inside its serialised tree, `readTree` on the truncated bytes
finds no data at the cut, leaves `nodeType` or `ch` uninitialised and goes on to use it, so
`decompressFile` has undefined behaviour there; it reports no error (there is no
`CorruptContainer` error in the program) and has written no output byte. -/
theorem decompressFile_cut_inside_tree (pick : List charFreqPair → Nat) (B container : List Byte)
    (root : charFreqPair) (k : Nat)
    (hc : compressFile pick (some B) = .ok container)
    (hr : buildTree pick (scanFreq B) = .ok root)
    (hk : k < (treeBytes root).length) :
    writeTree root = .ok (treeBytes root) ∧ treeBytes root <+: container ∧
    readTree (container.take k) = .error .undefined ∧
    decompressFile (some (container.take k)) = .error .undefined := by
  have hne : B ≠ [] := by
    rintro rfl
    rw [compressFile_nil pick] at hc
    cases hc
  obtain ⟨root', hr', hf, _, _, hc'⟩ := compressFile_eq pick B hne
  rw [hr] at hr'
  cases hr'
  rw [hc] at hc'
  cases hc'
  have hd := decompressFile_truncated root hf
    (intBytes (wrapInt B.length) ++ packBits (padBits (encodeBits (leafPaths root []) B))) k hk
  rw [← List.append_assoc] at hd
  refine ⟨writeTree_eq_treeBytes root hf, ⟨_, (List.append_assoc _ _ _).symm⟩, ?_, hd⟩
  have e : (treeBytes root ++ intBytes (wrapInt B.length) ++
      packBits (padBits (encodeBits (leafPaths root []) B))).take k = (treeBytes root).take k := by
    rw [List.append_assoc]
    exact List.take_append_of_le_length (le_of_lt hk)
  rw [e]
  unfold readTree
  apply readTreeAux_truncated root hf _ k hk
  rw [List.length_take]
  omega

/-- The container of `ab` cut after three of its five tree bytes. -/
theorem decompressFile_cut_inside_tree_witness :
    compressFile pickFirst (some [97, 98]) = .ok [48, 49, 97, 49, 98, 2, 0, 0, 0, 64] ∧
    buildTree pickFirst (scanFreq [97, 98]) = .ok (obj 126 2 (leaf 97 1) (leaf 98 1)) ∧
    3 < (treeBytes (obj 126 2 (leaf 97 1) (leaf 98 1))).length ∧
    readTree (([48, 49, 97, 49, 98, 2, 0, 0, 0, 64] : List Byte).take 3) = .error .undefined ∧
    decompressFile (some (([48, 49, 97, 49, 98, 2, 0, 0, 0, 64] : List Byte).take 3))
      = .error .undefined :=
  ⟨rfl, rfl, by decide,
    (decompressFile_cut_inside_tree pickFirst [97, 98] [48, 49, 97, 49, 98, 2, 0, 0, 0, 64]
      (obj 126 2 (leaf 97 1) (leaf 98 1)) 3 rfl rfl (by decide)).2.2.1,
    (decompressFile_cut_inside_tree pickFirst [97, 98] [48, 49, 97, 49, 98, 2, 0, 0, 0, 64]
      (obj 126 2 (leaf 97 1) (leaf 98 1)) 3 rfl rfl (by decide)).2.2.2⟩

/-- C5 fails as stated: the container of the one-byte input `A` is `1 A 01 00 00 00`; cut
after its first byte, `readTree` reads the leaf marker, finds no symbol byte and builds the
leaf from the uninitialised `ch`; no error is reported, and the result is not the report of a
failure that `decompressFile` has (`cannotOpen`). -/
theorem decompressFile_cut_no_error :
    compressFile pickFirst (some [65]) = .ok [49, 65, 1, 0, 0, 0] ∧
    ([49, 65, 1, 0, 0, 0] : List Byte).take 1 = [49] ∧
    readTree [49] = .error .undefined ∧
    decompressFile (some [49]) = .error .undefined ∧
    decompressFile (some [49]) ≠ .error .cannotOpen :=
  ⟨rfl, rfl, rfl, rfl, by
    rw [show decompressFile (some [49]) = .error .undefined from rfl]
    simp⟩

/-! ## The scenario `aaabbc` -/

theorem pqTop_of_tops_one (pick : List charFreqPair → Nat) (pq : List charFreqPair)
    (a : charFreqPair) (h : tops pq = [a]) : pqTop pick pq = .ok a := by
  have hne : pq ≠ [] := by
    rintro rfl
    simp [tops] at h
  obtain ⟨x, hx, hmem⟩ := pqTop_ok pick pq hne
  rw [h] at hmem
  rw [hx, List.mem_singleton.1 hmem]

theorem pqTop_of_tops_two (pick : List charFreqPair → Nat) (pq : List charFreqPair)
    (a b : charFreqPair) (h : tops pq = [a, b]) :
    pqTop pick pq = .ok a ∨ pqTop pick pq = .ok b := by
  have hne : pq ≠ [] := by
    rintro rfl
    simp [tops] at h
  obtain ⟨x, hx, hmem⟩ := pqTop_ok pick pq hne
  rw [h] at hmem
  rw [hx]
  rcases List.mem_cons.1 hmem with e | e
  · exact Or.inl (by rw [e])
  · exact Or.inr (by rw [List.mem_singleton.1 e])

/-- For the table of `aaabbc` the merge loop first joins `c` and `b`, then joins the result
with `a`; the tie between `a` (3) and the merged node (3) decides which of the two becomes
the left child of the root. -/
theorem buildTree_aaabbc (pick : List charFreqPair → Nat) :
    buildTree pick [(97, 3), (98, 2), (99, 1)]
        = .ok (obj 126 6 (leaf 97 3) (obj 126 3 (leaf 99 1) (leaf 98 2))) ∨
    buildTree pick [(97, 3), (98, 2), (99, 1)]
        = .ok (obj 126 6 (obj 126 3 (leaf 99 1) (leaf 98 2)) (leaf 97 3)) := by
  have t1 : pqTop pick [leaf 97 3, leaf 98 2, leaf 99 1] = .ok (leaf 99 1) :=
    pqTop_of_tops_one pick _ _ (by decide)
  have t2 : pqTop pick [leaf 97 3, leaf 98 2] = .ok (leaf 98 2) :=
    pqTop_of_tops_one pick _ _ (by decide)
  have p1 : pqPop [leaf 97 3, leaf 98 2, leaf 99 1] (leaf 99 1) = [leaf 97 3, leaf 98 2] := by
    decide
  have p2 : pqPop [leaf 97 3, leaf 98 2] (leaf 98 2) = [leaf 97 3] := by decide
  have p3 : pqPush [leaf 97 3] (obj charTilde (wrapInt ((leaf 99 1).getFreq + (leaf 98 2).getFreq))
      (leaf 99 1) (leaf 98 2)) = [leaf 97 3, obj 126 3 (leaf 99 1) (leaf 98 2)] := by decide
  have m1 : mergeLoop pick 3 [leaf 97 3, leaf 98 2, leaf 99 1]
      = mergeLoop pick 2 [leaf 97 3, obj 126 3 (leaf 99 1) (leaf 98 2)] := by
    rw [mergeLoop, if_pos (by decide), t1]
    simp only [p1, t2, p2, p3]
  have hb : buildTree pick [(97, 3), (98, 2), (99, 1)]
      = match mergeLoop pick 2 [leaf 97 3, obj 126 3 (leaf 99 1) (leaf 98 2)] with
        | .ok pq => pqTop pick pq
        | .error e => .error e := by
    rw [← m1]
    rfl
  rw [hb]
  rcases pqTop_of_tops_two pick [leaf 97 3, obj 126 3 (leaf 99 1) (leaf 98 2)] (leaf 97 3)
    (obj 126 3 (leaf 99 1) (leaf 98 2)) (by decide) with t3 | t3
  · left
    have p4 : pqPop [leaf 97 3, obj 126 3 (leaf 99 1) (leaf 98 2)] (leaf 97 3)
        = [obj 126 3 (leaf 99 1) (leaf 98 2)] := by decide
    have p5 : pqPush (pqPop [obj 126 3 (leaf 99 1) (leaf 98 2)] (obj 126 3 (leaf 99 1) (leaf 98 2)))
        (obj charTilde (wrapInt ((leaf 97 3).getFreq + (obj 126 3 (leaf 99 1) (leaf 98 2)).getFreq))
          (leaf 97 3) (obj 126 3 (leaf 99 1) (leaf 98 2)))
        = [obj 126 6 (leaf 97 3) (obj 126 3 (leaf 99 1) (leaf 98 2))] := by decide
    rw [mergeLoop, if_pos (by decide), t3]
    simp only [p4, pqTop_singleton, p5]
    rw [mergeLoop, if_neg (by decide)]
    exact pqTop_singleton _ _
  · right
    have p4 : pqPop [leaf 97 3, obj 126 3 (leaf 99 1) (leaf 98 2)]
        (obj 126 3 (leaf 99 1) (leaf 98 2)) = [leaf 97 3] := by decide
    have p5 : pqPush (pqPop [leaf 97 3] (leaf 97 3))
        (obj charTilde (wrapInt ((obj 126 3 (leaf 99 1) (leaf 98 2)).getFreq + (leaf 97 3).getFreq))
          (obj 126 3 (leaf 99 1) (leaf 98 2)) (leaf 97 3))
        = [obj 126 6 (obj 126 3 (leaf 99 1) (leaf 98 2)) (leaf 97 3)] := by decide
    rw [mergeLoop, if_pos (by decide), t3]
    simp only [p4, pqTop_singleton, p5]
    rw [mergeLoop, if_neg (by decide)]
    exact pqTop_singleton _ _

/-- C8. Concrete scenario: for the input `aaabbc` the frequency table is `a:3, b:2, c:1`; for
either way of breaking the tie between `a` and the merged node, `a` gets a 1-bit code, `b` and
`c` get 2-bit codes, the concatenated codes are 9 bits long and are padded to 16 bits, which
are 2 payload bytes, and `decompressFile` on the container returns `aaabbc`. -/
theorem aaabbc_scenario (pick : List charFreqPair → Nat) :
    scanFreq [97, 97, 97, 98, 98, 99] = [(97, 3), (98, 2), (99, 1)] ∧
    ∃ root charKeyMap container,
      buildTree pick (scanFreq [97, 97, 97, 98, 98, 99]) = .ok root ∧
      traverse_charKeyMap root [] [] = .ok charKeyMap ∧
      (mapGet charKeyMap 97).map List.length = some 1 ∧
      (mapGet charKeyMap 98).map List.length = some 2 ∧
      (mapGet charKeyMap 99).map List.length = some 2 ∧
      (encodeBits charKeyMap [97, 97, 97, 98, 98, 99]).length = 9 ∧
      (padBits (encodeBits charKeyMap [97, 97, 97, 98, 98, 99])).length = 16 ∧
      (packBits (padBits (encodeBits charKeyMap [97, 97, 97, 98, 98, 99]))).length = 2 ∧
      compressFile pick (some [97, 97, 97, 98, 98, 99]) = .ok container ∧
      decompressFile (some container) = .ok [97, 97, 97, 98, 98, 99] := by
  have hs : scanFreq [97, 97, 97, 98, 98, 99] = [(97, 3), (98, 2), (99, 1)] := by decide
  refine ⟨hs, ?_⟩
  rw [hs]
  rcases buildTree_aaabbc pick with hb | hb
  · refine ⟨_, [(97, [false]), (99, [true, false]), (98, [true, true])],
      [48, 49, 97, 48, 49, 99, 49, 98, 6, 0, 0, 0, 31, 0], hb, rfl, rfl, rfl, rfl, rfl, rfl, rfl,
      ?_, rfl⟩
    simp only [compressFile, hs, hb]
    rfl
  · refine ⟨_, [(99, [false, false]), (98, [false, true]), (97, [true])],
      [48, 48, 49, 99, 49, 98, 49, 97, 6, 0, 0, 0, 234, 0], hb, rfl, rfl, rfl, rfl, rfl, rfl, rfl,
      ?_, rfl⟩
    simp only [compressFile, hs, hb]
    rfl

/-! ## The recursion budgets are never used up -/

theorem traverse_keyCharMap_fault (t : charFreqPair) :
    ∀ (m : List (Code × Byte)) (s : Code) (e : Fault),
      traverse_keyCharMap t m s = .error e → e = .undefined := by
  induction t with
  | null =>
    intro m s e h
    simp only [traverse_keyCharMap, Except.error.injEq] at h
    exact h.symm
  | obj ch f l r ihl ihr =>
    intro m s e h
    by_cases hl : (l.isNull && r.isNull) = true
    · simp [traverse_keyCharMap, hl] at h
    · have hl' : (l.isNull && r.isNull) = false := by simpa using hl
      simp only [traverse_keyCharMap, hl', Bool.false_eq_true, if_false] at h
      cases h1 : traverse_keyCharMap l m (s ++ [false]) with
      | error e1 =>
        rw [h1] at h
        simp only [Except.error.injEq] at h
        rw [← h]
        exact ihl _ _ _ h1
      | ok m1 =>
        rw [h1] at h
        exact ihr _ _ _ h

/-- The result of `decompressFile` never comes from the recursion budget of the model. -/
theorem decompressFile_ne_outOfFuel (compressed : Option (List Byte)) :
    decompressFile compressed ≠ .error .outOfFuel := by
  cases compressed with
  | none => simp [decompressFile]
  | some bytes =>
    unfold decompressFile
    simp only
    cases hr : readTree bytes with
    | error e =>
      simp only
      intro h
      apply readTree_ne_outOfFuel bytes
      rw [hr]
      simp only [Except.error.injEq] at h
      rw [h]
    | ok v =>
      obtain ⟨root, rest⟩ := v
      simp only
      cases ht : traverse_keyCharMap root [] [] with
      | error e =>
        simp only
        have := traverse_keyCharMap_fault root [] [] e ht
        rw [this]
        simp
      | ok m => simp

/-- The result of `compressFile` never comes from the recursion budget of the model. -/
theorem compressFile_ne_outOfFuel (pick : List charFreqPair → Nat) (source : Option (List Byte)) :
    compressFile pick source ≠ .error .outOfFuel := by
  cases source with
  | none => simp [compressFile]
  | some B =>
    by_cases hB : B = []
    · rw [hB, compressFile_nil]
      simp
    · obtain ⟨root, _, _, _, _, hc⟩ := compressFile_eq pick B hB
      rw [hc]
      simp

/-! ## C20: decoding a one-leaf container -/

theorem mapGet_one_leaf (c : Byte) (key : Code) (b : Bool) :
    mapGet [(([] : Code), c)] (key ++ [b]) = none := by
  have h : ¬ ([] : Code) = key ++ [b] := by
    intro e
    have := congrArg List.length e
    simp at this
  simp [mapGet, h]

theorem unpackBits_one_leaf (c : Byte) (totalChars : Nat) :
    ∀ (bin : List Bool) (key : Code) (output : List Byte),
      unpackBits [([], c)] totalChars bin (key, output) = (key ++ bin, output) := by
  intro bin
  induction bin with
  | nil => intro key output; simp [unpackBits]
  | cons b bin ih =>
    intro key output
    rw [unpackBits_cons_none (mapGet_one_leaf c key b), ih]
    simp

theorem unpackLoop_one_leaf (c : Byte) (totalChars : Nat) :
    ∀ (payload : List Byte) (key : Code) (output : List Byte),
      unpackLoop [([], c)] totalChars payload (key, output) = output := by
  intro payload
  induction payload with
  | nil => intro key output; rfl
  | cons ch rest ih =>
    intro key output
    rw [unpackLoop]
    split
    · rw [unpackBits_one_leaf, ih]
    · rfl

theorem unpack_one_leaf (c : Byte) (rest : List Byte) : unpack [([], c)] rest = [] := by
  match rest with
  | [] => rfl
  | [_] => rfl
  | [_, _] => rfl
  | [_, _, _] => rfl
  | b0 :: b1 :: b2 :: b3 :: payload =>
    rw [unpack, unpackLoop_one_leaf]

/-- C20. Decoding a one-leaf container: for every file that starts with `'1'` and a symbol
byte, whatever count and payload follow, `readTree` returns the single leaf, `keyCharMap` has
the empty bitcode as its only key, the inner loop only ever appends bits to the key, and
`decompressFile` writes zero bytes. -/
theorem one_leaf_container_decodes_to_nothing (c : Byte) (rest : List Byte) :
    readTree (charOne :: c :: rest) = .ok (leaf c 0, rest) ∧
    traverse_keyCharMap (leaf c 0) [] [] = .ok [([], c)] ∧
    (∀ (totalChars : Nat) (bin : List Bool) (key : Code) (output : List Byte),
      unpackBits [([], c)] totalChars bin (key, output) = (key ++ bin, output)) ∧
    (∀ (totalChars : Nat) (payload : List Byte),
      unpackLoop [([], c)] totalChars payload ([], []) = []) ∧
    decompressFile (some (charOne :: c :: rest)) = .ok [] := by
  have h1 : readTree (charOne :: c :: rest) = .ok (leaf c 0, rest) := by
    simp [readTree, readTreeAux]
  have h2 : traverse_keyCharMap (leaf c 0) [] [] = .ok [([], c)] := rfl
  refine ⟨h1, h2, fun t => unpackBits_one_leaf c t, fun t p => unpackLoop_one_leaf c t p [] [], ?_⟩
  unfold decompressFile
  simp only [h1, h2, unpack_one_leaf]

/-! ## C16: round trip on non-degenerate input -/

/-- C16. Round trip on non-degenerate input: for every byte sequence `B` with at least two
distinct byte values and fewer than `2^31` bytes, and for every order the priority queue may
use among equal frequencies, compressing and then decompressing returns exactly `B`. -/
theorem roundTrip_nondegenerate (pick : List charFreqPair → Nat) (B : List Byte)
    (h2 : twoDistinct B) (hlen : B.length < 2 ^ 31) :
    (compressFile pick (some B)).bind (fun container => decompressFile (some container))
      = .ok B := by
  obtain ⟨container, hc, hd⟩ := decompress_compress pick B h2 hlen
  rw [hc]
  exact hd

/-- Round trip of `aaabbc` with the second candidate taken at every tie. -/
theorem roundTrip_nondegenerate_witness :
    twoDistinct [97, 97, 97, 98, 98, 99] ∧
    ([97, 97, 97, 98, 98, 99] : List Byte).length < 2 ^ 31 ∧
    (compressFile (fun _ => 1) (some [97, 97, 97, 98, 98, 99])).bind
      (fun container => decompressFile (some container)) = .ok [97, 97, 97, 98, 98, 99] :=
  ⟨⟨97, by simp, 98, by simp, by decide⟩, by simp,
    roundTrip_nondegenerate (fun _ => 1) [97, 97, 97, 98, 98, 99]
      ⟨97, by simp, 98, by simp, by decide⟩ (by simp)⟩

/-! ## C15: marker bytes other than `'0'` and `'1'` -/

/-- Whatever byte other than `'1'` stands where the marker of an internal node is expected,
`readTree` reads the stream as it reads the stream with `'0'` there. -/
theorem readTreeAux_markedBytes (t : charFreqPair) (h : full t = true)
    (hm : markersOk t = true) :
    ∀ (fuel : Nat) (R : List Byte), height t ≤ fuel →
      readTreeAux fuel (markedBytes t ++ R) = .ok (strip t, R) := by
  induction t with
  | null => simp [full] at h
  | obj ch f l r ihl ihr =>
    intro fuel R hf
    cases fuel with
    | zero => simp [height] at hf
    | succ fuel =>
      by_cases hl : (l.isNull && r.isNull) = true
      · simp [markedBytes, strip, hl, readTreeAux, leaf]
      · have hl' : (l.isNull && r.isNull) = false := by simpa using hl
        obtain ⟨h1, h2⟩ := full_children h hl'
        have hm' : ch ≠ charOne ∧ markersOk l = true ∧ markersOk r = true := by
          simpa [markersOk, hl', and_assoc] using hm
        have hfl : height l ≤ fuel := by simp [height] at hf; omega
        have hfr : height r ≤ fuel := by simp [height] at hf; omega
        have e1 := ihl h1 hm'.2.1 fuel (markedBytes r ++ R) hfl
        have e2 := ihr h2 hm'.2.2 fuel R hfr
        simp only [markedBytes, strip, hl', Bool.false_eq_true, if_false, List.cons_append,
          List.append_assoc, readTreeAux, hm'.1, e1, e2]

theorem height_le_length_markedBytes (t : charFreqPair) (h : full t = true) :
    height t ≤ (markedBytes t).length := by
  induction t with
  | null => simp [full] at h
  | obj ch f l r ihl ihr =>
    by_cases hl : (l.isNull && r.isNull) = true
    · have hl2 := hl
      simp only [Bool.and_eq_true, isNull_iff] at hl2
      obtain ⟨rfl, rfl⟩ := hl2
      simp [markedBytes, height, isNull]
    · have hl' : (l.isNull && r.isNull) = false := by simpa using hl
      obtain ⟨h1, h2⟩ := full_children h hl'
      have := ihl h1
      have := ihr h2
      simp only [markedBytes, height, hl', Bool.false_eq_true, if_false, List.length_cons,
        List.length_append]
      omega

theorem readTree_markedBytes (t : charFreqPair) (h : full t = true) (hm : markersOk t = true)
    (R : List Byte) : readTree (markedBytes t ++ R) = .ok (strip t, R) := by
  unfold readTree
  apply readTreeAux_markedBytes t h hm
  have := height_le_length_markedBytes t h
  simp only [List.length_append]
  omega

/-- C15 (amended). Marker bytes: for every tree `T` whose nodes have zero or two children,
serialised with an arbitrary byte other than `'1'` in the place of each internal-node marker,
and every trailing byte sequence `R`, `readTree` reports no error: it builds the same tree as
from the serialisation with `'0'` markers and leaves `R` unread, and `decompressFile` writes
the same output as for the file with `'0'` markers. -/
theorem readTree_any_marker (T : charFreqPair) (R : List Byte) (hT : full T = true)
    (hm : markersOk T = true) :
    readTree (markedBytes T ++ R) = .ok (strip T, R) ∧
    readTree (markedBytes T ++ R) = readTree (treeBytes T ++ R) ∧
    decompressFile (some (markedBytes T ++ R)) = decompressFile (some (treeBytes T ++ R)) := by
  have h1 := readTree_markedBytes T hT hm R
  have h2 := readTree_treeBytes T hT R
  refine ⟨h1, by rw [h1, h2], ?_⟩
  unfold decompressFile
  simp only [h1, h2]

/-- A two-leaf tree whose root marker is the byte `X`. -/
theorem readTree_any_marker_witness :
    full (obj 88 0 (leaf 3 0) (leaf 4 0)) = true ∧
    markersOk (obj 88 0 (leaf 3 0) (leaf 4 0)) = true ∧
    markedBytes (obj 88 0 (leaf 3 0) (leaf 4 0)) = [88, 49, 3, 49, 4] ∧
    readTree (markedBytes (obj 88 0 (leaf 3 0) (leaf 4 0)) ++ [2, 0, 0, 0, 64])
      = .ok (strip (obj 88 0 (leaf 3 0) (leaf 4 0)), [2, 0, 0, 0, 64]) :=
  ⟨by decide, by decide, by decide,
    (readTree_any_marker (obj 88 0 (leaf 3 0) (leaf 4 0)) [2, 0, 0, 0, 64]
      (by decide) (by decide)).1⟩

/-- C15 fails as stated: in the file `X 1 03 1 04` + count 2 + payload `01000000` the first
marker is `X`, neither `'0'` nor `'1'`; `readTree` builds the two-leaf tree all the same and
`decompressFile` writes the two bytes `03 04`. -/
theorem bad_marker_is_accepted :
    readTree [88, 49, 3, 49, 4, 2, 0, 0, 0, 64]
      = .ok (obj 126 0 (leaf 3 0) (leaf 4 0), [2, 0, 0, 0, 64]) ∧
    decompressFile (some [88, 49, 3, 49, 4, 2, 0, 0, 0, 64]) = .ok [3, 4] :=
  ⟨rfl, rfl⟩

/-! ## C12: unpacking stops at the recorded count -/

theorem unpackLoop_of_not_lt (keyCharMap : List (Code × Byte)) (totalChars : Nat)
    (payload : List Byte) (st : Code × List Byte) (h : ¬ st.2.length < totalChars) :
    unpackLoop keyCharMap totalChars payload st = st.2 := by
  cases payload with
  | nil => rfl
  | cons ch rest => rw [unpackLoop, if_neg h]

theorem unpackLoop_length_le (keyCharMap : List (Code × Byte)) (totalChars : Nat) :
    ∀ (payload : List Byte) (st : Code × List Byte), st.2.length ≤ totalChars →
      (unpackLoop keyCharMap totalChars payload st).length ≤ totalChars := by
  intro payload
  induction payload with
  | nil => intro st h; exact h
  | cons ch rest ih =>
    intro st h
    rw [unpackLoop]
    split
    · next hlt => exact ih _ (unpackBits_length_le keyCharMap totalChars _ st hlt)
    · exact h

/-- Once the recorded count has been reached, further payload bytes change nothing. -/
theorem unpackLoop_append (keyCharMap : List (Code × Byte)) (totalChars : Nat)
    (more : List Byte) :
    ∀ (payload : List Byte) (st : Code × List Byte), st.2.length ≤ totalChars →
      (unpackLoop keyCharMap totalChars payload st).length = totalChars →
      unpackLoop keyCharMap totalChars (payload ++ more) st
        = unpackLoop keyCharMap totalChars payload st := by
  intro payload
  induction payload with
  | nil =>
    intro st _ h
    have h' : st.2.length = totalChars := h
    rw [List.nil_append, unpackLoop_of_not_lt _ _ _ _ (by omega)]
    rfl
  | cons ch rest ih =>
    intro st hle h
    by_cases hlt : st.2.length < totalChars
    · rw [List.cons_append, unpackLoop, unpackLoop, if_pos hlt, if_pos hlt]
      rw [unpackLoop, if_pos hlt] at h
      exact ih _ (unpackBits_length_le keyCharMap totalChars _ st hlt) h
    · rw [unpackLoop_of_not_lt _ _ _ _ hlt, unpackLoop_of_not_lt _ _ _ _ hlt]

/-- Once the recorded count has been reached, further bits change nothing. -/
theorem unpackBits_append_of_full (keyCharMap : List (Code × Byte)) (totalChars : Nat)
    (xs ys : List Bool) (st : Code × List Byte) (hst : st.2.length < totalChars)
    (h : (unpackBits keyCharMap totalChars xs st).2.length = totalChars) :
    unpackBits keyCharMap totalChars (xs ++ ys) st = unpackBits keyCharMap totalChars xs st := by
  rw [unpackBits_append _ _ _ _ _ hst, if_neg (by omega)]

theorem sizeOfInt_of_nonneg (x : Int) (h0 : 0 ≤ x) (h1 : x < 2 ^ 31) :
    ((sizeOfInt x : Nat) : Int) = x := by
  unfold sizeOfInt
  omega

theorem intOfBytes_lt (b0 b1 b2 b3 : Byte) : intOfBytes b0 b1 b2 b3 < 2 ^ 31 :=
  (wrapInt_range _).2

/-- C12. Unpacking stops at the recorded count: for every table `keyCharMap` (so for every
tree), every recorded count that is not negative and every payload, the unpack loop of
`decompressFile` emits at most that many bytes; once it has emitted that many, neither further
payload bytes nor further bits of the current byte change the output. -/
theorem unpack_stops_at_count (keyCharMap : List (Code × Byte)) (b0 b1 b2 b3 : Byte)
    (payload more : List Byte) (h : 0 ≤ intOfBytes b0 b1 b2 b3) :
    ((unpack keyCharMap (b0 :: b1 :: b2 :: b3 :: payload)).length : Int)
      ≤ intOfBytes b0 b1 b2 b3 ∧
    (((unpack keyCharMap (b0 :: b1 :: b2 :: b3 :: payload)).length : Int)
        = intOfBytes b0 b1 b2 b3 →
      unpack keyCharMap (b0 :: b1 :: b2 :: b3 :: (payload ++ more))
        = unpack keyCharMap (b0 :: b1 :: b2 :: b3 :: payload)) ∧
    (∀ xs ys : List Bool,
      (0 : Int) < intOfBytes b0 b1 b2 b3 →
      (((unpackBits keyCharMap (sizeOfInt (intOfBytes b0 b1 b2 b3)) xs ([], [])).2.length : Int)
        = intOfBytes b0 b1 b2 b3) →
      unpackBits keyCharMap (sizeOfInt (intOfBytes b0 b1 b2 b3)) (xs ++ ys) ([], [])
        = unpackBits keyCharMap (sizeOfInt (intOfBytes b0 b1 b2 b3)) xs ([], [])) := by
  have hs := sizeOfInt_of_nonneg _ h (intOfBytes_lt b0 b1 b2 b3)
  have hu : ∀ p, unpack keyCharMap (b0 :: b1 :: b2 :: b3 :: p)
      = unpackLoop keyCharMap (sizeOfInt (intOfBytes b0 b1 b2 b3)) p ([], []) :=
    fun p => by simp only [unpack]
  simp only [hu]
  generalize intOfBytes b0 b1 b2 b3 = x at hs ⊢
  generalize sizeOfInt x = n at hs ⊢
  subst hs
  refine ⟨?_, ?_, ?_⟩
  · have := unpackLoop_length_le keyCharMap n payload ([], []) (Nat.zero_le _)
    exact_mod_cast this
  · intro he
    apply unpackLoop_append _ _ _ _ _ (Nat.zero_le _)
    exact_mod_cast he
  · intro xs ys hpos he
    apply unpackBits_append_of_full
    · show 0 < n
      exact_mod_cast hpos
    · exact_mod_cast he

/-- The count 2 with a payload of one byte, for the table of a two-leaf tree. -/
theorem unpack_stops_at_count_witness :
    (0 : Int) ≤ intOfBytes 2 0 0 0 ∧
    ((unpack [([false], 3), ([true], 4)] [2, 0, 0, 0, 64]).length : Int) ≤ intOfBytes 2 0 0 0 ∧
    unpack [([false], 3), ([true], 4)] [2, 0, 0, 0, 64] = [3, 4] :=
  ⟨by decide,
    (unpack_stops_at_count [([false], 3), ([true], 4)] 2 0 0 0 [64] [] (by decide)).1, rfl⟩

/-! ## C11: bit packing -/

theorem length_packBits :
    ∀ (n : Nat) (bits : List Bool), bits.length = 8 * n → (packBits bits).length = n := by
  intro n
  induction n with
  | zero =>
    intro bits h
    have : bits = [] := List.length_eq_zero.1 (by simpa using h)
    subst this
    rfl
  | succ n ih =>
    intro bits h
    match bits, h with
    | b0 :: b1 :: b2 :: b3 :: b4 :: b5 :: b6 :: b7 :: rest, h =>
      have hr : rest.length = 8 * n := by
        simp only [List.length_cons] at h
        omega
      rw [packBits, List.length_cons, ih rest hr]
    | [], h => exfalso; simp only [List.length_cons, List.length_nil] at h; omega
    | [_], h => exfalso; simp only [List.length_cons, List.length_nil] at h; omega
    | [_, _], h => exfalso; simp only [List.length_cons, List.length_nil] at h; omega
    | [_, _, _], h => exfalso; simp only [List.length_cons, List.length_nil] at h; omega
    | [_, _, _, _], h => exfalso; simp only [List.length_cons, List.length_nil] at h; omega
    | [_, _, _, _, _], h => exfalso; simp only [List.length_cons, List.length_nil] at h; omega
    | [_, _, _, _, _, _], h => exfalso; simp only [List.length_cons, List.length_nil] at h; omega
    | [_, _, _, _, _, _, _], h =>
      exfalso; simp only [List.length_cons, List.length_nil] at h; omega

theorem length_packBits_padBits (buffer : List Bool) :
    (packBits (padBits buffer)).length = (buffer.length + 7) / 8 := by
  obtain ⟨n, hn⟩ := length_padBits buffer
  rw [length_packBits n _ hn]
  simp only [padBits, List.length_append, List.length_replicate] at hn
  omega

theorem length_flatMap_codes (charKeyMap : List (Byte × Code)) (content : List Byte) :
    (content.flatMap fun c => (mapGet charKeyMap c).getD []).length
      = (content.map fun c => ((mapGet charKeyMap c).getD []).length).sum := by
  induction content with
  | nil => rfl
  | cons x xs ih => simp [List.flatMap_cons, ih]

/-- The byte written for eight bits has the first bit as its most significant bit. -/
theorem byteOfBits_val (b0 b1 b2 b3 b4 b5 b6 b7 : Bool) :
    (byteOfBits [b0, b1, b2, b3, b4, b5, b6, b7]).val =
      128 * b0.toNat + 64 * b1.toNat + 32 * b2.toNat + 16 * b3.toNat + 8 * b4.toNat
        + 4 * b5.toNat + 2 * b6.toNat + b7.toNat := by
  cases b0 <;> cases b1 <;> cases b2 <;> cases b3 <;> cases b4 <;> cases b5 <;> cases b6 <;>
    cases b7 <;> rfl

/-- C11. Bit packing: for every input and every code table, the bit buffer is the
concatenation of the bitcodes of the input symbols in input order; it is extended with fewer
than 8 zero bits to a multiple of 8 and cut into bytes most significant bit first, so that
spelling the payload bytes out gives the padded buffer back; the payload has `ceil(L/8)` bytes,
`L` being the sum of the code lengths of all input symbols, and every payload bit from position
`L` on is 0. -/
theorem packing_layout (charKeyMap : List (Byte × Code)) (content : List Byte) :
    encodeBits charKeyMap content
      = content.flatMap (fun c => (mapGet charKeyMap c).getD []) ∧
    (encodeBits charKeyMap content).length
      = (content.map fun c => ((mapGet charKeyMap c).getD []).length).sum ∧
    (∃ k, k < 8 ∧
      padBits (encodeBits charKeyMap content)
        = encodeBits charKeyMap content ++ List.replicate k false ∧
      (packBits (padBits (encodeBits charKeyMap content))).flatMap bitsOfByte
        = encodeBits charKeyMap content ++ List.replicate k false) ∧
    (padBits (encodeBits charKeyMap content)).length % 8 = 0 ∧
    (packBits (padBits (encodeBits charKeyMap content))).length
      = ((encodeBits charKeyMap content).length + 7) / 8 ∧
    (∀ b0 b1 b2 b3 b4 b5 b6 b7 rest,
      packBits (b0 :: b1 :: b2 :: b3 :: b4 :: b5 :: b6 :: b7 :: rest)
        = byteOfBits [b0, b1, b2, b3, b4, b5, b6, b7] :: packBits rest ∧
      (byteOfBits [b0, b1, b2, b3, b4, b5, b6, b7]).val =
        128 * b0.toNat + 64 * b1.toNat + 32 * b2.toNat + 16 * b3.toNat + 8 * b4.toNat
          + 4 * b5.toNat + 2 * b6.toNat + b7.toNat) ∧
    (∀ i, (encodeBits charKeyMap content).length ≤ i →
      i < 8 * (packBits (padBits (encodeBits charKeyMap content))).length →
      ((packBits (padBits (encodeBits charKeyMap content))).flatMap bitsOfByte)[i]?
        = some false) := by
  have hpad : padBits (encodeBits charKeyMap content) = encodeBits charKeyMap content ++
      List.replicate ((8 - (encodeBits charKeyMap content).length % 8) % 8) false := rfl
  have hflat := flatMap_bitsOfByte_packBits_padBits (encodeBits charKeyMap content)
  refine ⟨encodeBits_eq_flatMap _ _, ?_, ⟨_, ?_, hpad, ?_⟩, ?_, length_packBits_padBits _, ?_, ?_⟩
  · rw [encodeBits_eq_flatMap, length_flatMap_codes]
  · omega
  · rw [hflat, hpad]
  · obtain ⟨n, hn⟩ := length_padBits (encodeBits charKeyMap content)
    omega
  · intro b0 b1 b2 b3 b4 b5 b6 b7 rest
    exact ⟨by rw [packBits], byteOfBits_val _ _ _ _ _ _ _ _⟩
  · intro i hi hlt
    rw [hflat, hpad, List.getElem?_append_right hi]
    rw [length_packBits_padBits] at hlt
    rw [List.getElem?_replicate, if_pos]
    omega

/-! ## C18: container size -/

theorem leafSyms_length_pos (t : charFreqPair) (h : full t = true) :
    1 ≤ (leafSyms t).length := by
  induction t with
  | null => simp [full] at h
  | obj ch f l r ihl ihr =>
    by_cases hl : (l.isNull && r.isNull) = true
    · simp [leafSyms, hl]
    · have hl' : (l.isNull && r.isNull) = false := by simpa using hl
      obtain ⟨h1, h2⟩ := full_children h hl'
      have := ihl h1
      simp only [leafSyms, hl', Bool.false_eq_true, if_false, List.length_append]
      omega

/-- A serialised tree takes two bytes per leaf and one per internal node, and a tree with `k`
leaves has `k - 1` internal nodes. -/
theorem length_treeBytes (t : charFreqPair) (h : full t = true) :
    (treeBytes t).length + 1 = 3 * (leafSyms t).length := by
  induction t with
  | null => simp [full] at h
  | obj ch f l r ihl ihr =>
    by_cases hl : (l.isNull && r.isNull) = true
    · simp [treeBytes, leafSyms, hl]
    · have hl' : (l.isNull && r.isNull) = false := by simpa using hl
      obtain ⟨h1, h2⟩ := full_children h hl'
      have := ihl h1
      have := ihr h2
      simp only [treeBytes, leafSyms, hl', Bool.false_eq_true, if_false, List.length_cons,
        List.length_append]
      omega

theorem leafPaths_of_one_leaf (t : charFreqPair) (h : full t = true)
    (h1 : (leafSyms t).length = 1) (s : Code) :
    ∀ p ∈ leafPaths t s, p.2 = s := by
  cases t with
  | null => simp [full] at h
  | obj ch f l r =>
    by_cases hl : (l.isNull && r.isNull) = true
    · simp [leafPaths, hl]
    · have hl' : (l.isNull && r.isNull) = false := by simpa using hl
      obtain ⟨h2, h3⟩ := full_children h hl'
      have := leafSyms_length_pos l h2
      have := leafSyms_length_pos r h3
      simp only [leafSyms, hl', Bool.false_eq_true, if_false, List.length_append] at h1
      omega

theorem length_intBytes (x : Int) : (intBytes x).length = 4 := rfl

/-- C18. Container size: for every non-empty input with `k` distinct byte values and every
tie-breaking order, the serialised tree has `3k - 1` bytes and the container has
`(3k - 1) + 4 + ceil(L/8)` bytes, `L` being the sum over the input symbols of their code
lengths; for `k = 1` the container has 6 bytes, whatever the length of the input. -/
theorem container_size (pick : List charFreqPair → Nat) (B : List Byte) (hne : B ≠ []) :
    ∃ root tree charKeyMap container,
      buildTree pick (scanFreq B) = .ok root ∧
      writeTree root = .ok tree ∧
      traverse_charKeyMap root [] [] = .ok charKeyMap ∧
      compressFile pick (some B) = .ok container ∧
      tree.length = 3 * B.dedup.length - 1 ∧
      container.length = (3 * B.dedup.length - 1) + 4
        + ((B.map fun c => ((mapGet charKeyMap c).getD []).length).sum + 7) / 8 ∧
      (B.dedup.length = 1 → container.length = 6) := by
  obtain ⟨root, hr, hf, hnd, hmem, hc⟩ := compressFile_eq pick B hne
  have hk : (leafSyms root).length = B.dedup.length := by
    have hperm : (leafSyms root).Perm B.dedup := by
      rw [List.perm_ext_iff_of_nodup hnd (List.nodup_dedup B)]
      intro c
      rw [List.mem_dedup]
      exact hmem c
    exact hperm.length_eq
  have ht := length_treeBytes root hf
  have hpos := leafSyms_length_pos root hf
  have hL : (encodeBits (leafPaths root []) B).length
      = (B.map fun c => ((mapGet (leafPaths root []) c).getD []).length).sum := by
    rw [encodeBits_eq_flatMap, length_flatMap_codes]
  have hlen : (treeBytes root ++ intBytes (wrapInt B.length) ++
      packBits (padBits (encodeBits (leafPaths root []) B))).length
      = (3 * B.dedup.length - 1) + 4
        + ((B.map fun c => ((mapGet (leafPaths root []) c).getD []).length).sum + 7) / 8 := by
    rw [List.length_append, List.length_append, length_intBytes, length_packBits_padBits, hL]
    omega
  refine ⟨root, treeBytes root, leafPaths root [], _, hr, writeTree_eq_treeBytes root hf,
    charKeyMap_eq root hf hnd, hc, by omega, hlen, ?_⟩
  intro h1
  rw [hlen, h1]
  have hz : (B.map fun c => ((mapGet (leafPaths root []) c).getD []).length).sum = 0 := by
    apply List.sum_eq_zero
    intro x hx
    obtain ⟨c, _, rfl⟩ := List.mem_map.1 hx
    cases hg : mapGet (leafPaths root []) c with
    | none => rfl
    | some k =>
      have hkeys : ((leafPaths root []).map Prod.fst).Nodup := by
        rw [leafPaths_keys]; exact hnd
      have hm := (mapGet_of_mem _ hkeys c k).1 hg
      have := leafPaths_of_one_leaf root hf (by omega) [] (c, k) hm
      simp only at this
      rw [Option.getD_some, this]
      rfl
  rw [hz]

/-- The container written for `AAA`, an input with one distinct byte value. -/
theorem container_size_witness :
    ([65, 65, 65] : List Byte) ≠ [] ∧
    ∃ root tree charKeyMap container,
      buildTree pickFirst (scanFreq [65, 65, 65]) = .ok root ∧
      writeTree root = .ok tree ∧
      traverse_charKeyMap root [] [] = .ok charKeyMap ∧
      compressFile pickFirst (some [65, 65, 65]) = .ok container ∧
      tree.length = 3 * ([65, 65, 65] : List Byte).dedup.length - 1 ∧
      container.length = (3 * ([65, 65, 65] : List Byte).dedup.length - 1) + 4
        + ((([65, 65, 65] : List Byte).map fun c => ((mapGet charKeyMap c).getD []).length).sum
            + 7) / 8 ∧
      (([65, 65, 65] : List Byte).dedup.length = 1 → container.length = 6) :=
  ⟨by simp, container_size pickFirst [65, 65, 65] (by simp)⟩

/-! ## C13: the default destination of `decompressFile` -/

theorem lposSlashLoop_append (xs ys : List Char) :
    ∀ (i : Nat) (pos : Int),
      lposSlashLoop (xs ++ ys) i pos = lposSlashLoop ys (i + xs.length) (lposSlashLoop xs i pos) := by
  induction xs with
  | nil => intro i pos; simp [lposSlashLoop]
  | cons x xs ih =>
    intro i pos
    rw [List.cons_append, lposSlashLoop, ih, lposSlashLoop, List.length_cons]
    congr 1
    omega

theorem lposSlashLoop_no_slash (xs : List Char) (h : '/' ∉ xs) :
    ∀ (i : Nat) (pos : Int), lposSlashLoop xs i pos = pos := by
  induction xs with
  | nil => intro i pos; rfl
  | cons x xs ih =>
    intro i pos
    have hx : ¬ x = '/' := fun e => h (by simp [e])
    have hxs : '/' ∉ xs := fun e => h (List.mem_cons_of_mem _ e)
    rw [lposSlashLoop, if_neg hx, ih hxs]

/-- The value of `pos + 1` is the length of the directory part. -/
theorem lposSlash_split (dir name : List Char)
    (hd : dir = [] ∨ ∃ d, dir = d ++ ['/']) (hn : '/' ∉ name)
    (hlen : (dir ++ name).length < 2 ^ 31) :
    wrapInt (lposSlash (dir ++ name) + 1) = (dir.length : Int) := by
  rcases hd with rfl | ⟨d, rfl⟩
  · rw [List.nil_append, lposSlash, lposSlashLoop_no_slash name hn]
    decide
  · rw [lposSlash, lposSlashLoop_append, lposSlashLoop_append, lposSlashLoop_no_slash name hn]
    simp only [lposSlashLoop, if_true, List.length_append, List.length_singleton,
      Nat.zero_add] at hlen ⊢
    have h1 : wrapInt (d.length : Int) = d.length := by
      apply wrapInt_eq_self <;> omega
    rw [h1]
    have h2 : wrapInt ((d.length : Int) + 1) = d.length + 1 := by
      apply wrapInt_eq_self <;> omega
    rw [h2]
    push_cast
    ring

theorem defaultRetrievedFile_eq (dir name : List Char)
    (hd : dir = [] ∨ ∃ d, dir = d ++ ['/']) (hn : '/' ∉ name)
    (hlen : (dir ++ name).length < 2 ^ 31) :
    defaultRetrievedFile (dir ++ name) =
      if name.take 11 = tagCompressed then some (dir ++ tagDecompressed ++ name.drop 11)
      else some (dir ++ tagDecompressed ++ name) := by
  have hp := lposSlash_split dir name hd hn hlen
  have hs : sizeOfInt (wrapInt (lposSlash (dir ++ name) + 1)) = dir.length := by
    rw [hp]
    unfold sizeOfInt
    simp only [List.length_append] at hlen
    omega
  have hdl : ¬ dir.length > (dir ++ name).length := by
    simp only [List.length_append]
    omega
  have hdir : substr (dir ++ name) 0 (some dir.length) = some dir := by
    simp [substr]
  have hhead : substr (dir ++ name) dir.length (some 11) = some (name.take 11) := by
    simp [substr]
  have htail : substr (dir ++ name) dir.length none = some name := by
    simp [substr]
  unfold defaultRetrievedFile
  simp only [hs, hdir, hhead, htail]
  by_cases hc : name.take 11 = tagCompressed
  · have h11 : 11 ≤ name.length := by
      have := congrArg List.length hc
      simp only [List.length_take, tagCompressed, List.length_cons, List.length_nil] at this
      omega
    simp only [List.length_append] at hlen
    have hq : wrapInt (wrapInt (lposSlash (dir ++ name) + 11) + 1) = (dir.length : Int) + 11 := by
      have e1 : lposSlash (dir ++ name) + 11 = (lposSlash (dir ++ name) + 1) + 10 := by ring
      have e2 : wrapInt (lposSlash (dir ++ name) + 11) = (dir.length : Int) + 10 := by
        rw [e1, ← wrapInt_add, hp]
        apply wrapInt_eq_self <;> omega
      rw [e2]
      have e3 : (dir.length : Int) + 10 + 1 = dir.length + 11 := by ring
      rw [e3]
      apply wrapInt_eq_self <;> omega
    have hs2 : sizeOfInt (wrapInt (wrapInt (lposSlash (dir ++ name) + 11) + 1))
        = dir.length + 11 := by
      rw [hq]
      unfold sizeOfInt
      omega
    have htail2 : substr (dir ++ name) (dir.length + 11) none = some (name.drop 11) := by
      have : ¬ dir.length + 11 > (dir ++ name).length := by
        simp only [List.length_append]
        omega
      simp [substr, this, List.drop_append]
      omega
    simp only [hc, if_true, hs2, htail2]
  · simp only [hc, if_false]

/-- C13 (amended). Default decompression path: for every source path of fewer than `2^31`
characters, split into its directory part (empty or ending in the last `/`) and its file name
(without `/`): when the file name starts with `compressed_`, the default destination is the
directory part followed by `decompressed_` followed by the file name with that start removed;
otherwise it is the directory part followed by `decompressed_` followed by the file name.
This is the string `decompressFile` returns whenever the source file can be opened and its
content is decoded to the end. -/
theorem default_retrieved_path (dir name : List Char)
    (hd : dir = [] ∨ ∃ d, dir = d ++ ['/']) (hn : '/' ∉ name)
    (hlen : (dir ++ name).length < 2 ^ 31) :
    (∀ rest, name = tagCompressed ++ rest →
      defaultRetrievedFile (dir ++ name) = some (dir ++ tagDecompressed ++ rest) ∧
      ∀ bytes output, decompressFile (some bytes) = .ok output →
        decompressFileReturn (dir ++ name) (some bytes)
          = some (dir ++ tagDecompressed ++ rest)) ∧
    (¬ tagCompressed <+: name →
      defaultRetrievedFile (dir ++ name) = some (dir ++ tagDecompressed ++ name) ∧
      ∀ bytes output, decompressFile (some bytes) = .ok output →
        decompressFileReturn (dir ++ name) (some bytes)
          = some (dir ++ tagDecompressed ++ name)) := by
  have he := defaultRetrievedFile_eq dir name hd hn hlen
  constructor
  · intro rest hr
    have h1 : name.take 11 = tagCompressed := by
      rw [hr]
      exact List.take_left' rfl
    have h2 : name.drop 11 = rest := by
      rw [hr]
      exact List.drop_left' rfl
    rw [if_pos h1, h2] at he
    refine ⟨he, fun bytes output hok => ?_⟩
    simp only [decompressFileReturn, he, hok]
  · intro hpre
    have h1 : ¬ name.take 11 = tagCompressed := by
      intro e
      apply hpre
      rw [← e]
      exact List.take_prefix 11 name
    rw [if_neg h1] at he
    refine ⟨he, fun bytes output hok => ?_⟩
    simp only [decompressFileReturn, he, hok]

/-- The path `out/compressed_a` is given the default destination `out/decompressed_a`, and that
is the string returned for a file holding the container of the two bytes `3, 4`. -/
theorem default_retrieved_path_witness :
    defaultRetrievedFile (['o', 'u', 't', '/'] ++ (tagCompressed ++ ['a']))
      = some (['o', 'u', 't', '/'] ++ tagDecompressed ++ ['a']) ∧
    decompressFile (some [48, 49, 3, 49, 4, 2, 0, 0, 0, 64]) = .ok [3, 4] ∧
    decompressFileReturn (['o', 'u', 't', '/'] ++ (tagCompressed ++ ['a']))
        (some [48, 49, 3, 49, 4, 2, 0, 0, 0, 64])
      = some (['o', 'u', 't', '/'] ++ tagDecompressed ++ ['a']) :=
  ⟨((default_retrieved_path ['o', 'u', 't', '/'] (tagCompressed ++ ['a'])
      (Or.inr ⟨['o', 'u', 't'], rfl⟩) (by decide) (by decide)).1 ['a'] rfl).1,
    rfl,
    ((default_retrieved_path ['o', 'u', 't', '/'] (tagCompressed ++ ['a'])
      (Or.inr ⟨['o', 'u', 't'], rfl⟩) (by decide) (by decide)).1 ['a'] rfl).2
        [48, 49, 3, 49, 4, 2, 0, 0, 0, 64] [3, 4] rfl⟩

theorem defaultRetrievedFile_long (n : Nat)
    (h : n + 1 < sizeOfInt (wrapInt (wrapInt (n : Int) + 1))) :
    defaultRetrievedFile (List.replicate n 'a' ++ ['/']) = none := by
  have hno : '/' ∉ List.replicate n 'a' := by
    intro hm
    have := (List.mem_replicate.1 hm).2
    exact absurd this (by decide)
  have hp : lposSlash (List.replicate n 'a' ++ ['/']) = wrapInt (n : Int) := by
    rw [lposSlash, lposSlashLoop_append, lposSlashLoop_no_slash _ hno]
    simp [lposSlashLoop]
  have hlen : (List.replicate n 'a' ++ ['/']).length = n + 1 := by
    rw [List.length_append, List.length_replicate]
    rfl
  unfold defaultRetrievedFile
  simp only [hp, substr, hlen, gt_iff_lt, Nat.not_lt_zero, if_false, h, if_true]

theorem decompressFileReturn_of_none (path : List Char) (compressed : Option (List Byte))
    (h : defaultRetrievedFile path = none) : decompressFileReturn path compressed = none := by
  simp only [decompressFileReturn, h]

theorem decompressFileReturn_of_ok (path dest : List Char) (bytes output : List Byte)
    (h : defaultRetrievedFile path = some dest) (hok : decompressFile (some bytes) = .ok output) :
    decompressFileReturn path (some bytes) = some dest := by
  simp only [decompressFileReturn, h, hok]

/-- C13 fails as stated: for the source path `compressed_a` the default destination is
`decompressed_a`, not `a`: the tag `decompressed_` is put in front in both branches, and
`decompressed_a` is what the call returns for a file holding the container of the two bytes
`3, 4`. And for a path of `2^31` letters `a` followed by `/` the value of `pos` wraps to
`-2^31`, and the call `substr(pos + 1, 11)` throws instead of returning a path. -/
theorem default_path_keeps_tag :
    defaultRetrievedFile (tagCompressed ++ ['a']) = some (tagDecompressed ++ ['a']) ∧
    decompressFile (some [48, 49, 3, 49, 4, 2, 0, 0, 0, 64]) = .ok [3, 4] ∧
    decompressFileReturn (tagCompressed ++ ['a']) (some [48, 49, 3, 49, 4, 2, 0, 0, 0, 64])
      = some (tagDecompressed ++ ['a']) ∧
    tagDecompressed ++ ['a'] ≠ ['a'] ∧
    defaultRetrievedFile (List.replicate (2 ^ 31) 'a' ++ ['/']) = none ∧
    (∀ bytes, decompressFileReturn (List.replicate (2 ^ 31) 'a' ++ ['/']) bytes = none) := by
  have hlong : defaultRetrievedFile (List.replicate (2 ^ 31) 'a' ++ ['/']) = none := by
    apply defaultRetrievedFile_long
    decide
  have hret : decompressFileReturn (tagCompressed ++ ['a'])
      (some [48, 49, 3, 49, 4, 2, 0, 0, 0, 64]) = some (tagDecompressed ++ ['a']) :=
    decompressFileReturn_of_ok _ _ _ _ (by decide) rfl
  exact ⟨by decide, rfl, hret, by decide, hlong,
    fun bytes => decompressFileReturn_of_none _ bytes hlong⟩

/-! ## Exchange argument on weights and depths -/

theorem pairsCost_cons (p : Int × Nat) (C : Multiset (Int × Nat)) :
    pairsCost (p ::ₘ C) = p.1 * (p.2 : Int) + pairsCost C := by
  simp [pairsCost]

/-- Lifting the deepest pair of one side through a new root. -/
theorem treeDepths_lift (A' A B : Multiset Nat) (m : Nat) (hA' : TreeDepths A') (hm : m ∈ A')
    (hA : A = (m + 1) ::ₘ (m + 1) ::ₘ A'.erase m) (hB : TreeDepths B)
    (hbB : ∀ d ∈ B, d ≤ m + 1) (hbA : ∀ d ∈ A, d ≤ m + 1) :
    ∃ ds' m', TreeDepths ds' ∧ m' ∈ ds' ∧
      A.map Nat.succ + B.map Nat.succ = (m' + 1) ::ₘ (m' + 1) ::ₘ ds'.erase m' ∧
      ∀ d ∈ A.map Nat.succ + B.map Nat.succ, d ≤ m' + 1 := by
  refine ⟨A'.map Nat.succ + B.map Nat.succ, m + 1, TreeDepths.node A' B hA' hB, ?_, ?_, ?_⟩
  · exact Multiset.mem_add.2 (Or.inl (Multiset.mem_map.2 ⟨m, hm, rfl⟩))
  · have hmem : m + 1 ∈ A'.map Nat.succ := Multiset.mem_map.2 ⟨m, hm, rfl⟩
    rw [Multiset.erase_add_left_pos _ hmem]
    have he : (A'.map Nat.succ).erase (m + 1) = (A'.erase m).map Nat.succ :=
      (Multiset.map_erase Nat.succ Nat.succ_injective m A').symm
    rw [he, hA]
    simp only [Multiset.map_cons, Multiset.cons_add, Nat.succ_eq_add_one]
  · intro d hd
    rcases Multiset.mem_add.1 hd with h | h
    · obtain ⟨x, hx, rfl⟩ := Multiset.mem_map.1 h
      have := hbA x hx
      simp only [Nat.succ_eq_add_one]
      omega
    · obtain ⟨x, hx, rfl⟩ := Multiset.mem_map.1 h
      have := hbB x hx
      simp only [Nat.succ_eq_add_one]
      omega

/-- A tree with more than one leaf has two leaves at its greatest depth that can be merged
into one leaf a level higher. -/
theorem treeDepths_deepest (ds : Multiset Nat) (h : TreeDepths ds) :
    ds = {0} ∨ ∃ ds' m, TreeDepths ds' ∧ m ∈ ds' ∧
      ds = (m + 1) ::ₘ (m + 1) ::ₘ ds'.erase m ∧ ∀ d ∈ ds, d ≤ m + 1 := by
  induction h with
  | single => exact Or.inl rfl
  | node A B hA hB ihA ihB =>
    right
    rcases ihA with rfl | ⟨A', mA, hA', hmA, hAeq, hAb⟩
    · rcases ihB with rfl | ⟨B', mB, hB', hmB, hBeq, hBb⟩
      · refine ⟨{0}, 0, TreeDepths.single, by simp, ?_, ?_⟩
        · simp
        · intro d hd
          simp at hd
          omega
      · have := treeDepths_lift B' B {0} mB hB' hmB hBeq TreeDepths.single
          (by intro d hd; simp at hd; omega) hBb
        rw [add_comm]
        exact this
    · rcases ihB with rfl | ⟨B', mB, hB', hmB, hBeq, hBb⟩
      · exact treeDepths_lift A' A {0} mA hA' hmA hAeq TreeDepths.single
          (by intro d hd; simp at hd; omega) hAb
      · by_cases hle : mB ≤ mA
        · exact treeDepths_lift A' A B mA hA' hmA hAeq hB
            (fun d hd => le_trans (hBb d hd) (by omega)) hAb
        · have := treeDepths_lift B' B A mB hB' hmB hBeq hA
            (fun d hd => le_trans (hAb d hd) (by omega)) hBb
          rw [add_comm]
          exact this

/-- Giving the least weight the greatest depth does not raise the cost. -/
theorem pairsCost_pull (C : Multiset (Int × Nat)) (a : Int) (W : Multiset Int) (M : Nat)
    (hw : C.map Prod.fst = a ::ₘ W) (ha : ∀ w ∈ W, a ≤ w)
    (hM : M ∈ C.map Prod.snd) (hb : ∀ d ∈ C.map Prod.snd, d ≤ M) :
    ∃ C', C'.map Prod.fst = W ∧ C'.map Prod.snd = (C.map Prod.snd).erase M ∧
      a * (M : Int) + pairsCost C' ≤ pairsCost C := by
  have hmem : a ∈ C.map Prod.fst := by rw [hw]; exact Multiset.mem_cons_self a W
  obtain ⟨p, hp, hpa⟩ := Multiset.mem_map.1 hmem
  obtain ⟨C1, rfl⟩ := Multiset.exists_cons_of_mem hp
  obtain ⟨w, da⟩ := p
  simp only at hpa
  subst hpa
  have hW : C1.map Prod.fst = W := by
    rw [Multiset.map_cons] at hw
    exact (Multiset.cons_inj_right _).1 hw
  by_cases hda : da = M
  · subst hda
    refine ⟨C1, hW, ?_, ?_⟩
    · rw [Multiset.map_cons, Multiset.erase_cons_head]
    · rw [pairsCost_cons]
  · have hM1 : M ∈ C1.map Prod.snd := by
      rw [Multiset.map_cons, Multiset.mem_cons] at hM
      rcases hM with h | h
      · exact absurd h.symm hda
      · exact h
    obtain ⟨q, hq, hqM⟩ := Multiset.mem_map.1 hM1
    obtain ⟨C2, rfl⟩ := Multiset.exists_cons_of_mem hq
    obtain ⟨x, dx⟩ := q
    simp only at hqM
    subst hqM
    have hx : w ≤ x := by
      apply ha
      rw [← hW, Multiset.map_cons]
      exact Multiset.mem_cons_self _ _
    have hle : da ≤ dx := hb da (by simp)
    refine ⟨(x, da) ::ₘ C2, ?_, ?_, ?_⟩
    · rw [← hW]
      simp
    · simp only [Multiset.map_cons]
      rw [Multiset.erase_cons_tail _ hda, Multiset.erase_cons_head]
    · simp only [pairsCost_cons]
      have h1 : (0 : Int) ≤ (x - w) * ((dx : Int) - (da : Int)) := by
        apply mul_nonneg
        · omega
        · have : (da : Int) ≤ dx := by exact_mod_cast hle
          omega
      nlinarith

/-- The two least weights can be made siblings at the greatest depth and merged: some tree for
the merged weights costs no more than the given tree less the two weights. -/
theorem pairsCost_merge (C : Multiset (Int × Nat)) (a b : Int) (W : Multiset Int)
    (hv : TreeDepths (C.map Prod.snd)) (hw : C.map Prod.fst = a ::ₘ b ::ₘ W)
    (ha : ∀ w ∈ b ::ₘ W, a ≤ w) (hb : ∀ w ∈ W, b ≤ w) :
    ∃ C', TreeDepths (C'.map Prod.snd) ∧ C'.map Prod.fst = (a + b) ::ₘ W ∧
      pairsCost C' + a + b ≤ pairsCost C := by
  rcases treeDepths_deepest _ hv with h0 | ⟨ds', m, hds', hm, hds, hbound⟩
  · have := congrArg Multiset.card h0
    have h2 := congrArg Multiset.card hw
    simp at this h2
    omega
  · obtain ⟨C1, hW1, hD1, hc1⟩ := pairsCost_pull C a (b ::ₘ W) (m + 1) hw ha
      (by rw [hds]; exact Multiset.mem_cons_self _ _) hbound
    rw [hds, Multiset.erase_cons_head] at hD1
    obtain ⟨C2, hW2, hD2, hc2⟩ := pairsCost_pull C1 b W (m + 1) hW1 hb
      (by rw [hD1]; exact Multiset.mem_cons_self _ _)
      (by
        intro d hd
        apply hbound
        rw [hds, ← hD1]
        exact Multiset.mem_cons_of_mem hd)
    rw [hD1, Multiset.erase_cons_head] at hD2
    refine ⟨(a + b, m) ::ₘ C2, ?_, ?_, ?_⟩
    · rw [Multiset.map_cons, hD2, Multiset.cons_erase hm]
      exact hds'
    · rw [Multiset.map_cons, hW2]
    · rw [pairsCost_cons]
      push_cast at hc1 hc2 ⊢
      nlinarith

/-! ## Induction along the merge loop -/

/-- The queue after one round of the merge loop. -/
theorem mergeLoop_round (pick : List charFreqPair → Nat) (fuel : Nat) (pq : List charFreqPair)
    (a b : charFreqPair) (h1 : pq.length > 1) (ha : pqTop pick pq = .ok a)
    (hb : pqTop pick (pqPop pq a) = .ok b) :
    mergeLoop pick (fuel + 1) pq = mergeLoop pick fuel
      (pqPush (pqPop (pqPop pq a) b) (obj charTilde (wrapInt (a.getFreq + b.getFreq)) a b)) := by
  simp only [mergeLoop, h1, if_true, ha, hb]

/-- Proof rule for the merge loop: a property `Inv` of the queue that every round keeps, and a
relation `Q` between a queue and the final tree that holds when the queue is down to one tree
and carries back over every round, give `Q` between the starting queue and the result. -/
theorem mergeLoop_rule (pick : List charFreqPair → Nat) (Inv : List charFreqPair → Prop)
    (Q : List charFreqPair → charFreqPair → Prop)
    (hInv : ∀ pq a b, Inv pq → 1 < pq.length → a ∈ tops pq → b ∈ tops (pqPop pq a) →
      Inv (pqPush (pqPop (pqPop pq a) b) (obj charTilde (wrapInt (a.getFreq + b.getFreq)) a b)))
    (hbase : ∀ t, Inv [t] → Q [t] t)
    (hstep : ∀ pq a b R, Inv pq → 1 < pq.length → a ∈ tops pq → b ∈ tops (pqPop pq a) →
      Q (pqPush (pqPop (pqPop pq a) b) (obj charTilde (wrapInt (a.getFreq + b.getFreq)) a b)) R →
      Q pq R) :
    ∀ (fuel : Nat) (pq : List charFreqPair), pq ≠ [] → pq.length ≤ fuel + 1 → Inv pq →
      ∃ R, mergeLoop pick fuel pq = .ok [R] ∧ Q pq R := by
  intro fuel
  induction fuel with
  | zero =>
    intro pq hne hlen hI
    match pq, hne, hlen with
    | [a], _, _ => exact ⟨a, by simp [mergeLoop], hbase a hI⟩
    | _ :: _ :: _, _, hlen => simp at hlen
  | succ fuel ih =>
    intro pq hne hlen hI
    by_cases h1 : pq.length > 1
    · obtain ⟨a, hta, hma⟩ := pqTop_ok pick pq hne
      have ha : a ∈ pq := (mem_tops.1 hma).1
      have hlen1 : (pqPop pq a).length = pq.length - 1 := by
        simp [pqPop, List.length_erase_of_mem ha]
      have hne1 : pqPop pq a ≠ [] := by
        intro h0
        rw [h0] at hlen1
        simp at hlen1
        omega
      obtain ⟨b, htb, hmb⟩ := pqTop_ok pick (pqPop pq a) hne1
      have hb : b ∈ pqPop pq a := (mem_tops.1 hmb).1
      have hlen2 : (pqPop (pqPop pq a) b).length = pq.length - 2 := by
        simp [pqPop, List.length_erase_of_mem ha] at hb ⊢
        rw [List.length_erase_of_mem hb, List.length_erase_of_mem ha]
        omega
      obtain ⟨R, hR, hQ⟩ := ih _ (by simp [pqPush]) (by simp [pqPush, hlen2]; omega)
        (hInv pq a b hI h1 hma hmb)
      exact ⟨R, by rw [mergeLoop_round pick fuel pq a b h1 hta htb]; exact hR,
        hstep pq a b R hI h1 hma hmb hQ⟩
    · have : pq.length = 1 := by
        have := List.length_pos.2 hne
        omega
      match pq, this with
      | [a], _ => exact ⟨a, by simp [mergeLoop], hbase a hI⟩

/-- The two trees the loop takes out and the rest of the queue make up the queue. -/
theorem perm_of_tops {pq : List charFreqPair} {a b : charFreqPair} (ha : a ∈ tops pq)
    (hb : b ∈ tops (pqPop pq a)) : pq.Perm (a :: b :: pqPop (pqPop pq a) b) :=
  (List.perm_cons_erase (mem_tops.1 ha).1).trans ((List.perm_cons_erase (mem_tops.1 hb).1).cons a)

/-! ## C14: the node invariant -/

theorem getFreq_obj (ch : Byte) (f : Int) (l r : charFreqPair) : (obj ch f l r).getFreq = f :=
  rfl

theorem sum_nonneg_of_queueOk {pq : List charFreqPair}
    (h : ∀ t ∈ pq, full t = true ∧ sumsOk t = true ∧ 0 ≤ t.getFreq) :
    0 ≤ (pq.map getFreq).sum := by
  apply List.sum_nonneg
  intro x hx
  obtain ⟨t, ht, rfl⟩ := List.mem_map.1 hx
  exact (h t ht).2.2

/-- While the frequencies in the queue add up to less than `2^31`, the sum computed for a new
node does not wrap around. -/
theorem merged_freq_exact {pq : List charFreqPair} {a b : charFreqPair} (hq : QueueOk pq)
    (ha : a ∈ tops pq) (hb : b ∈ tops (pqPop pq a)) :
    wrapInt (a.getFreq + b.getFreq) = a.getFreq + b.getFreq ∧
    (pq.map getFreq).sum
      = a.getFreq + b.getFreq + ((pqPop (pqPop pq a) b).map getFreq).sum := by
  have hperm := perm_of_tops ha hb
  have hsum : (pq.map getFreq).sum
      = a.getFreq + b.getFreq + ((pqPop (pqPop pq a) b).map getFreq).sum := by
    rw [(hperm.map getFreq).sum_eq]
    simp only [List.map_cons, List.sum_cons]
    ring
  have hrest : 0 ≤ ((pqPop (pqPop pq a) b).map getFreq).sum := by
    apply sum_nonneg_of_queueOk
    intro t ht
    exact hq.1 t (hperm.mem_iff.2 (List.mem_cons_of_mem _ (List.mem_cons_of_mem _ ht)))
  have h0a := (hq.1 a (hperm.mem_iff.2 (by simp))).2.2
  have h0b := (hq.1 b (hperm.mem_iff.2 (by simp))).2.2
  have hlt := hq.2
  refine ⟨?_, hsum⟩
  apply wrapInt_eq_self <;> omega

theorem queueOk_round (pq : List charFreqPair) (a b : charFreqPair) (hq : QueueOk pq)
    (_h1 : 1 < pq.length) (ha : a ∈ tops pq) (hb : b ∈ tops (pqPop pq a)) :
    QueueOk (pqPush (pqPop (pqPop pq a) b)
      (obj charTilde (wrapInt (a.getFreq + b.getFreq)) a b)) := by
  obtain ⟨hw, hsum⟩ := merged_freq_exact hq ha hb
  have hperm := perm_of_tops ha hb
  have hfa := hq.1 a (hperm.mem_iff.2 (by simp))
  have hfb := hq.1 b (hperm.mem_iff.2 (by simp))
  constructor
  · intro t ht
    rcases List.mem_append.1 ht with ht | ht
    · exact hq.1 t (hperm.mem_iff.2 (List.mem_cons_of_mem _ (List.mem_cons_of_mem _ ht)))
    · have : t = obj charTilde (wrapInt (a.getFreq + b.getFreq)) a b := by simpa using ht
      subst this
      refine ⟨full_obj _ _ hfa.1 hfb.1, ?_, ?_⟩
      · simp [sumsOk, hw, hfa.2.1, hfb.2.1]
      · rw [getFreq_obj, hw]
        have := hfa.2.2
        have := hfb.2.2
        omega
  · have hlt := hq.2
    simp only [pqPush, List.map_append, List.map_cons, List.map_nil, List.sum_append,
      List.sum_cons, List.sum_nil, getFreq_obj, hw]
    omega

theorem leafEntries_obj {a b : charFreqPair} (ch : Byte) (f : Int) (ha : full a = true) :
    leafEntries (obj ch f a b) = leafEntries a ++ leafEntries b := by
  simp [leafEntries, full_not_isNull ha]

theorem queueEntries_perm {p q : List charFreqPair} (h : p.Perm q) :
    (queueEntries p).Perm (queueEntries q) :=
  List.Perm.flatten (h.map _)

theorem queueEntries_round (pq : List charFreqPair) (a b : charFreqPair) (f : Int)
    (hfa : full a = true) (ha : a ∈ tops pq) (hb : b ∈ tops (pqPop pq a)) :
    (queueEntries (pqPush (pqPop (pqPop pq a) b) (obj charTilde f a b))).Perm
      (queueEntries pq) := by
  have e1 : queueEntries (pqPush (pqPop (pqPop pq a) b) (obj charTilde f a b)) =
      queueEntries (pqPop (pqPop pq a) b) ++ (leafEntries a ++ leafEntries b) := by
    simp [queueEntries, pqPush, leafEntries_obj _ _ hfa]
  have e2 : (queueEntries pq).Perm
      (leafEntries a ++ (leafEntries b ++ queueEntries (pqPop (pqPop pq a) b))) := by
    have := queueEntries_perm (perm_of_tops ha hb)
    simpa [queueEntries] using this
  rw [e1]
  refine List.Perm.trans ?_ e2.symm
  rw [← List.append_assoc (leafEntries a)]
  exact List.perm_append_comm

/-- What the merge loop leaves in the queue when the frequencies at the start add up to less
than `2^31`: one full tree with correct sums, whose leaves are the leaves that were in the
queue and whose frequency is the sum of the frequencies that were in the queue. -/
theorem mergeLoop_invariant (pick : List charFreqPair → Nat) (fuel : Nat)
    (pq : List charFreqPair) (hne : pq ≠ []) (hfuel : pq.length ≤ fuel + 1) (hq : QueueOk pq) :
    ∃ R, mergeLoop pick fuel pq = .ok [R] ∧ full R = true ∧ sumsOk R = true ∧
      (leafEntries R).Perm (queueEntries pq) ∧ R.getFreq = (pq.map getFreq).sum := by
  refine mergeLoop_rule pick QueueOk
    (fun pq R => full R = true ∧ sumsOk R = true ∧
      (leafEntries R).Perm (queueEntries pq) ∧ R.getFreq = (pq.map getFreq).sum)
    queueOk_round ?_ ?_ fuel pq hne hfuel hq
  · intro t ht
    have := ht.1 t (by simp)
    exact ⟨this.1, this.2.1, by simp [queueEntries], by simp⟩
  · intro pq a b R hI _ ha hb hQ
    obtain ⟨hw, hsum⟩ := merged_freq_exact hI ha hb
    have hfa := (hI.1 a (mem_tops.1 ha).1).1
    refine ⟨hQ.1, hQ.2.1, hQ.2.2.1.trans (queueEntries_round pq a b _ hfa ha hb), ?_⟩
    rw [hQ.2.2.2, hsum]
    simp only [pqPush, List.map_append, List.map_cons, List.map_nil, List.sum_append,
      List.sum_cons, List.sum_nil, getFreq_obj, hw]
    ring

theorem queueEntries_pushAll (freq : List (Byte × Int)) : queueEntries (pushAll freq) = freq := by
  rw [pushAll_eq_map]
  induction freq with
  | nil => simp [queueEntries]
  | cons x xs ih =>
    simp only [queueEntries, List.map_cons, List.flatten_cons] at ih ⊢
    rw [ih]
    simp [leaf, leafEntries, isNull]

theorem map_getFreq_pushAll (freq : List (Byte × Int)) :
    (pushAll freq).map getFreq = freq.map Prod.snd := by
  rw [pushAll_eq_map, List.map_map]
  apply List.map_congr_left
  intro p _
  rfl

theorem queueOk_pushAll (freq : List (Byte × Int)) (h0 : ∀ p ∈ freq, 0 ≤ p.2)
    (hs : (freq.map Prod.snd).sum < 2 ^ 31) : QueueOk (pushAll freq) := by
  constructor
  · intro t ht
    rw [pushAll_eq_map] at ht
    obtain ⟨p, hp, rfl⟩ := List.mem_map.1 ht
    exact ⟨by simp [leaf, full, isNull], by simp [leaf, sumsOk, isNull], h0 p hp⟩
  · rw [map_getFreq_pushAll]
    exact hs

/-- The counts of the frequency table of an input shorter than `2^31` bytes are positive and
add up to the length of the input. -/
theorem scanFreq_sum (B : List Byte) (hB : B.length < 2 ^ 31) :
    (∀ p ∈ scanFreq B, 1 ≤ p.2) ∧ ((scanFreq B).map Prod.snd).sum = (B.length : Int) ∧
    ∀ c ∈ B, mapGet (scanFreq B) c = some (B.count c : Int) := by
  have hw : ∀ c, wrapInt (B.count c) = (B.count c : Int) := by
    intro c
    have : B.count c ≤ B.length := List.count_le_length _ _
    apply wrapInt_eq_self <;> omega
  refine ⟨?_, ?_, ?_⟩
  · intro p hp
    have h1 : mapGet (scanFreq B) p.1 = some p.2 :=
      (mapGet_of_mem _ (scanFreq_keys_nodup B) p.1 p.2).2 hp
    have hk : p.1 ∈ B := (mem_scanFreq_keys B p.1).1 (List.mem_map.2 ⟨p, hp, rfl⟩)
    rw [mapGet_scanFreq, if_pos hk, hw, Option.some.injEq] at h1
    have hpos : 0 < B.count p.1 := List.count_pos_iff.2 hk
    omega
  · rw [scanFreq_values]
    have e1 : (((scanFreq B).map Prod.fst).map fun k => wrapInt (B.count k))
        = ((scanFreq B).map Prod.fst).map fun k => ((B.count k : Nat) : Int) :=
      List.map_congr_left fun k _ => hw k
    have e2 : ∀ l : List Byte, (l.map fun k => ((B.count k : Nat) : Int)).sum
        = (((l.map fun k => B.count k).sum : Nat) : Int) := by
      intro l
      induction l with
      | nil => simp
      | cons x xs ih => simp [ih]
    rw [e1, e2, ((scanFreq_keys_perm B).map _).sum_eq, List.sum_map_count_dedup_eq_length]
  · intro c hc
    rw [mapGet_scanFreq, if_pos hc, hw]

/-- C14 (amended). Huffman node invariant: for every non-empty frequency table whose counts are
not negative and add up to less than `2^31`, and every tie-breaking order, the merge loop ends
with exactly one tree in the queue, which `compressFile` takes as root; in that tree every node
has zero or two children, every internal node's frequency is the sum of its two children's
frequencies, the leaves are exactly the entries of the table, each once with its own count,
and the root frequency is the sum of the counts, which is the input length when the table is
that of an input shorter than `2^31` bytes. -/
theorem huffman_node_invariant (pick : List charFreqPair → Nat) (freq : List (Byte × Int))
    (hne : freq ≠ []) (h0 : ∀ p ∈ freq, 0 ≤ p.2) (hs : (freq.map Prod.snd).sum < 2 ^ 31) :
    ∃ root, mergeLoop pick (pushAll freq).length (pushAll freq) = .ok [root] ∧
      buildTree pick freq = .ok root ∧
      full root = true ∧ sumsOk root = true ∧
      (leafEntries root).Perm freq ∧
      root.getFreq = (freq.map Prod.snd).sum ∧
      ∀ B : List Byte, B.length < 2 ^ 31 → freq = scanFreq B → root.getFreq = (B.length : Int) := by
  have hq := queueOk_pushAll freq h0 hs
  have hne' : pushAll freq ≠ [] := by
    rw [pushAll_eq_map]
    simpa using hne
  obtain ⟨R, hR, hf, hsum, hperm, hfreq⟩ :=
    mergeLoop_invariant pick (pushAll freq).length (pushAll freq) hne' (by omega) hq
  rw [queueEntries_pushAll] at hperm
  rw [map_getFreq_pushAll] at hfreq
  refine ⟨R, hR, ?_, hf, hsum, hperm, hfreq, ?_⟩
  · simp [buildTree, hR, pqTop_singleton]
  · intro B hB he
    rw [hfreq, he, (scanFreq_sum B hB).2.1]

/-- The tree built for the table of `aaabbc`. -/
theorem huffman_node_invariant_witness :
    ([(97, 3), (98, 2), (99, 1)] : List (Byte × Int)) ≠ [] ∧
    ∃ root, buildTree pickFirst [(97, 3), (98, 2), (99, 1)] = .ok root ∧
      full root = true ∧ sumsOk root = true ∧ root.getFreq = 6 := by
  obtain ⟨root, _, hb, hf, hsum, _, hfreq, _⟩ :=
    huffman_node_invariant pickFirst [(97, 3), (98, 2), (99, 1)] (by simp)
      (by decide) (by decide)
  exact ⟨by simp, root, hb, hf, hsum, by rw [hfreq]; decide⟩

/-- C14 fails as stated: for the table with two symbols of count `2^30` each (an input of
`2^31` bytes) the frequency stored in the root is `-2^31`; it is neither the sum of the two
children's frequencies nor the input length. -/
theorem root_freq_overflow :
    buildTree pickFirst [(0, 1073741824), (1, 1073741824)]
      = .ok (obj 126 (-2147483648) (leaf 0 1073741824) (leaf 1 1073741824)) ∧
    sumsOk (obj 126 (-2147483648) (leaf 0 1073741824) (leaf 1 1073741824)) = false ∧
    (obj 126 (-2147483648) (leaf 0 1073741824) (leaf 1 1073741824)).getFreq
      ≠ (([(0, 1073741824), (1, 1073741824)] : List (Byte × Int)).map Prod.snd).sum := by
  refine ⟨rfl, by decide, by decide⟩

/-! ## C17: the built tree has the least weighted path length -/

theorem leafSum_eq_getFreq (t : charFreqPair) (hf : full t = true) (hs : sumsOk t = true) :
    ((leafEntries t).map Prod.snd).sum = t.getFreq := by
  induction t with
  | null => simp [full] at hf
  | obj ch f l r ihl ihr =>
    by_cases hl : (l.isNull && r.isNull) = true
    · simp [leafEntries, hl, getFreq_obj]
    · have hl' : (l.isNull && r.isNull) = false := by simpa using hl
      obtain ⟨h1, h2⟩ := full_children hf hl'
      have hs' : f = l.getFreq + r.getFreq ∧ sumsOk l = true ∧ sumsOk r = true := by
        simpa [sumsOk, hl', and_assoc] using hs
      simp only [leafEntries, hl', Bool.false_eq_true, if_false, List.map_append,
        List.sum_append, getFreq_obj, ihl h1 hs'.2.1, ihr h2 hs'.2.2]
      exact hs'.1.symm

theorem ownCost_obj {a b : charFreqPair} (ch : Byte) (f : Int) (ha : full a = true) :
    ownCost (obj ch f a b) = ownCost a + ownCost b + ((leafEntries a).map Prod.snd).sum
      + ((leafEntries b).map Prod.snd).sum := by
  simp [ownCost, full_not_isNull ha]

theorem pairsCost_nonneg_of_single (C : Multiset (Int × Nat)) (w : Int) (hw : 0 ≤ w)
    (h : C.map Prod.fst = {w}) : 0 ≤ pairsCost C := by
  obtain ⟨p, rfl, hp⟩ := Multiset.map_eq_singleton.1 h
  simp only [pairsCost, Multiset.map_singleton, Multiset.sum_singleton]
  rw [hp]
  exact mul_nonneg hw (Int.natCast_nonneg _)

/-- Optimality along the merge loop: the cost of the final tree exceeds the costs of the trees
in the starting queue by no more than the cost of any tree that has the frequencies of the
starting queue as leaf weights. -/
theorem mergeLoop_optimal (pick : List charFreqPair → Nat) (fuel : Nat)
    (pq : List charFreqPair) (hne : pq ≠ []) (hfuel : pq.length ≤ fuel + 1) (hq : QueueOk pq) :
    ∃ R, mergeLoop pick fuel pq = .ok [R] ∧
      ∀ C : Multiset (Int × Nat), TreeDepths (C.map Prod.snd) →
        C.map Prod.fst = ((pq.map getFreq : List Int) : Multiset Int) →
        ownCost R ≤ (pq.map ownCost).sum + pairsCost C := by
  refine mergeLoop_rule pick QueueOk
    (fun pq R => ∀ C : Multiset (Int × Nat), TreeDepths (C.map Prod.snd) →
        C.map Prod.fst = ((pq.map getFreq : List Int) : Multiset Int) →
        ownCost R ≤ (pq.map ownCost).sum + pairsCost C)
    queueOk_round ?_ ?_ fuel pq hne hfuel hq
  · intro t ht C _ hC
    have h0 := (ht.1 t (by simp)).2.2
    have := pairsCost_nonneg_of_single C t.getFreq h0 (by simpa using hC)
    simp only [List.map_cons, List.map_nil, List.sum_cons, List.sum_nil, add_zero]
    omega
  · intro pq a b R hI _ ha hb hQ C hv hC
    obtain ⟨hw, _⟩ := merged_freq_exact hI ha hb
    have hperm := perm_of_tops ha hb
    have hfa := hI.1 a (mem_tops.1 ha).1
    have hfb := hI.1 b (hperm.mem_iff.2 (by simp))
    have hCw : C.map Prod.fst = a.getFreq ::ₘ b.getFreq ::ₘ
        (((pqPop (pqPop pq a) b).map getFreq : List Int) : Multiset Int) := by
      rw [hC]
      have := hperm.map getFreq
      rw [← Multiset.coe_eq_coe] at this
      rw [this]
      simp only [List.map_cons, ← Multiset.cons_coe]
    have hmina : ∀ w ∈ b.getFreq ::ₘ
        (((pqPop (pqPop pq a) b).map getFreq : List Int) : Multiset Int), a.getFreq ≤ w := by
      intro w hw'
      rw [Multiset.mem_cons] at hw'
      rcases hw' with rfl | hw'
      · exact (mem_tops.1 ha).2 b (hperm.mem_iff.2 (by simp))
      · rw [Multiset.mem_coe] at hw'
        obtain ⟨t, ht, rfl⟩ := List.mem_map.1 hw'
        exact (mem_tops.1 ha).2 t
          (hperm.mem_iff.2 (List.mem_cons_of_mem _ (List.mem_cons_of_mem _ ht)))
    have hminb : ∀ w ∈ (((pqPop (pqPop pq a) b).map getFreq : List Int) : Multiset Int),
        b.getFreq ≤ w := by
      intro w hw'
      rw [Multiset.mem_coe] at hw'
      obtain ⟨t, ht, rfl⟩ := List.mem_map.1 hw'
      exact (mem_tops.1 hb).2 t (List.mem_of_mem_erase ht)
    obtain ⟨C', hv', hC', hcost⟩ := pairsCost_merge C a.getFreq b.getFreq _ hv hCw hmina hminb
    have hnew := hQ C' hv' (by
      rw [hC']
      simp only [pqPush, List.map_append, List.map_cons, List.map_nil, getFreq_obj, hw]
      rw [← Multiset.coe_add, ← Multiset.singleton_add]
      rw [add_comm]
      rfl)
    have hown : ((pqPush (pqPop (pqPop pq a) b)
        (obj charTilde (wrapInt (a.getFreq + b.getFreq)) a b)).map ownCost).sum
        = ((pqPop (pqPop pq a) b).map ownCost).sum + (ownCost a + ownCost b
          + a.getFreq + b.getFreq) := by
      simp only [pqPush, List.map_append, List.map_cons, List.map_nil, List.sum_append,
        List.sum_cons, List.sum_nil, add_zero]
      rw [ownCost_obj _ _ hfa.1, leafSum_eq_getFreq a hfa.1 hfa.2.1,
        leafSum_eq_getFreq b hfb.1 hfb.2.1]
    have hold : (pq.map ownCost).sum
        = ownCost a + ownCost b + ((pqPop (pqPop pq a) b).map ownCost).sum := by
      rw [(hperm.map ownCost).sum_eq]
      simp only [List.map_cons, List.sum_cons]
      ring
    rw [hown] at hnew
    rw [hold]
    omega

theorem leafDepths_fst (t : charFreqPair) : ∀ d, (leafDepths t d).map Prod.fst = leafSyms t := by
  induction t with
  | null => intro d; rfl
  | obj ch f l r ihl ihr =>
    intro d
    by_cases hl : (l.isNull && r.isNull) = true
    · simp [leafDepths, leafSyms, hl]
    · have hl' : (l.isNull && r.isNull) = false := by simpa using hl
      simp [leafDepths, leafSyms, hl', ihl, ihr]

theorem leafEntries_fst (t : charFreqPair) : (leafEntries t).map Prod.fst = leafSyms t := by
  induction t with
  | null => rfl
  | obj ch f l r ihl ihr =>
    by_cases hl : (l.isNull && r.isNull) = true
    · simp [leafEntries, leafSyms, hl]
    · have hl' : (l.isNull && r.isNull) = false := by simpa using hl
      simp [leafEntries, leafSyms, hl', ihl, ihr]

theorem leafDepths_succ (t : charFreqPair) :
    ∀ d, leafDepths t (d + 1) = (leafDepths t d).map fun p => (p.1, p.2 + 1) := by
  induction t with
  | null => intro d; rfl
  | obj ch f l r ihl ihr =>
    intro d
    by_cases hl : (l.isNull && r.isNull) = true
    · simp [leafDepths, hl]
    · have hl' : (l.isNull && r.isNull) = false := by simpa using hl
      simp only [leafDepths, hl', Bool.false_eq_true, if_false, List.map_append]
      rw [ihl (d + 1), ihr (d + 1)]

/-- The leaf depths of a full tree are the leaf depths of a binary tree. -/
theorem treeDepths_of_full (t : charFreqPair) (h : full t = true) :
    TreeDepths (((leafDepths t 0).map Prod.snd : List Nat) : Multiset Nat) := by
  induction t with
  | null => simp [full] at h
  | obj ch f l r ihl ihr =>
    by_cases hl : (l.isNull && r.isNull) = true
    · simp only [leafDepths, hl, if_true, List.map_cons, List.map_nil]
      exact TreeDepths.single
    · have hl' : (l.isNull && r.isNull) = false := by simpa using hl
      obtain ⟨h1, h2⟩ := full_children h hl'
      have := TreeDepths.node _ _ (ihl h1) (ihr h2)
      simp only [leafDepths, hl', Bool.false_eq_true, if_false, List.map_append]
      rw [leafDepths_succ l 0, leafDepths_succ r 0]
      simp only [List.map_map, ← Multiset.coe_add]
      simp only [Multiset.map_coe, List.map_map] at this
      exact this

theorem pairsCost_coe (L : List (Int × Nat)) :
    pairsCost (L : Multiset (Int × Nat)) = (L.map fun p => p.1 * (p.2 : Int)).sum := by
  simp [pairsCost]

theorem pairsCost_leafDepths (g : Byte → Int) (t : charFreqPair) :
    ∀ d, pairsCost (((leafDepths t d).map fun p => (g p.1, p.2) : List (Int × Nat))
      : Multiset (Int × Nat)) = weightedAt g t d := by
  induction t with
  | null => intro d; rw [pairsCost_coe]; simp [leafDepths, weightedAt]
  | obj ch f l r ihl ihr =>
    intro d
    rw [pairsCost_coe]
    by_cases hl : (l.isNull && r.isNull) = true
    · simp [leafDepths, weightedAt, hl]
    · have hl' : (l.isNull && r.isNull) = false := by simpa using hl
      have e1 := ihl (d + 1)
      have e2 := ihr (d + 1)
      rw [pairsCost_coe] at e1 e2
      simp only [leafDepths, weightedAt, hl', Bool.false_eq_true, if_false,
        List.map_append, List.sum_append, e1, e2]

theorem sum_leafPaths (g : Byte → Int) (t : charFreqPair) :
    ∀ s : Code, ((leafPaths t s).map fun p => g p.1 * (p.2.length : Int)).sum
      = weightedAt g t s.length := by
  induction t with
  | null => intro s; simp [leafPaths, weightedAt]
  | obj ch f l r ihl ihr =>
    intro s
    by_cases hl : (l.isNull && r.isNull) = true
    · simp [leafPaths, weightedAt, hl]
    · have hl' : (l.isNull && r.isNull) = false := by simpa using hl
      have e1 := ihl (s ++ [false])
      have e2 := ihr (s ++ [true])
      simp only [List.length_append, List.length_singleton] at e1 e2
      simp only [leafPaths, weightedAt, hl', Bool.false_eq_true, if_false,
        List.map_append, List.sum_append, e1, e2]

theorem weightedLength_eq (freq : List (Byte × Int)) (t : charFreqPair) :
    weightedLength freq t = weightedAt (fun c => (mapGet freq c).getD 0) t 0 :=
  sum_leafPaths (fun c => (mapGet freq c).getD 0) t []

/-- In a tree whose leaves carry in `freq` the value `g` gives to their symbol, the weighted
depth under `g` is the tree's own cost plus the depth of the root times the leaf sum. -/
theorem weightedAt_eq_ownCost (g : Byte → Int) (t : charFreqPair) (hf : full t = true)
    (hg : ∀ p ∈ leafEntries t, g p.1 = p.2) :
    ∀ d : Nat, weightedAt g t d = ownCost t + (d : Int) * ((leafEntries t).map Prod.snd).sum := by
  induction t with
  | null => simp [full] at hf
  | obj ch f l r ihl ihr =>
    intro d
    by_cases hl : (l.isNull && r.isNull) = true
    · have := hg (ch, f) (by simp [leafEntries, hl])
      simp only at this
      simp only [weightedAt, ownCost, leafEntries, hl, if_true, List.map_cons, List.map_nil,
        List.sum_cons, List.sum_nil, this]
      ring
    · have hl' : (l.isNull && r.isNull) = false := by simpa using hl
      obtain ⟨h1, h2⟩ := full_children hf hl'
      have hgl : ∀ p ∈ leafEntries l, g p.1 = p.2 := fun p hp =>
        hg p (by simp only [leafEntries, hl', Bool.false_eq_true, if_false, List.mem_append]
                 exact Or.inl hp)
      have hgr : ∀ p ∈ leafEntries r, g p.1 = p.2 := fun p hp =>
        hg p (by simp only [leafEntries, hl', Bool.false_eq_true, if_false, List.mem_append]
                 exact Or.inr hp)
      simp only [weightedAt, ownCost, leafEntries, hl', Bool.false_eq_true, if_false,
        List.map_append, List.sum_append, ihl h1 hgl (d + 1), ihr h2 hgr (d + 1)]
      push_cast
      ring

theorem mapGet_getD_of_mem (freq : List (Byte × Int)) (hnd : (freq.map Prod.fst).Nodup)
    (p : Byte × Int) (hp : p ∈ freq) : (mapGet freq p.1).getD 0 = p.2 := by
  rw [(mapGet_of_mem freq hnd p.1 p.2).2 hp]
  rfl

theorem sum_ownCost_pushAll (freq : List (Byte × Int)) :
    ((pushAll freq).map ownCost).sum = 0 := by
  apply List.sum_eq_zero
  intro x hx
  obtain ⟨t, ht, rfl⟩ := List.mem_map.1 hx
  rw [pushAll_eq_map] at ht
  obtain ⟨p, _, rfl⟩ := List.mem_map.1 ht
  simp [leaf, ownCost, isNull]

/-- Optimality of the built tree for a table without overflow. -/
theorem buildTree_optimal (pick : List charFreqPair → Nat) (freq : List (Byte × Int))
    (hne : freq ≠ []) (hnd : (freq.map Prod.fst).Nodup) (h0 : ∀ p ∈ freq, 0 ≤ p.2)
    (hs : (freq.map Prod.snd).sum < 2 ^ 31) :
    ∃ root, buildTree pick freq = .ok root ∧ full root = true ∧
      (leafEntries root).Perm freq ∧
      ∀ u, full u = true → (leafSyms u).Perm (freq.map Prod.fst) →
        weightedLength freq root ≤ weightedLength freq u := by
  have hq := queueOk_pushAll freq h0 hs
  have hne' : pushAll freq ≠ [] := by
    rw [pushAll_eq_map]
    simpa using hne
  obtain ⟨R, hR, hf, _, hperm, _⟩ :=
    mergeLoop_invariant pick (pushAll freq).length (pushAll freq) hne' (by omega) hq
  obtain ⟨R', hR', hopt⟩ :=
    mergeLoop_optimal pick (pushAll freq).length (pushAll freq) hne' (by omega) hq
  rw [hR] at hR'
  simp only [Except.ok.injEq, List.cons.injEq, and_true] at hR'
  subst hR'
  rw [queueEntries_pushAll] at hperm
  refine ⟨R, by simp [buildTree, hR, pqTop_singleton], hf, hperm, ?_⟩
  intro u hu hpu
  have hroot : weightedLength freq R = ownCost R := by
    rw [weightedLength_eq, weightedAt_eq_ownCost _ R hf]
    · simp
    · intro p hp
      exact mapGet_getD_of_mem freq hnd p (hperm.mem_iff.1 hp)
  have hcu := hopt
    (((leafDepths u 0).map fun p => ((mapGet freq p.1).getD 0, p.2) : List (Int × Nat))
      : Multiset (Int × Nat))
    (by
      simp only [Multiset.map_coe, List.map_map]
      exact treeDepths_of_full u hu)
    (by
      simp only [Multiset.map_coe, List.map_map, Multiset.coe_eq_coe]
      rw [map_getFreq_pushAll]
      have e1 : (leafDepths u 0).map (Prod.fst ∘ fun p => ((mapGet freq p.1).getD 0, p.2))
          = (leafSyms u).map fun c => (mapGet freq c).getD 0 := by
        rw [← leafDepths_fst u 0, List.map_map]
        rfl
      have e2 : freq.map Prod.snd = (freq.map Prod.fst).map fun c => (mapGet freq c).getD 0 := by
        rw [List.map_map]
        apply List.map_congr_left
        intro p hp
        exact (mapGet_getD_of_mem freq hnd p hp).symm
      rw [e1, e2]
      exact hpu.map _)
  have hpc := pairsCost_leafDepths (fun c => (mapGet freq c).getD 0) u 0
  beta_reduce at hpc
  rw [hpc, ← weightedLength_eq, sum_ownCost_pushAll] at hcu
  rw [hroot]
  omega

/-- The length of the bit buffer is the weighted path length of the tree under the frequency
table of the input. -/
theorem encodeBits_length_eq_weightedLength (B : List Byte) (hB : B.length < 2 ^ 31)
    (root : charFreqPair) (hnd : (leafSyms root).Nodup) (hmem : ∀ c, c ∈ leafSyms root ↔ c ∈ B) :
    ((encodeBits (leafPaths root []) B).length : Int) = weightedLength (scanFreq B) root := by
  have hkeys : ((leafPaths root []).map Prod.fst).Nodup := by rw [leafPaths_keys]; exact hnd
  have hcnt := (scanFreq_sum B hB).2.2
  -- the right side as a sum over the symbols of the tree
  have hR : weightedLength (scanFreq B) root = ((leafSyms root).map fun c =>
      (B.count c : Int) * ((((mapGet (leafPaths root []) c).getD []).length : Nat) : Int)).sum := by
    unfold weightedLength
    rw [← leafPaths_keys root [], List.map_map]
    congr 1
    apply List.map_congr_left
    intro p hp
    have hc : p.1 ∈ B := (hmem p.1).1 (by
      rw [← leafPaths_keys root []]
      exact List.mem_map.2 ⟨p, hp, rfl⟩)
    have hg : mapGet (leafPaths root []) p.1 = some p.2 := (mapGet_of_mem _ hkeys p.1 p.2).2 hp
    simp only [Function.comp_apply, hcnt p.1 hc, hg, Option.getD_some]
  -- the left side as a sum over the input
  have hL : ((encodeBits (leafPaths root []) B).length : Int)
      = (B.map fun c => ((((mapGet (leafPaths root []) c).getD []).length : Nat) : Int)).sum := by
    rw [encodeBits_eq_flatMap, length_flatMap_codes, Nat.cast_list_sum, List.map_map]
    rfl
  rw [hL, hR, Finset.sum_list_map_count, ← List.sum_toFinset _ hnd]
  have hset : B.toFinset = (leafSyms root).toFinset := by
    ext c
    simp only [List.mem_toFinset]
    exact (hmem c).symm
  rw [hset]
  apply Finset.sum_congr rfl
  intro c _
  rw [nsmul_eq_mul]

/-- C17 (amended). Optimality of the built tree: for every frequency table with distinct keys,
at least two symbols, counts that are not negative and a sum of counts below `2^31`, and for
every tie-breaking order, the sum over the symbols of count times code length in the tree
built by the merge loop is at most that sum in every other binary tree whose leaves are
exactly the same symbols; hence that sum is the same for every tie-breaking order, and so is
the unpadded length of the bit buffer of an input shorter than `2^31` bytes. -/
theorem huffman_optimal (pick : List charFreqPair → Nat) (freq : List (Byte × Int))
    (h2 : 2 ≤ freq.length) (hnd : (freq.map Prod.fst).Nodup) (h0 : ∀ p ∈ freq, 0 ≤ p.2)
    (hs : (freq.map Prod.snd).sum < 2 ^ 31) :
    ∃ root, buildTree pick freq = .ok root ∧ full root = true ∧
      (leafSyms root).Perm (freq.map Prod.fst) ∧
      (∀ u, full u = true → (leafSyms u).Perm (freq.map Prod.fst) →
        weightedLength freq root ≤ weightedLength freq u) ∧
      (∀ pick' root', buildTree pick' freq = .ok root' →
        weightedLength freq root' = weightedLength freq root) ∧
      (∀ (B : List Byte) pick' root' charKeyMap charKeyMap', B.length < 2 ^ 31 →
        freq = scanFreq B → buildTree pick' freq = .ok root' →
        traverse_charKeyMap root [] [] = .ok charKeyMap →
        traverse_charKeyMap root' [] [] = .ok charKeyMap' →
        (encodeBits charKeyMap' B).length = (encodeBits charKeyMap B).length) := by
  have hne : freq ≠ [] := by
    intro e
    rw [e] at h2
    simp at h2
  obtain ⟨root, hr, hf, hperm, hopt⟩ := buildTree_optimal pick freq hne hnd h0 hs
  have hsyms : (leafSyms root).Perm (freq.map Prod.fst) := by
    rw [← leafEntries_fst]
    exact hperm.map _
  have htie : ∀ pick' root', buildTree pick' freq = .ok root' →
      full root' = true ∧ (leafSyms root').Perm (freq.map Prod.fst) ∧
      weightedLength freq root' = weightedLength freq root := by
    intro pick' root' hr'
    obtain ⟨root2, hr2, hf2, hperm2, hopt2⟩ := buildTree_optimal pick' freq hne hnd h0 hs
    rw [hr'] at hr2
    cases hr2
    have hsyms2 : (leafSyms root').Perm (freq.map Prod.fst) := by
      rw [← leafEntries_fst]
      exact hperm2.map _
    exact ⟨hf2, hsyms2, le_antisymm (hopt2 root hf hsyms) (hopt root' hf2 hsyms2)⟩
  refine ⟨root, hr, hf, hsyms, hopt, fun pick' root' hr' => (htie pick' root' hr').2.2, ?_⟩
  intro B pick' root' ck ck' hB he hr' hck hck'
  obtain ⟨hf', hsyms', hw⟩ := htie pick' root' hr'
  have hnd1 : (leafSyms root).Nodup := hsyms.nodup_iff.2 hnd
  have hnd2 : (leafSyms root').Nodup := hsyms'.nodup_iff.2 hnd
  have hm1 : ∀ c, c ∈ leafSyms root ↔ c ∈ B := by
    intro c
    rw [hsyms.mem_iff, he, mem_scanFreq_keys]
  have hm2 : ∀ c, c ∈ leafSyms root' ↔ c ∈ B := by
    intro c
    rw [hsyms'.mem_iff, he, mem_scanFreq_keys]
  rw [charKeyMap_eq root hf hnd1, Except.ok.injEq] at hck
  rw [charKeyMap_eq root' hf' hnd2, Except.ok.injEq] at hck'
  subst hck hck'
  have e1 := encodeBits_length_eq_weightedLength B hB root hnd1 hm1
  have e2 := encodeBits_length_eq_weightedLength B hB root' hnd2 hm2
  rw [← he, hw] at e2
  rw [← he] at e1
  have : ((encodeBits (leafPaths root' []) B).length : Int)
      = ((encodeBits (leafPaths root []) B).length : Int) := by rw [e1, e2]
  exact_mod_cast this

/-- The tree built for the table of `aaabbc` is no worse than the tree that puts `c` on top. -/
theorem huffman_optimal_witness :
    ∃ root, buildTree pickFirst [(97, 3), (98, 2), (99, 1)] = .ok root ∧
      weightedLength [(97, 3), (98, 2), (99, 1)] root
        ≤ weightedLength [(97, 3), (98, 2), (99, 1)]
            (obj 0 0 (leaf 99 0) (obj 0 0 (leaf 97 0) (leaf 98 0))) := by
  obtain ⟨root, hr, _, _, hopt, _⟩ :=
    huffman_optimal pickFirst [(97, 3), (98, 2), (99, 1)] (by decide) (by decide) (by decide)
      (by decide)
  exact ⟨root, hr, hopt _ (by decide) (by decide)⟩

/-- C17 fails as stated: for the table with five symbols of count `2^30` each, the sums of the
merge loop wrap around and the built tree is the chain with depths 4, 4, 3, 2, 1 and
weighted path length `14 * 2^30`; the tree with depths 2, 2, 2, 3, 3 over the same symbols
has weighted path length `12 * 2^30`. -/
theorem built_tree_not_optimal :
    buildTree pickFirst
        [(0, 1073741824), (1, 1073741824), (2, 1073741824), (3, 1073741824), (4, 1073741824)]
      = .ok (obj 126 1073741824
          (obj 126 0
            (obj 126 (-1073741824)
              (obj 126 (-2147483648) (leaf 0 1073741824) (leaf 1 1073741824))
              (leaf 2 1073741824))
            (leaf 3 1073741824))
          (leaf 4 1073741824)) ∧
    weightedLength
        [(0, 1073741824), (1, 1073741824), (2, 1073741824), (3, 1073741824), (4, 1073741824)]
        (obj 126 1073741824
          (obj 126 0
            (obj 126 (-1073741824)
              (obj 126 (-2147483648) (leaf 0 1073741824) (leaf 1 1073741824))
              (leaf 2 1073741824))
            (leaf 3 1073741824))
          (leaf 4 1073741824)) = 15032385536 ∧
    full (obj 0 0 (obj 0 0 (leaf 0 0) (leaf 1 0))
      (obj 0 0 (leaf 2 0) (obj 0 0 (leaf 3 0) (leaf 4 0)))) = true ∧
    leafSyms (obj 0 0 (obj 0 0 (leaf 0 0) (leaf 1 0))
      (obj 0 0 (leaf 2 0) (obj 0 0 (leaf 3 0) (leaf 4 0)))) = [0, 1, 2, 3, 4] ∧
    weightedLength
        [(0, 1073741824), (1, 1073741824), (2, 1073741824), (3, 1073741824), (4, 1073741824)]
        (obj 0 0 (obj 0 0 (leaf 0 0) (leaf 1 0))
          (obj 0 0 (leaf 2 0) (obj 0 0 (leaf 3 0) (leaf 4 0)))) = 12884901888 :=
  ⟨rfl, by decide, by decide, by decide, by decide⟩

/-! ## C19: code length against frequency -/

theorem isNull_relabel (σ : Byte → Byte) (t : charFreqPair) :
    (relabel σ t).isNull = t.isNull := by
  cases t with
  | null => rfl
  | obj ch f l r =>
    by_cases hl : (l.isNull && r.isNull) = true
    · rw [relabel, if_pos hl]; rfl
    · rw [relabel, if_neg hl]; rfl

theorem full_relabel (σ : Byte → Byte) (t : charFreqPair) : full (relabel σ t) = full t := by
  induction t with
  | null => rfl
  | obj ch f l r ihl ihr =>
    by_cases hl : (l.isNull && r.isNull) = true
    · rw [relabel, if_pos hl]
      simp [full, hl, isNull_iff]
    · rw [relabel, if_neg hl, full, full, isNull_relabel, isNull_relabel, ihl, ihr]

theorem leafPaths_relabel (σ : Byte → Byte) (t : charFreqPair) :
    ∀ s : Code, leafPaths (relabel σ t) s = (leafPaths t s).map fun p => (σ p.1, p.2) := by
  induction t with
  | null => intro s; rfl
  | obj ch f l r ihl ihr =>
    intro s
    by_cases hl : (l.isNull && r.isNull) = true
    · rw [relabel, if_pos hl]
      simp [leafPaths, hl, isNull_iff]
    · have hs : ¬ ((relabel σ l).isNull && (relabel σ r).isNull) = true := by
        rw [isNull_relabel, isNull_relabel]; exact hl
      rw [relabel, if_neg hl, leafPaths, leafPaths, if_neg hl, if_neg hs, ihl, ihr,
        List.map_append]

theorem leafSyms_relabel (σ : Byte → Byte) (t : charFreqPair) :
    leafSyms (relabel σ t) = (leafSyms t).map σ := by
  rw [← leafPaths_keys (relabel σ t) [], leafPaths_relabel, ← leafPaths_keys t [],
    List.map_map, List.map_map]
  rfl

theorem swapSym_swapSym (a b c : Byte) : swapSym a b (swapSym a b c) = c := by
  unfold swapSym
  by_cases h1 : c = a
  · by_cases h2 : b = a
    · simp [h1, h2]
    · simp [h1, h2]
  · by_cases h2 : c = b
    · simp [h1, h2]
    · simp [h1, h2]

/-- Exchanging two symbols of a list without repetitions rearranges the list. -/
theorem perm_map_swapSym (a b : Byte) (l : List Byte) (hnd : l.Nodup) (ha : a ∈ l)
    (hb : b ∈ l) : (l.map (swapSym a b)).Perm l := by
  have hinj : Function.Injective (swapSym a b) := by
    intro x y h
    have := congrArg (swapSym a b) h
    rwa [swapSym_swapSym, swapSym_swapSym] at this
  rw [List.perm_ext_iff_of_nodup (hnd.map hinj) hnd]
  intro c
  rw [List.mem_map]
  constructor
  · rintro ⟨x, hx, rfl⟩
    unfold swapSym
    by_cases h1 : x = a
    · simp only [h1, if_true]
      exact hb
    · by_cases h2 : x = b
      · simp only [h1, h2, if_true, if_false]
        split
        · exact hb
        · exact ha
      · simp only [h1, h2, if_false]
        exact hx
  · intro hc
    refine ⟨swapSym a b c, ?_, swapSym_swapSym a b c⟩
    unfold swapSym
    by_cases h1 : c = a
    · simp only [h1, if_true]
      exact hb
    · by_cases h2 : c = b
      · simp only [h1, h2, if_true, if_false]
        split
        · exact hb
        · exact ha
      · simp only [h1, h2, if_false]
        exact hc

/-- Effect of exchanging two symbols on the weighted path length. -/
theorem sum_swapSym (g : Byte → Int) (L : List (Byte × Code)) (hnd : (L.map Prod.fst).Nodup)
    (a b : Byte) (ka kb : Code) (ha : (a, ka) ∈ L) (hb : (b, kb) ∈ L) (hab : a ≠ b) :
    (L.map fun p => g (swapSym a b p.1) * (p.2.length : Int)).sum
      = (L.map fun p => g p.1 * (p.2.length : Int)).sum
        - (g a - g b) * ((ka.length : Int) - (kb.length : Int)) := by
  obtain ⟨L1, h1⟩ : ∃ L1, L.Perm ((a, ka) :: L1) := ⟨_, List.perm_cons_erase ha⟩
  have hb1 : (b, kb) ∈ L1 := by
    have := h1.mem_iff.1 hb
    rcases List.mem_cons.1 this with e | h
    · exact absurd (congrArg Prod.fst e).symm hab
    · exact h
  obtain ⟨L2, h2⟩ : ∃ L2, L1.Perm ((b, kb) :: L2) := ⟨_, List.perm_cons_erase hb1⟩
  have hperm : L.Perm ((a, ka) :: (b, kb) :: L2) := h1.trans (h2.cons _)
  have hnd' := (hperm.map Prod.fst).nodup_iff.1 hnd
  simp only [List.map_cons, List.nodup_cons, List.mem_cons, not_or, List.mem_map] at hnd'
  have hrest : ∀ p ∈ L2, swapSym a b p.1 = p.1 := by
    intro p hp
    have h1 : ¬ p.1 = a := fun e => hnd'.1.2 ⟨p, hp, e⟩
    have h2 : ¬ p.1 = b := fun e => hnd'.2.1 ⟨p, hp, e⟩
    simp [swapSym, h1, h2]
  have e : L2.map (fun p => g (swapSym a b p.1) * (p.2.length : Int))
      = L2.map (fun p => g p.1 * (p.2.length : Int)) := by
    apply List.map_congr_left
    intro p hp
    rw [hrest p hp]
  have hsa : swapSym a b a = b := by simp [swapSym]
  have hsb : swapSym a b b = a := by
    unfold swapSym
    simp [Ne.symm hab]
  rw [(hperm.map _).sum_eq, (hperm.map fun p => g p.1 * (p.2.length : Int)).sum_eq]
  simp only [List.map_cons, List.sum_cons, e, hsa, hsb]
  ring

/-- C19 (amended). Code length is monotone in frequency: for every input shorter than `2^31`
bytes, every tie-breaking order and every two symbols `a` and `b` occurring in the input, if
`a` occurs strictly more often than `b` then the bitcode `compressFile` assigns to `a` is no
longer than the bitcode it assigns to `b`. -/
theorem code_length_monotone (pick : List charFreqPair → Nat) (B : List Byte)
    (hB : B.length < 2 ^ 31) (a b : Byte) (ha : a ∈ B) (hb : b ∈ B)
    (hab : B.count b < B.count a) :
    ∃ root charKeyMap ka kb, buildTree pick (scanFreq B) = .ok root ∧
      traverse_charKeyMap root [] [] = .ok charKeyMap ∧
      mapGet charKeyMap a = some ka ∧ mapGet charKeyMap b = some kb ∧
      ka.length ≤ kb.length := by
  have hne : B ≠ [] := List.ne_nil_of_mem ha
  obtain ⟨h1, hsum, hcnt⟩ := scanFreq_sum B hB
  obtain ⟨root, hr, hf, hperm, hopt⟩ := buildTree_optimal pick (scanFreq B)
    (scanFreq_ne_nil B hne) (scanFreq_keys_nodup B)
    (fun p hp => le_trans (by decide) (h1 p hp)) (by rw [hsum]; exact_mod_cast hB)
  have hsyms : (leafSyms root).Perm ((scanFreq B).map Prod.fst) := by
    rw [← leafEntries_fst]
    exact hperm.map _
  have hnd : (leafSyms root).Nodup := hsyms.nodup_iff.2 (scanFreq_keys_nodup B)
  have hkeys : ((leafPaths root []).map Prod.fst).Nodup := by rw [leafPaths_keys]; exact hnd
  have hin : ∀ c ∈ B, c ∈ leafSyms root := fun c hc =>
    hsyms.mem_iff.2 ((mem_scanFreq_keys B c).2 hc)
  have hex : ∀ c ∈ B, ∃ k, (c, k) ∈ leafPaths root [] := by
    intro c hc
    have := hin c hc
    rw [← leafPaths_keys root []] at this
    obtain ⟨p, hp, rfl⟩ := List.mem_map.1 this
    exact ⟨p.2, hp⟩
  obtain ⟨ka, hka⟩ := hex a ha
  obtain ⟨kb, hkb⟩ := hex b hb
  have hne_ab : a ≠ b := by
    rintro rfl
    exact lt_irrefl _ hab
  refine ⟨root, leafPaths root [], ka, kb, hr, charKeyMap_eq root hf hnd,
    (mapGet_of_mem _ hkeys a ka).2 hka, (mapGet_of_mem _ hkeys b kb).2 hkb, ?_⟩
  by_contra hlt
  have hlt' : kb.length < ka.length := by omega
  have hu := hopt (relabel (swapSym a b) root) (by rw [full_relabel]; exact hf)
    (by
      rw [leafSyms_relabel]
      exact (perm_map_swapSym a b _ hnd (hin a ha) (hin b hb)).trans hsyms)
  have hswap := sum_swapSym (fun c => (mapGet (scanFreq B) c).getD 0) (leafPaths root [])
    hkeys a b ka kb hka hkb hne_ab
  have hwu : weightedLength (scanFreq B) (relabel (swapSym a b) root)
      = ((leafPaths root []).map fun p =>
          (mapGet (scanFreq B) (swapSym a b p.1)).getD 0 * (p.2.length : Int)).sum := by
    unfold weightedLength
    rw [leafPaths_relabel, List.map_map]
    rfl
  have hwr : weightedLength (scanFreq B) root
      = ((leafPaths root []).map fun p =>
          (mapGet (scanFreq B) p.1).getD 0 * (p.2.length : Int)).sum := rfl
  rw [hwu, hwr] at hu
  simp only at hswap
  rw [hswap, hcnt a ha, hcnt b hb] at hu
  simp only [Option.getD_some] at hu
  have hpos : (0 : Int) < ((B.count a : Int) - (B.count b : Int))
      * ((ka.length : Int) - (kb.length : Int)) := by
    apply mul_pos
    · have : (B.count b : Int) < B.count a := by exact_mod_cast hab
      omega
    · have : (kb.length : Int) < ka.length := by exact_mod_cast hlt'
      omega
  omega

/-- In `aaabbc` the byte `a` occurs more often than `c`, so its code is no longer. -/
theorem code_length_monotone_witness :
    ∃ root charKeyMap ka kb, buildTree pickFirst (scanFreq [97, 97, 97, 98, 98, 99]) = .ok root ∧
      traverse_charKeyMap root [] [] = .ok charKeyMap ∧
      mapGet charKeyMap 97 = some ka ∧ mapGet charKeyMap 99 = some kb ∧
      ka.length ≤ kb.length :=
  code_length_monotone pickFirst [97, 97, 97, 98, 98, 99] (by simp) 97 99 (by simp) (by simp)
    (by decide)

theorem scanFreq_replicate_append (n : Nat) (hn : 0 < n) (c : Byte) (rest : List Byte) :
    scanFreq (List.replicate n c ++ rest) = rest.foldl freqIncr [(c, wrapInt n)] := by
  obtain ⟨m, rfl⟩ := Nat.exists_eq_succ_of_ne_zero (Nat.pos_iff_ne_zero.1 hn)
  have h := scanFreq_replicate_succ c m
  unfold scanFreq at h ⊢
  rw [List.foldl_append, h]
  rfl

/-- C19 fails as stated: in the input of `2^31` zero bytes followed by `1 1 2` the byte 0
occurs `2^31` times and the byte 1 twice, but the count stored for 0 is `-2^31`, the least of
the table, and 0 gets a code of 2 bits while 1 gets a code of 1 bit. -/
theorem frequent_symbol_longer_code :
    scanFreq (List.replicate (2 ^ 31) 0 ++ [1, 1, 2]) = [(0, -2147483648), (1, 2), (2, 1)] ∧
    buildTree pickFirst [(0, -2147483648), (1, 2), (2, 1)]
      = .ok (obj 126 (-2147483645) (obj 126 (-2147483647) (leaf 0 (-2147483648)) (leaf 2 1))
          (leaf 1 2)) ∧
    traverse_charKeyMap (obj 126 (-2147483645)
        (obj 126 (-2147483647) (leaf 0 (-2147483648)) (leaf 2 1)) (leaf 1 2)) [] []
      = .ok [(0, [false, false]), (2, [false, true]), (1, [true])] ∧
    (List.replicate (2 ^ 31) (0 : Byte) ++ [1, 1, 2]).count 1 = 2 ∧
    (List.replicate (2 ^ 31) (0 : Byte) ++ [1, 1, 2]).count 0 = 2 ^ 31 := by
  refine ⟨?_, rfl, rfl, ?_, ?_⟩
  · rw [scanFreq_replicate_append _ (Nat.pos_pow_of_pos 31 (by omega))]
    decide
  · rw [List.count_append, List.count_replicate]
    decide
  · rw [List.count_append, List.count_replicate_self]
    decide

end Huffman
